import Mathlib

/-!
# agency-scraper: the monitoring pipeline

A shallow embedding of `src/processor.go` (the polling loop, the per-agency
seen-sets and the notification step) and of `src/agency.go` (the per-agency
extraction callbacks), followed by the properties proved about them.

Go strings are embedded as Lean strings (sequences of runes; the texts handled
here come out of an HTML parser and are valid UTF-8).  A Go `map[string]bool`
is embedded as a function from keys to optional values.  Side effects
(standard output, map writes, calls of the notifier, log lines) are recorded in
explicit traces, in the order in which the code performs them.
-/

namespace AgencyScraper

/-! ## Data model -/

/-- Agency is the string type `Agency` of `agency.go`. -/
abbrev Agency := String

def Afedim : Agency := "Afedim"
def Giboire : Agency := "Giboire"
def Foncia : Agency := "Foncia"
def AgenceDuColombier : Agency := "Agence du Colombier"
def LaFrancaiseImmobiliere : Agency := "La Française Immobilière"
def Guenno : Agency := "Guenno"
def LaMotte : Agency := "La Motte"
def Kermarrec : Agency := "Kermarrec"
def Nestenn : Agency := "Nestenn"

/-- Modelled from the spec: the declaration of the `Announcement` type is not in
the two source files.  Its two string fields are the ones the code reads and
writes (`propertyReference`, `url`), the spec's `Listing{reference, url}`. -/
structure Announcement where
  propertyReference : String
  url : String
deriving DecidableEq, Repr

/-- A Go `map[string]bool`: `none` is an absent key. -/
abbrev RefMap := String → Option Bool

/-- The map built by `make(map[string]bool)`. -/
def RefMap.empty : RefMap := fun _ => none

/-- The assignment `m[k] = v`. -/
def RefMap.set (m : RefMap) (k : String) (v : Bool) : RefMap :=
  fun x => if x = k then some v else m x

/-- The test `_, exists := m[k]`. -/
def RefMap.has (m : RefMap) (k : String) : Bool := (m k).isSome

/-- The three operands of the `fmt.Sprintf` call whose result is handed to
`sendTelegramMessageToPublicChannel`. -/
structure Notification where
  title : String
  propertyReference : String
  url : String
deriving DecidableEq, Repr

/-- The text `fmt.Sprintf("%s\nNouvelle annonce immobilière !\nRéférence : %s\nURL : %s", ...)`. -/
def Notification.text (n : Notification) : String :=
  n.title ++ "\nNouvelle annonce immobilière !\nRéférence : " ++ n.propertyReference
    ++ "\nURL : " ++ n.url

/-- The side effects of `processAgencyScraping`, in program order. -/
inductive Effect where
  /-- A line written by `fmt.Println`. -/
  | println (line : String)
  /-- The write `processedReferences[key] = true`. -/
  | store (key : String)
  /-- A call of `sendTelegramMessageToPublicChannel` with the text of `n`;
  `delivered` is what the notifier made of it. -/
  | telegram (n : Notification) (delivered : Bool)
deriving DecidableEq, Repr

/-- The notifier `sendTelegramMessageToPublicChannel` is not in the source
files: it is a parameter.  It gets its own state and the text, and answers with
its new state and whether the message was delivered.  The caller discards the
answer. -/
abbrev Notifier (σ : Type) := σ → String → σ × Bool

/-- The scraper `collyService.ScrapeAnnouncement(nameAgency, url)` is not in
the source files: it is a parameter, the list of announcements it returns for
an agency and a search URL during one pass. -/
abbrev Scrape := Agency → String → List Announcement

/-- What one call of `processAgencyScraping` reads and writes: the seen-set it
is given, the notifier, and the effects performed so far. -/
structure Run (σ : Type) where
  processedReferences : RefMap
  notifier : σ
  trace : List Effect

/-! ## processor.go -/

/-- The body of the `for _, announcement := range newAnnouncements` loop
(processor.go, lines 76-88). -/
def compareReference {σ : Type} (send : Notifier σ) (titleMessageTelegram : String)
    (st : Run σ) (announcement : Announcement) : Run σ :=
  match st.processedReferences announcement.propertyReference with
  | some _ => st
  | none =>
    let n : Notification :=
      { title := titleMessageTelegram
        propertyReference := announcement.propertyReference
        url := announcement.url }
    let r := send st.notifier n.text
    { processedReferences := st.processedReferences.set announcement.propertyReference true
      notifier := r.1
      trace := st.trace ++
        [ Effect.println ("Nouvelle annonce détectée référence : " ++ announcement.propertyReference),
          Effect.store announcement.propertyReference,
          Effect.telegram n r.2 ] }

/-- The function `processAgencyScraping` (processor.go, lines 67-90). -/
def processAgencyScraping {σ : Type} (scrape : Scrape) (send : Notifier σ) (st : Run σ)
    (url : String) (titleMessageTelegram : String) (nameAgency : Agency) : Run σ :=
  let newAnnouncements := scrape nameAgency url
  newAnnouncements.foldl (compareReference send titleMessageTelegram) st

/-- The nine call sites of `processAgencyScraping` in `RunScraper`. -/
inductive Source where
  | afedim | giboire | foncia | agenceDuColombier | laFrancaiseImmobiliere
  | guenno | laMotte | kermarrec | nestenn
deriving DecidableEq, Repr

/-- The nine call sites in the order of the loop body. -/
def Source.all : List Source :=
  [.afedim, .giboire, .foncia, .agenceDuColombier, .laFrancaiseImmobiliere,
   .guenno, .laMotte, .kermarrec, .nestenn]

/-- The `url` argument at each call site. -/
def Source.url : Source → String
  | .afedim => "https://www.afedim.fr/fr/location/annonces/Appartement-Maison-Parking-Garage/Rennes-France/1-5-pieces/surface-0-100-m2/budget-0-90000-euros/rayon-10-km/disponible-/options-/exclusPlafondRess-/Resultats"
  | .giboire => "https://www.giboire.com/recherche-location/appartement/?searchBy=default&address%5B%5D=RENNES&address%5B%5D=CHANTEPIE&address%5B%5D=CESSON+SEVIGNE&priceMax=700&nbBedrooms%5B%5D=1&transactionType%5B%5D=Location&searchBy=default"
  | .foncia => "https://fr.foncia.com/location/rennes-35--chantepie-35135--cesson-sevigne-35510/appartement?nbPiece=2--&prix=--700&advanced="
  | .agenceDuColombier => "https://agenceducolombier.com/annonces/?filter_search_action%5B%5D=louer&filter_search_type%5B%5D=&nb-pieces=&min-chambres=&min-surface=&max-surface=&price_low=0&price_max=6000000&submit=LANCER+MA+RECHERCHE"
  | .laFrancaiseImmobiliere => "https://www.la-francaise-immobiliere.fr/location/?post_types=location&categorie%5B%5D=27&zone%5B%5D=6212&zone%5B%5D=6204&zone%5B%5D=6214&nb_chambres_min=0&nb_chambres_max=&prix_min=0&prix_max=700&submitted=1&o=date-desc&action=load_search_results&wia_6_type=&searchOnMap=0&wia_1_reference="
  | .guenno => "https://www.guenno.com/biens/recherche?mandate_type=2&realty_type%5B%5D=1&number_room%5B%5D=2&min_surface=&town=RENNES+35000&price_max=700"
  | .laMotte => "https://www.kermarrec-habitation.fr/location/?post_type=location&false-select=on&99795fbc=&ville%5B%5D=cesson-sevigne-35510&ville%5B%5D=chantepie-35135&ville%5B%5D=rennes-35000&typebien%5B%5D=appartement&budget_max=700&reference=&rayon=0&avec_carte=false&tri=pertinence"
  | .kermarrec => "https://www.kermarrec-habitation.fr/location/?post_type=location&false-select=on&99795fbc=&ville%5B%5D=cesson-sevigne-35510&ville%5B%5D=chantepie-35135&ville%5B%5D=rennes-35000&typebien%5B%5D=appartement&budget_max=700&reference=&rayon=0&avec_carte=false&tri=pertinence"
  | .nestenn => "https://immobilier-rennes-centre.nestenn.com/?action=listing&prestige=0&meuble=0&transaction=louer&list_ville=35+Rennes%2C35135+Chantepie%2C35510+Cesson-S%C3%A9vign%C3%A9&list_type=Appartement&type=Appartement&prix_max=700&pieces=2"

/-- The `titleMessageTelegram` argument at each call site. -/
def Source.title : Source → String
  | .afedim => "AFEDIM"
  | .giboire => "GIBOIRE"
  | .foncia => "FONCIA"
  | .agenceDuColombier => "AGENCE DU COLOMBIER"
  | .laFrancaiseImmobiliere => "LA FRANCAISE IMMOBILIERE"
  | .guenno => "GUENNO"
  | .laMotte => "LA MOTTE"
  | .kermarrec => "KERMARREC"
  | .nestenn => "NESTENN"

/-- The `nameAgency` argument at each call site. -/
def Source.nameAgency : Source → Agency
  | .afedim => "Afedim"
  | .giboire => "Giboire"
  | .foncia => "Foncia"
  | .agenceDuColombier => "Agence du Colombier"
  | .laFrancaiseImmobiliere => "La Française Immobilière"
  | .guenno => "Guenno"
  | .laMotte => "La Motte"
  | .kermarrec => "Kermarrec"
  | .nestenn => "Nestenn"

/-- The local variables of `RunScraper` (one map per agency), together with the
notifier and the effects performed so far. -/
structure Scraper (σ : Type) where
  processedReferencesAfedim : RefMap
  processedReferencesGiboire : RefMap
  processedReferencesFoncia : RefMap
  processedReferencesAgenceDuColombier : RefMap
  processedReferencesLaFrancaiseImmobiliere : RefMap
  processedReferencesGuenno : RefMap
  processedReferencesLaMotte : RefMap
  processedReferencesKermarrec : RefMap
  processedReferencesNestenn : RefMap
  notifier : σ
  trace : List Effect

/-- The state of `RunScraper` before its loop: nine maps made empty. -/
def Scraper.init {σ : Type} (notifier : σ) : Scraper σ :=
  { processedReferencesAfedim := RefMap.empty
    processedReferencesGiboire := RefMap.empty
    processedReferencesFoncia := RefMap.empty
    processedReferencesAgenceDuColombier := RefMap.empty
    processedReferencesLaFrancaiseImmobiliere := RefMap.empty
    processedReferencesGuenno := RefMap.empty
    processedReferencesLaMotte := RefMap.empty
    processedReferencesKermarrec := RefMap.empty
    processedReferencesNestenn := RefMap.empty
    notifier := notifier
    trace := [] }

/-- The map passed as first argument at a call site. -/
def Scraper.seen {σ : Type} (s : Scraper σ) : Source → RefMap
  | .afedim => s.processedReferencesAfedim
  | .giboire => s.processedReferencesGiboire
  | .foncia => s.processedReferencesFoncia
  | .agenceDuColombier => s.processedReferencesAgenceDuColombier
  | .laFrancaiseImmobiliere => s.processedReferencesLaFrancaiseImmobiliere
  | .guenno => s.processedReferencesGuenno
  | .laMotte => s.processedReferencesLaMotte
  | .kermarrec => s.processedReferencesKermarrec
  | .nestenn => s.processedReferencesNestenn

/-- Writing back what a call did to the map it was given (Go maps are
references: the callee's writes are the caller's). -/
def Scraper.update {σ : Type} (s : Scraper σ) (r : Run σ) : Source → Scraper σ
  | .afedim => { s with processedReferencesAfedim := r.processedReferences, notifier := r.notifier, trace := r.trace }
  | .giboire => { s with processedReferencesGiboire := r.processedReferences, notifier := r.notifier, trace := r.trace }
  | .foncia => { s with processedReferencesFoncia := r.processedReferences, notifier := r.notifier, trace := r.trace }
  | .agenceDuColombier => { s with processedReferencesAgenceDuColombier := r.processedReferences, notifier := r.notifier, trace := r.trace }
  | .laFrancaiseImmobiliere => { s with processedReferencesLaFrancaiseImmobiliere := r.processedReferences, notifier := r.notifier, trace := r.trace }
  | .guenno => { s with processedReferencesGuenno := r.processedReferences, notifier := r.notifier, trace := r.trace }
  | .laMotte => { s with processedReferencesLaMotte := r.processedReferences, notifier := r.notifier, trace := r.trace }
  | .kermarrec => { s with processedReferencesKermarrec := r.processedReferences, notifier := r.notifier, trace := r.trace }
  | .nestenn => { s with processedReferencesNestenn := r.processedReferences, notifier := r.notifier, trace := r.trace }

/-- One call site of the loop body of `RunScraper`:
`processAgencyScraping(processedReferencesX, url, title, name)`. -/
def Scraper.call {σ : Type} (scrape : Scrape) (send : Notifier σ) (s : Scraper σ)
    (x : Source) : Scraper σ :=
  s.update
    (processAgencyScraping scrape send
      { processedReferences := s.seen x, notifier := s.notifier, trace := s.trace }
      x.url x.title x.nameAgency)
    x

/-- One iteration of the `for` loop of `RunScraper` (processor.go, lines 27-52),
the sleep left out: the nine calls in order. -/
def cycle {σ : Type} (scrape : Scrape) (send : Notifier σ) (s : Scraper σ) : Scraper σ :=
  let s := s.call scrape send .afedim
  let s := s.call scrape send .giboire
  let s := s.call scrape send .foncia
  let s := s.call scrape send .agenceDuColombier
  let s := s.call scrape send .laFrancaiseImmobiliere
  let s := s.call scrape send .guenno
  let s := s.call scrape send .laMotte
  let s := s.call scrape send .kermarrec
  let s := s.call scrape send .nestenn
  s

/-- The loop of `RunScraper` never ends; this is the state after the passes
whose scraping results are listed in `passes`, starting from empty maps. -/
def RunScraper {σ : Type} (send : Notifier σ) (notifier : σ) (passes : List Scrape) :
    Scraper σ :=
  passes.foldl (fun s scrape => cycle scrape send s) (Scraper.init notifier)

/-! ## The Go library functions that agency.go calls

Strings are handled as lists of runes.  `strings.TrimSpace` uses
`unicode.IsSpace` and `fmt` its own table `space`; the two list the same code
points, so one predicate serves both. -/

/-- The white space of Go: `isSpace` of fmt/scan.go, and `unicode.IsSpace`. -/
def isSpace (r : Char) : Bool :=
  (decide (0x09 ≤ r.toNat) && decide (r.toNat ≤ 0x0d)) || r.toNat == 0x20 || r.toNat == 0x85
    || r.toNat == 0xa0 || r.toNat == 0x1680
    || (decide (0x2000 ≤ r.toNat) && decide (r.toNat ≤ 0x200a))
    || r.toNat == 0x2028 || r.toNat == 0x2029 || r.toNat == 0x202f || r.toNat == 0x205f
    || r.toNat == 0x3000

/-- Dropping the white space at the end of a list of runes. -/
def trimRight (s : List Char) : List Char := (s.reverse.dropWhile isSpace).reverse

/-- Dropping the white space at both ends of a list of runes. -/
def trimChars (s : List Char) : List Char := trimRight (s.dropWhile isSpace)

/-- The function `strings.TrimSpace`. -/
def TrimSpace (s : String) : String := ⟨trimChars s.data⟩

/-- The function `strings.HasPrefix`. -/
def HasPrefix (s pre : String) : Bool := pre.data.isPrefixOf s.data

/-- The function `strings.TrimPrefix`. -/
def TrimPrefix (s pre : String) : String :=
  if HasPrefix s pre then ⟨s.data.drop pre.data.length⟩ else s

/-- The function `strings.HasSuffix`. -/
def HasSuffix (s suf : String) : Bool := suf.data.isSuffixOf s.data

/-- The function `strings.TrimSuffix`. -/
def TrimSuffix (s suf : String) : String :=
  if HasSuffix s suf then ⟨s.data.take (s.data.length - suf.data.length)⟩ else s

/-- The function `strings.Index` on runes: the position of the first occurrence
of `sep`, if any. -/
def indexChars (sep : List Char) : List Char → Option Nat
  | [] => if sep.isEmpty then some 0 else none
  | c :: s => if sep.isPrefixOf (c :: s) then some 0 else (indexChars sep s).map (· + 1)

/-- The function `strings.Contains`: `strings.Index(s, substr) >= 0`. -/
def Contains (s substr : String) : Bool := (indexChars substr.data s.data).isSome

/-- The loop of `genSplit` (strings.go) for a non-empty separator: cut at the
first occurrence, go on after it; `n` bounds the number of cuts, as the count of
separators does in Go. -/
def genSplit (sep : List Char) : Nat → List Char → List (List Char)
  | 0, s => [s]
  | n + 1, s =>
    match indexChars sep s with
    | none => [s]
    | some m => s.take m :: genSplit sep n (s.drop (m + sep.length))

/-- The function `strings.Split` for a non-empty separator (the only use in the
source); a string has at most as many separators as runes. -/
def Split (s sep : String) : List String :=
  (genSplit sep.data s.data.length s.data).map String.mk

/-- The result of `fmt.Sscanf(str, format, &reference)`: the value of
`reference` after the call and the error (`none` is `nil`), as its message. -/
structure Scanned where
  reference : String
  err : Option String
deriving DecidableEq, Repr

/-- The runs of space of a format, as `advance` (fmt/scan.go) counts them: the
number of newlines and whether spaces come after the last one. -/
structure SpaceRun where
  newlines : Nat
  trailingSpace : Bool

/-- A space other than newline. -/
def isBlank (r : Char) : Bool := isSpace r && r != '\n'

/-- Skipping the spaces other than newline. -/
def skipBlanks (input : List Char) : List Char := input.dropWhile isBlank

/-- The `for j := 0; j < newlines; j++` loop of `advance`: each newline of the
format takes spaces and then a newline or the end of the input. -/
def matchNewlines : Nat → List Char → Except String (List Char)
  | 0, input => .ok input
  | n + 1, input =>
    match skipBlanks input with
    | [] => matchNewlines n []
    | r :: rest =>
      if r = '\n' then matchNewlines n rest
      else .error "newline in format does not match input"

/-- The space processing of `advance` once the run of spaces of the format has
been read. -/
def matchSpaceRun (run : SpaceRun) (input : List Char) : Except String (List Char) :=
  match matchNewlines run.newlines input with
  | .error e => .error e
  | .ok input =>
    if run.trailingSpace then
      match input with
      | [] => .ok []
      | r :: rest =>
        if run.newlines = 0 ∧ !isSpace r then
          .error "expected space in input to match format"
        else if run.newlines = 0 ∧ r = '\n' then
          .error "newline in input does not match format"
        else .ok (skipBlanks (r :: rest))
    else .ok input

/-- The pending run of spaces, closed before the next rune of the format. -/
def closeRun (run : Option SpaceRun) (input : List Char) : Except String (List Char) :=
  match run with
  | none => .ok input
  | some run => matchSpaceRun run input

/-- The function `advance` of fmt/scan.go, together with the test `w < 0` of
`doScanf`: the literal text and the spaces of the format, up to the first `%`
or the end of the format, matched against the input.  It answers with what is
left of the format and of the input.  (`%%` is not modelled: no format of the
source has one.) -/
def advance : List Char → Option SpaceRun → List Char → Except String (List Char × List Char)
  | [], run, input =>
    match closeRun run input with
    | .error e => .error e
    | .ok input => .ok ([], input)
  | fmtc :: format, run, input =>
    if isSpace fmtc then
      let newlines := match run with | none => 0 | some r => r.newlines
      advance format
        (some (if fmtc = '\n' then ⟨newlines + 1, false⟩ else ⟨newlines, true⟩)) input
    else
      match closeRun run input with
      | .error e => .error e
      | .ok input =>
        if fmtc = '%' then .ok (fmtc :: format, input)
        else
          match input with
          | [] => .error "unexpected EOF"
          | inputc :: rest =>
            if fmtc = inputc then advance format none rest
            else .error "input does not match format"

/-- The method `SkipSpace` of fmt/scan.go when newlines are not spaces (the mode
of `Sscanf`). -/
def SkipSpace : List Char → Except String (List Char)
  | [] => .ok []
  | r :: rest =>
    if r = '\r' ∧ rest.head? = some '\n' then SkipSpace rest
    else if r = '\n' then .error "unexpected newline"
    else if !isSpace r then .ok (r :: rest)
    else SkipSpace rest

/-- The method `convertString` of fmt/scan.go for the verb `%s`: skip spaces,
fail at the end of the input, take the runes up to the next space. -/
def convertString (input : List Char) : Except String (List Char) :=
  match SkipSpace input with
  | .error e => .error e
  | .ok input =>
    match input with
    | [] => .error "EOF"
    | _ :: _ =>
      match SkipSpace input with
      | .error e => .error e
      | .ok input => .ok (input.takeWhile (fun r => !isSpace r))

/-- The method `doScanf` of fmt/scan.go for one `*string` operand and a format
made of literal text and spaces followed by one final `%s` (the four formats of
the source).  A format without verb has too many operands; other verbs, widths
and text after the verb are outside the model. -/
def doScanf (format : List Char) (input : List Char) : Except String (List Char) :=
  match advance format none input with
  | .error e => .error e
  | .ok ([], _) => .error "too many operands"
  | .ok (['%', 's'], input) =>
    match SkipSpace input with
    | .error e => .error e
    | .ok input => convertString input
  | .ok _ => .error "format outside the model"

/-- The call `fmt.Sscanf(str, format, &reference)` with `reference` declared
just before (so empty): on success `reference` holds the word scanned, on
error it is left empty. -/
def Sscanf (str format : String) : Scanned :=
  match doScanf format.data str.data with
  | .ok word => { reference := ⟨word⟩, err := none }
  | .error e => { reference := "", err := some e }

/-! ## agency.go: the detail-page callbacks -/

/-- What the detail-page callbacks write: the slice `*announcements` and the
lines given to `log.Printf`. -/
structure Extraction where
  announcements : List Announcement
  log : List String
deriving DecidableEq, Repr

/-- Nothing extracted yet, nothing logged. -/
def Extraction.empty : Extraction := { announcements := [], log := [] }

/-- The statement `*announcements = append(*announcements, Announcement{...})`. -/
def Extraction.append (st : Extraction) (reference url : String) : Extraction :=
  { st with announcements := st.announcements ++ [{ propertyReference := reference, url := url }] }

/-- A call of `log.Printf`, by the line it writes. -/
def Extraction.printf (st : Extraction) (line : String) : Extraction :=
  { st with log := st.log ++ [line] }

/-- The callback of `processDetailPagesAfedim` (agency.go, lines 57-70) on an
element with text `text` of the page `url`. -/
def processDetailPagesAfedim (text url : String) (st : Extraction) : Extraction :=
  let fullValue := text
  let scanned := Sscanf fullValue "Référence du bien : %s"
  if scanned.reference ≠ "" then st.append scanned.reference url else st

/-- The callback of `processDetailPagesGiboire` (agency.go, lines 109-129). -/
def processDetailPagesGiboire (text url : String) (st : Extraction) : Extraction :=
  let fullValue := text
  let scanned := Sscanf fullValue "Réf : %s"
  match scanned.err with
  | none => if scanned.reference ≠ "" then st.append scanned.reference url else st
  | some _ => st.printf ("Impossible d'extraire la référence depuis : " ++ fullValue)

/-- The callback of `processDetailPagesFoncia` (agency.go, lines 173-195). -/
def processDetailPagesFoncia (text url : String) (st : Extraction) : Extraction :=
  let fullValue := TrimSpace text
  let scanned := Sscanf fullValue "Réf. %s"
  match scanned.err with
  | none =>
    if scanned.reference ≠ "" then st.append scanned.reference url
    else st.printf ("Référence vide après extraction depuis : " ++ fullValue)
  | some err =>
    st.printf ("Erreur lors de l'extraction de la référence depuis : " ++ fullValue
      ++ ", erreur : " ++ err)

/-- The inner callback of `processDetailPagesAgenceDuColombier` (agency.go,
lines 227-250) on one `p` element with text `elText`. -/
def forEachParagraphAgenceDuColombier (elText url : String) (st : Extraction) : Extraction :=
  if Contains elText "REF:" then
    let fullText := TrimSpace elText
    let scanned := Sscanf fullText "REF: %s"
    match scanned.err with
    | none => if scanned.reference ≠ "" then st.append scanned.reference url else st
    | some _ => st.printf ("Impossible d'extraire la référence depuis : " ++ fullText)
  else st

/-- The callback of `processDetailPagesAgenceDuColombier` (agency.go, lines
225-251) on a details block whose `p` elements have the texts `paragraphs`. -/
def processDetailPagesAgenceDuColombier (paragraphs : List String) (url : String)
    (st : Extraction) : Extraction :=
  paragraphs.foldl (fun st elText => forEachParagraphAgenceDuColombier elText url st) st

/-- The callback of `processDetailPagesLaFrancaiseImmobiliere` (agency.go,
lines 279-301). -/
def processDetailPagesLaFrancaiseImmobiliere (text url : String) (st : Extraction) :
    Extraction :=
  let fullValue := TrimSpace text
  let scanned := Sscanf fullValue "Réf : %s"
  match scanned.err with
  | none =>
    if scanned.reference ≠ "" then st.append scanned.reference url
    else st.printf ("Référence vide après extraction depuis : " ++ fullValue)
  | some err =>
    st.printf ("Erreur lors de l'extraction de la référence depuis : " ++ fullValue
      ++ ", erreur : " ++ err)

/-- The callback of `processDetailPagesGuenno` (agency.go, lines 335-359);
`childText` is `detail.ChildText("span.grey-ref")`. -/
def processDetailPagesGuenno (childText url : String) (st : Extraction) : Extraction :=
  let fullValue := TrimSpace childText
  if HasPrefix fullValue "Ref :" then
    let reference := TrimSpace (TrimPrefix fullValue "Ref :")
    if reference ≠ "" then st.append reference url
    else st.printf ("Référence vide après extraction depuis : " ++ fullValue)
  else st.printf ("Impossible de trouver la référence dans : " ++ fullValue)

/-- The callback of `processDetailPagesLaMotte` (agency.go, lines 394-419);
`childText` is `detail.ChildText("p.tva")`. -/
def processDetailPagesLaMotte (childText url : String) (st : Extraction) : Extraction :=
  let fullValue := TrimSpace childText
  if HasPrefix fullValue "Lot" then
    let lot := TrimSpace (TrimPrefix fullValue "Lot")
    if lot ≠ "" then
      (st.append lot url).printf ("Annonce trouvée : Lot " ++ lot ++ ", URL : " ++ url)
    else st.printf ("Lot vide après extraction depuis : " ++ fullValue)
  else st.printf ("Impossible de trouver le lot dans : " ++ fullValue)

/-- The callback of `processDetailPagesKermarrec` (agency.go, lines 454-478);
`childText` is `detail.ChildText("span.ref")`. -/
def processDetailPagesKermarrec (childText url : String) (st : Extraction) : Extraction :=
  let fullValue := TrimSpace childText
  if HasPrefix fullValue "(ref :" then
    let reference := TrimSpace (TrimSuffix (TrimPrefix fullValue "(ref :") ")")
    if reference ≠ "" then st.append reference url
    else st.printf ("Référence vide après extraction depuis : " ++ fullValue)
  else st.printf ("Impossible de trouver la référence dans : " ++ fullValue)

/-- The callback of `processDetailPagesNestenn` (agency.go, lines 513-543). -/
def processDetailPagesNestenn (text url : String) (st : Extraction) : Extraction :=
  let fullValue := TrimSpace text
  if Contains fullValue "Réf :" then
    let parts := Split fullValue "Réf :"
    match parts with
    | _ :: part1 :: _ =>
      let reference := TrimSpace part1
      if reference ≠ "" then st.append reference url
      else st.printf ("Référence vide après extraction depuis : " ++ fullValue)
    | _ =>
      st.printf ("Impossible de diviser la chaîne pour trouver la référence : " ++ fullValue)
  else st.printf ("Pas de 'Réf :' trouvé dans : " ++ fullValue)

/-- The extraction callback of each agency on one node text (for Agence du
Colombier, the text of one `p` element). -/
def Source.processDetailPages : Source → String → String → Extraction → Extraction
  | .afedim => processDetailPagesAfedim
  | .giboire => processDetailPagesGiboire
  | .foncia => processDetailPagesFoncia
  | .agenceDuColombier => forEachParagraphAgenceDuColombier
  | .laFrancaiseImmobiliere => processDetailPagesLaFrancaiseImmobiliere
  | .guenno => processDetailPagesGuenno
  | .laMotte => processDetailPagesLaMotte
  | .kermarrec => processDetailPagesKermarrec
  | .nestenn => processDetailPagesNestenn

/-- The label that each callback looks for: its scan format without the final
verb and space, or the argument of `strings.HasPrefix` / `strings.Contains`. -/
def Source.label : Source → String
  | .afedim => "Référence du bien :"
  | .giboire => "Réf :"
  | .foncia => "Réf."
  | .agenceDuColombier => "REF:"
  | .laFrancaiseImmobiliere => "Réf :"
  | .guenno => "Ref :"
  | .laMotte => "Lot"
  | .kermarrec => "(ref :"
  | .nestenn => "Réf :"

/-- The listings that a callback extracts from one node text of the page `url`. -/
def Source.listings (x : Source) (text url : String) : List Announcement :=
  (x.processDetailPages text url Extraction.empty).announcements

/-- The diagnostics that a callback logs on one node text of the page `url`. -/
def Source.diagnostics (x : Source) (text url : String) : List String :=
  (x.processDetailPages text url Extraction.empty).log

/-! ## agency.go: the search-page callbacks

Each callback is given what the code reads from the matched elements, in
document order: the value of the `href` attribute as `Attr` / `ChildAttr`
return it (the empty string when there is none). -/

/-- What the search-page callbacks write: the slice `*detailPageURLs` and the
lines given to `log.Println`. -/
structure Discovery where
  detailPageURLs : List String
  log : List String
deriving DecidableEq, Repr

/-- No URL found yet, nothing logged. -/
def Discovery.empty : Discovery := { detailPageURLs := [], log := [] }

/-- The statement `*detailPageURLs = append(*detailPageURLs, url)`. -/
def Discovery.append (st : Discovery) (url : String) : Discovery :=
  { st with detailPageURLs := st.detailPageURLs ++ [url] }

/-- A call of `log.Println`, by the line it writes. -/
def Discovery.println (st : Discovery) (line : String) : Discovery :=
  { st with log := st.log ++ [line] }

/-- A Go `map[string]struct{}`: `none` is an absent key. -/
abbrev URLSet := String → Option Unit

/-- The map built by `make(map[string]struct{})`. -/
def URLSet.empty : URLSet := fun _ => none

/-- The assignment `seenURLs[k] = struct{}{}`. -/
def URLSet.set (m : URLSet) (k : String) : URLSet :=
  fun x => if x = k then some () else m x

/-- The callback of `setupMainPageAfedim` (agency.go, lines 38-47): `items` are
the `li.item` elements, each by the `href` of its matched anchors. -/
def setupMainPageAfedim (items : List (List String)) (st : Discovery) : Discovery :=
  items.foldl (fun st li =>
    li.foldl (fun st detailPageURL =>
      if detailPageURL ≠ "" then st.append ("https://www.afedim.fr" ++ detailPageURL)
      else st) st) st

/-- What the callback of `setupMainPageGiboire` reads from one `div`:
`article.Length()`, `secondDiv.Length()` and the result of `h2.Attr("href")`
(`none` when the attribute does not exist). -/
structure GiboireDiv where
  articles : Nat
  secondDivs : Nat
  href : Option String
deriving DecidableEq, Repr

/-- The callback of `setupMainPageGiboire` (agency.go, lines 80-99). -/
def setupMainPageGiboire (divs : List GiboireDiv) (st : Discovery) : Discovery :=
  divs.foldl (fun st div =>
    if div.articles > 0 then
      if div.secondDivs > 0 then
        match div.href with
        | some href => if href ≠ "" then st.append href else st
        | none => st
      else st
    else st) st

/-- The callback of `setupMainPageFoncia` (agency.go, lines 143-163):
`annonces` are the `div` elements, each by the `href` read in its matched
second `div`s; `seenURLs` is the set made once by `setupMainPageFoncia`, which
the callback reads and writes. -/
def setupMainPageFoncia (annonces : List (List String)) (st : URLSet × Discovery) :
    URLSet × Discovery :=
  annonces.foldl (fun st annonce =>
    annonce.foldl (fun st href =>
      if href ≠ "" then
        let fullURL := "https://fr.foncia.com" ++ href
        match st.1 fullURL with
        | some _ => st
        | none => (st.1.set fullURL, st.2.append fullURL)
      else st) st) st

/-- The callback of `setupMainPageAgenceDuColombier` (agency.go, lines
205-213): `annonces` are the `div.listing_wrapper` elements, each by
`ChildAttr("a", "href")`. -/
def setupMainPageAgenceDuColombier (annonces : List String) (st : Discovery) : Discovery :=
  annonces.foldl (fun st detailURL =>
    if detailURL ≠ "" then st.append detailURL else st) st

/-- The callback of `setupMainPageLaFrancaiseImmobiliere` (agency.go, lines
261-269) on one matched `article`, by `ChildAttr("a[rel='bookmark']", "href")`. -/
def setupMainPageLaFrancaiseImmobiliere (detailLink : String) (st : Discovery) : Discovery :=
  if detailLink ≠ "" then st.append detailLink
  else st.println "Lien de détail introuvable dans cet article."

/-- The callback of `setupMainPageGuenno` (agency.go, lines 312-325). -/
def setupMainPageGuenno (articles : List String) (st : Discovery) : Discovery :=
  articles.foldl (fun st href =>
    if href ≠ "" then st.append href
    else st.println "Aucun lien trouvé dans cet article.") st

/-- The callback of `setupMainPageLaMotte` (agency.go, lines 370-384). -/
def setupMainPageLaMotte (annonces : List String) (st : Discovery) : Discovery :=
  annonces.foldl (fun st href =>
    if href ≠ "" then st.append href
    else st.println "Aucun lien trouvé dans cette annonce.") st

/-- The callback of `setupMainPageKermarrec` (agency.go, lines 430-443). -/
def setupMainPageKermarrec (articles : List String) (st : Discovery) : Discovery :=
  articles.foldl (fun st href =>
    if href ≠ "" then st.append href
    else st.println "Aucun lien trouvé dans cet article.") st

/-- The callback of `setupMainPageNestenn` (agency.go, lines 489-502). -/
def setupMainPageNestenn (properties : List String) (st : Discovery) : Discovery :=
  properties.foldl (fun st href =>
    if href ≠ "" then st.append href
    else st.println "Aucun lien trouvé dans cette annonce.") st

/-- The discovery of each agency on the matched elements of one search page,
given by their `href` in document order, from an empty slice (and, for Foncia,
the empty set that `setupMainPageFoncia` makes): the URLs found. -/
def Source.discover : Source → List String → List String
  | .afedim => fun hrefs => (setupMainPageAfedim [hrefs] Discovery.empty).detailPageURLs
  | .giboire => fun hrefs =>
    (setupMainPageGiboire (hrefs.map (fun h => ⟨1, 1, some h⟩)) Discovery.empty).detailPageURLs
  | .foncia => fun hrefs =>
    (setupMainPageFoncia [hrefs] (URLSet.empty, Discovery.empty)).2.detailPageURLs
  | .agenceDuColombier => fun hrefs =>
    (setupMainPageAgenceDuColombier hrefs Discovery.empty).detailPageURLs
  | .laFrancaiseImmobiliere => fun hrefs =>
    (hrefs.foldl (fun st detailLink => setupMainPageLaFrancaiseImmobiliere detailLink st)
      Discovery.empty).detailPageURLs
  | .guenno => fun hrefs => (setupMainPageGuenno hrefs Discovery.empty).detailPageURLs
  | .laMotte => fun hrefs => (setupMainPageLaMotte hrefs Discovery.empty).detailPageURLs
  | .kermarrec => fun hrefs => (setupMainPageKermarrec hrefs Discovery.empty).detailPageURLs
  | .nestenn => fun hrefs => (setupMainPageNestenn hrefs Discovery.empty).detailPageURLs

/-- The origin that a discovery puts before each `href`: the literal of
`setupMainPageAfedim` and of `setupMainPageFoncia`, nothing for the others. -/
def Source.origin : Source → String
  | .afedim => "https://www.afedim.fr"
  | .foncia => "https://fr.foncia.com"
  | _ => ""

/-- The `href` that the callback of Giboire reads from a `div`, the empty
string when it reads none. -/
def GiboireDiv.link (div : GiboireDiv) : String :=
  if div.articles > 0 ∧ div.secondDivs > 0 then div.href.getD "" else ""

/-- The URLs a discovery is after: one per matched element with a non-empty
`href`, in the order of the elements, the origin put before each. -/
def candidates (origin : String) (hrefs : List String) : List String :=
  (hrefs.filter (fun h => decide (h ≠ ""))).map (fun h => origin ++ h)

/-- The URLs of a list that are not in `seen`, each at its first occurrence. -/
def freshURLs : URLSet → List String → List String
  | _, [] => []
  | seen, u :: l =>
    match seen u with
    | some _ => freshURLs seen l
    | none => u :: freshURLs (seen.set u) l

/-- The notifier that keeps the texts it is given, used to read what
`processAgencyScraping` passes to it. -/
def recordTexts : Notifier (List String) := fun texts text => (texts ++ [text], true)

/-! ## Vocabulary for the statements on scanning -/

/-- Reading every run of blanks (spaces other than newline) as one space:
`inRun` tells that the rune before was a blank. -/
def squeezeAux : Bool → List Char → List Char
  | _, [] => []
  | inRun, c :: s =>
    if isBlank c then (if inRun then squeezeAux true s else ' ' :: squeezeAux true s)
    else c :: squeezeAux false s

/-- A text with every run of blanks read as one space. -/
def squeeze (s : List Char) : List Char := squeezeAux false s

/-- Words each preceded by one space: the part of a label after its first word. -/
def spaced : List (List Char) → List Char
  | [] => []
  | wd :: ws => ' ' :: (wd ++ spaced ws)

/-- The part of a scan format after its first word: the further words, each
preceded by one space, then a space and the verb `%s`. -/
def formatTail : List (List Char) → List Char
  | [] => [' ', '%', 's']
  | wd :: ws => ' ' :: (wd ++ formatTail ws)

/-- The input after the last word of the label holds one blank at least, then,
after its blanks, a rune that is no space; `w` is the run of runes up to the
next space. -/
def TailWord (i w : List Char) : Prop :=
  ∃ b r c r3, i = b :: r ∧ isBlank b = true ∧ skipBlanks r = c :: r3 ∧ isSpace c = false ∧
    w = (c :: r3).takeWhile (fun x => !isSpace x)

/-- The input after the first word of the label holds the further words, each
after one blank at least, and then the scanned word `w`. -/
def Loose : List (List Char) → List Char → List Char → Prop
  | [], i, w => TailWord i w
  | wd :: ws, i, w =>
    ∃ b r i2, i = b :: r ∧ isBlank b = true ∧ skipBlanks r = wd ++ i2 ∧ Loose ws i2 w

/-- A word of a format: not empty, no space, no `%`. -/
def LitWord (wd : List Char) : Prop := wd ≠ [] ∧ ∀ c ∈ wd, isSpace c = false ∧ c ≠ '%'

/-- The listings of a callback built on `Sscanf`: the scanned word, if the scan
of the (possibly trimmed) text succeeds. -/
def scanListings (format : String) (fullValue url : String) : List Announcement :=
  match doScanf format.data fullValue.data with
  | .ok w => [{ propertyReference := ⟨w⟩, url := url }]
  | .error _ => []

/-- A text made of white space only (possibly empty). -/
def AllSpace (s : String) : Prop := ∀ c ∈ s.data, isSpace c = true

/-- A non-empty run of blanks: spaces other than newline. -/
def Blanks (s : String) : Prop := s.data ≠ [] ∧ ∀ c ∈ s.data, isBlank c = true

/-- A token: a non-empty text without white space. -/
def Word (s : String) : Prop := s.data ≠ [] ∧ ∀ c ∈ s.data, isSpace c = false

/-- A text that is empty or begins with a space. -/
def SpaceLed (s : String) : Prop := ∀ c, s.data.head? = some c → isSpace c = true

/-- The label occurs in the text. -/
def Occurs (label text : String) : Prop := label.data <:+: text.data

/-- The label occurs in the text once every run of blanks of the text is read
as one space. -/
def OccursLoosely (label text : String) : Prop := label.data <:+: squeeze text.data

/-- A label that begins and ends with runes that are not spaces. -/
def TightLabel (l : List Char) : Prop :=
  ∃ c mid d, l = c :: (mid ++ [d]) ∧ isSpace c = false ∧ isSpace d = false

/-- The listings of a callback built on `strings.HasPrefix` and
`strings.TrimPrefix`: the trimmed text after the label, if there is any. -/
def prefixListings (label fullValue url : String) : List Announcement :=
  if HasPrefix fullValue label then
    if TrimSpace (TrimPrefix fullValue label) ≠ "" then
      [{ propertyReference := TrimSpace (TrimPrefix fullValue label), url := url }]
    else []
  else []

/-- The calls of `processAgencyScraping` for the call sites `xs`, in order;
`cycle` is `callAll` on `Source.all`. -/
def callAll {σ : Type} (scrape : Scrape) (send : Notifier σ) (s : Scraper σ)
    (xs : List Source) : Scraper σ :=
  xs.foldl (fun s x => s.call scrape send x) s

/-- The calls of the notifier recorded in a trace, in order. -/
def sentIn : List Effect → List Notification
  | [] => []
  | Effect.telegram n _ :: t => n :: sentIn t
  | _ :: t => sentIn t

/-- The announcements of `L` whose reference is unseen when the loop reaches
them: the first occurrence of each reference absent from `M`. -/
def freshOf : RefMap → List Announcement → List Announcement
  | _, [] => []
  | M, a :: L =>
    match M a.propertyReference with
    | some _ => freshOf M L
    | none => a :: freshOf (M.set a.propertyReference true) L

/-- The calls of the notifier made between two points of a run: those recorded
in `after` beyond the effects already in `before`. -/
def sentSince (before after : List Effect) : List Notification :=
  sentIn (after.drop before.length)

/-- The references of a list of announcements. -/
def refsOf (L : List Announcement) : List String := L.map (·.propertyReference)

/-- The always-delivering notifier on a trivial state, used at concrete inputs. -/
def deliverAll : Notifier Unit := fun _ _ => ((), true)

/-- The never-delivering notifier on a trivial state, used at concrete inputs. -/
def deliverNone : Notifier Unit := fun _ _ => ((), false)

/-- The notification sent for an announcement under a given title. -/
def notify (title : String) (a : Announcement) : Notification :=
  { title := title, propertyReference := a.propertyReference, url := a.url }

/-- The notifications that a call on the seen-set `M` and the announcements
scraped for `y` sends under the title of `y`. -/
def freshNotifications (scrape : Scrape) (M : RefMap) (y : Source) : List Notification :=
  (freshOf M (scrape y.nameAgency y.url)).map (notify y.title)

/-! ## The seen-set and the notifications of one call -/

section Orchestrator

variable {σ : Type}

theorem sentIn_append (t u : List Effect) : sentIn (t ++ u) = sentIn t ++ sentIn u := by
  induction t with
  | nil => rfl
  | cons e t ih => cases e <;> simp [sentIn, ih]

@[simp] theorem refsOf_nil : refsOf [] = [] := rfl

@[simp] theorem refsOf_cons (a : Announcement) (L : List Announcement) :
    refsOf (a :: L) = a.propertyReference :: refsOf L := rfl

theorem set_apply (M : RefMap) (k : String) (v : Bool) (r : String) :
    M.set k v r = if r = k then some v else M r := rfl

/-- The seen-set after the loop, key by key. -/
theorem seen_foldl (send : Notifier σ) (title : String) (L : List Announcement) (st : Run σ)
    (r : String) :
    (L.foldl (compareReference send title) st).processedReferences r =
      match st.processedReferences r with
      | some b => some b
      | none => if r ∈ refsOf L then some true else none := by
  induction L generalizing st with
  | nil => cases h : st.processedReferences r <;> simp [h]
  | cons a L ih =>
    rw [List.foldl_cons, ih]
    unfold compareReference
    cases ha : st.processedReferences a.propertyReference with
    | some b =>
      simp only []
      cases hr : st.processedReferences r with
      | some c => rfl
      | none =>
        have hne : r ≠ a.propertyReference := by
          intro h; rw [h, ha] at hr; cases hr
        simp [hne]
    | none =>
      simp only [set_apply]
      by_cases hra : r = a.propertyReference
      · subst hra; simp [ha]
      · cases hr : st.processedReferences r <;> simp [hra]

/-- The effects of the loop come after those already performed, and the calls of
the notifier among them are those of the fresh announcements, in order. -/
theorem trace_foldl (send : Notifier σ) (title : String) (L : List Announcement) (st : Run σ) :
    ∃ e, (L.foldl (compareReference send title) st).trace = st.trace ++ e ∧
      sentIn e = (freshOf st.processedReferences L).map (notify title) ∧
      ∀ pre post n d, e = pre ++ Effect.telegram n d :: post →
        ∃ pre', pre = pre' ++ [Effect.store n.propertyReference] := by
  induction L generalizing st with
  | nil => exact ⟨[], by simp, rfl, by intro pre post n d h; cases pre <;> cases h⟩
  | cons a L ih =>
    rw [List.foldl_cons]
    obtain ⟨e, he, hs, hord⟩ := ih (compareReference send title st a)
    unfold compareReference at he hs ⊢
    cases ha : st.processedReferences a.propertyReference with
    | some b =>
      simp only [ha] at he hs
      exact ⟨e, he, by simpa [freshOf, ha] using hs, hord⟩
    | none =>
      simp only [ha] at he hs
      refine ⟨_ :: _ :: _ :: e, by simpa using he, by simpa [freshOf, ha, sentIn, notify] using hs, ?_⟩
      intro pre post n d h
      match pre, h with
      | [], h => simp at h
      | [_], h => simp at h
      | [p, q], h =>
        simp only [List.cons_append, List.nil_append, List.cons.injEq, Effect.telegram.injEq] at h
        obtain ⟨hp, hq, ⟨hn, -⟩, -⟩ := h
        refine ⟨[p], ?_⟩
        rw [← hq, ← hn]
        rfl
      | p :: q :: w :: pre2, h =>
        simp only [List.cons_append, List.cons.injEq] at h
        obtain ⟨-, -, -, h4⟩ := h
        obtain ⟨pre', hp⟩ := hord pre2 post n d h4
        exact ⟨p :: q :: w :: pre', by simp [hp]⟩

theorem freshOf_sublist (M : RefMap) (L : List Announcement) : (freshOf M L).Sublist L := by
  induction L generalizing M with
  | nil => exact List.Sublist.slnil
  | cons a L ih =>
    unfold freshOf
    cases M a.propertyReference with
    | some b => exact (ih M).cons a
    | none => exact (ih _).cons₂ a

theorem mem_freshOf_ref (M : RefMap) (L : List Announcement) (r : String) :
    r ∈ refsOf (freshOf M L) ↔
      M r = none ∧ r ∈ refsOf L := by
  induction L generalizing M with
  | nil => simp [freshOf]
  | cons a L ih =>
    unfold freshOf
    cases ha : M a.propertyReference with
    | some b =>
      simp only [ih, refsOf_cons, List.mem_cons]
      constructor
      · rintro ⟨h1, h2⟩; exact ⟨h1, Or.inr h2⟩
      · rintro ⟨h1, h2 | h2⟩
        · rw [h2, ha] at h1; cases h1
        · exact ⟨h1, h2⟩
    | none =>
      simp only [refsOf_cons, List.mem_cons, ih, set_apply]
      by_cases hr : r = a.propertyReference
      · subst hr; simp [ha]
      · simp [hr]

theorem freshOf_nodup (M : RefMap) (L : List Announcement) :
    (refsOf (freshOf M L)).Nodup := by
  induction L generalizing M with
  | nil => simp [freshOf]
  | cons a L ih =>
    unfold freshOf
    cases ha : M a.propertyReference with
    | some b => exact ih M
    | none =>
      simp only [refsOf_cons, List.nodup_cons]
      refine ⟨?_, ih _⟩
      rw [mem_freshOf_ref]
      simp [set_apply]

theorem freshOf_first (M : RefMap) (L : List Announcement) (a : Announcement)
    (h : a ∈ freshOf M L) :
    L.find? (fun b => decide (b.propertyReference = a.propertyReference)) = some a := by
  induction L generalizing M with
  | nil => simp [freshOf] at h
  | cons b L ih =>
    unfold freshOf at h
    cases hb : M b.propertyReference with
    | some c =>
      rw [hb] at h
      simp only [] at h
      have hne : b.propertyReference ≠ a.propertyReference := by
        intro hh
        have := (mem_freshOf_ref M L a.propertyReference).1 (List.mem_map_of_mem _ h)
        rw [← hh, hb] at this
        cases this.1
      simp [List.find?, hne, ih M h]
    | none =>
      rw [hb] at h
      simp only [List.mem_cons] at h
      rcases h with rfl | h
      · simp [List.find?]
      · have hne : b.propertyReference ≠ a.propertyReference := by
          intro hh
          have := (mem_freshOf_ref _ L a.propertyReference).1 (List.mem_map_of_mem _ h)
          rw [← hh] at this
          simp [set_apply] at this
        simp [List.find?, hne, ih _ h]

theorem seen_process (scrape : Scrape) (send : Notifier σ) (st : Run σ)
    (url title : String) (nameAgency : Agency) (r : String) :
    (processAgencyScraping scrape send st url title nameAgency).processedReferences r =
      match st.processedReferences r with
      | some b => some b
      | none => if r ∈ refsOf (scrape nameAgency url) then some true else none :=
  seen_foldl send title (scrape nameAgency url) st r

theorem seen_process_mono (scrape : Scrape) (send : Notifier σ) (st : Run σ)
    (url title : String) (nameAgency : Agency) (r : String) (b : Bool)
    (h : st.processedReferences r = some b) :
    (processAgencyScraping scrape send st url title nameAgency).processedReferences r = some b := by
  rw [seen_process, h]

theorem seen_process_of_mem (scrape : Scrape) (send : Notifier σ) (st : Run σ)
    (url title : String) (nameAgency : Agency) (r : String)
    (h : r ∈ refsOf (scrape nameAgency url)) :
    (processAgencyScraping scrape send st url title nameAgency).processedReferences r ≠ none := by
  rw [seen_process]
  cases st.processedReferences r <;> simp [h]

theorem sentSince_append (t e : List Effect) : sentSince t (t ++ e) = sentIn e := by
  simp [sentSince]

theorem sentSince_process (scrape : Scrape) (send : Notifier σ) (st : Run σ)
    (url title : String) (nameAgency : Agency) :
    sentSince st.trace (processAgencyScraping scrape send st url title nameAgency).trace =
      (freshOf st.processedReferences (scrape nameAgency url)).map (notify title) := by
  obtain ⟨e, he, hs, -⟩ := trace_foldl send title (scrape nameAgency url) st
  unfold processAgencyScraping
  rw [he, sentSince_append, hs]

theorem map_ref_notify (title : String) (N : List Announcement) :
    (N.map (notify title)).map (·.propertyReference) = refsOf N := by
  simp [refsOf, notify, Function.comp_def]

/-- A seen reference stays seen through any sequence of further calls on the
same seen-set. -/
theorem seen_calls_mono (send : Notifier σ)
    (calls : List (Scrape × String × String × Agency)) (st : Run σ) (r : String)
    (h : st.processedReferences r ≠ none) :
    (calls.foldl (fun s c => processAgencyScraping c.1 send s c.2.1 c.2.2.1 c.2.2.2) st).processedReferences r
      ≠ none := by
  induction calls generalizing st with
  | nil => exact h
  | cons c calls ih =>
    rw [List.foldl_cons]
    apply ih
    cases hr : st.processedReferences r with
    | none => exact absurd hr h
    | some b => rw [seen_process_mono _ _ _ _ _ _ _ _ hr]; simp

/-- The notifier goes through the texts of the fresh announcements, in order. -/
theorem notifier_foldl (send : Notifier σ) (title : String) (L : List Announcement)
    (st : Run σ) :
    (L.foldl (compareReference send title) st).notifier =
      ((freshOf st.processedReferences L).map (fun a => (notify title a).text)).foldl
        (fun s text => (send s text).1) st.notifier := by
  induction L generalizing st with
  | nil => rfl
  | cons a L ih =>
    rw [List.foldl_cons, ih]
    unfold compareReference
    cases ha : st.processedReferences a.propertyReference with
    | some b => simp [freshOf, ha]
    | none => simp [freshOf, ha, notify]

theorem text_eq (title : String) (a : Announcement) :
    (notify title a).text =
      title ++ "\n" ++ "Nouvelle annonce immobilière !" ++ "\n" ++ "Référence : "
        ++ a.propertyReference ++ "\n" ++ "URL : " ++ a.url := by
  apply String.ext_iff.2
  have h1 : ("\nNouvelle annonce immobilière !\nRéférence : " : String).data =
      ("\n" : String).data ++ ("Nouvelle annonce immobilière !" : String).data
        ++ ("\n" : String).data ++ ("Référence : " : String).data := by decide
  have h2 : ("\nURL : " : String).data = ("\n" : String).data ++ ("URL : " : String).data := by
    decide
  simp only [Notification.text, notify, String.data_append, h1, h2, List.append_assoc]
  rfl

theorem foldl_recordTexts (texts new : List String) :
    new.foldl (fun s text => (recordTexts s text).1) texts = texts ++ new := by
  induction new generalizing texts with
  | nil => simp
  | cons t new ih => rw [List.foldl_cons, ih]; simp [recordTexts]

end Orchestrator

/-! ## The nine seen-sets of `RunScraper` -/

section Cycle

variable {σ : Type}

theorem title_injective : ∀ x y : Source, x.title = y.title → x = y := by
  intro x y
  cases x <;> cases y <;> first | (intro _; rfl) | (intro h; revert h; decide)

theorem call_seen_other (scrape : Scrape) (send : Notifier σ) (s : Scraper σ)
    (x y : Source) (h : x ≠ y) : (s.call scrape send x).seen y = s.seen y := by
  cases x <;> cases y <;> first | exact absurd rfl h | rfl

theorem call_seen_self (scrape : Scrape) (send : Notifier σ) (s : Scraper σ) (x : Source) :
    (s.call scrape send x).seen x =
      (processAgencyScraping scrape send ⟨s.seen x, s.notifier, s.trace⟩
        x.url x.title x.nameAgency).processedReferences := by
  cases x <;> rfl

theorem call_trace (scrape : Scrape) (send : Notifier σ) (s : Scraper σ) (x : Source) :
    (s.call scrape send x).trace =
      (processAgencyScraping scrape send ⟨s.seen x, s.notifier, s.trace⟩
        x.url x.title x.nameAgency).trace := by
  cases x <;> rfl

theorem cycle_eq_callAll (scrape : Scrape) (send : Notifier σ) (s : Scraper σ) :
    cycle scrape send s = callAll scrape send s Source.all := rfl

theorem call_sent (scrape : Scrape) (send : Notifier σ) (s : Scraper σ) (x : Source) :
    ∃ e, (s.call scrape send x).trace = s.trace ++ e ∧
      sentIn e = freshNotifications scrape (s.seen x) x := by
  obtain ⟨e, he, hs, -⟩ :=
    trace_foldl send x.title (scrape x.nameAgency x.url) ⟨s.seen x, s.notifier, s.trace⟩
  exact ⟨e, by rw [call_trace]; exact he, hs⟩

/-- Along a list of distinct call sites, every site starts from the seen-set it
had at the beginning, the sites outside the list keep theirs, and the calls of
the notifier are those of the sites, in order. -/
theorem callAll_sent (scrape : Scrape) (send : Notifier σ) (xs : List Source)
    (hxs : xs.Nodup) (s : Scraper σ) :
    (∀ y, y ∉ xs → (callAll scrape send s xs).seen y = s.seen y) ∧
    (∀ y, y ∈ xs → (callAll scrape send s xs).seen y =
      (processAgencyScraping scrape send ⟨s.seen y, s.notifier, s.trace⟩
        y.url y.title y.nameAgency).processedReferences) ∧
    ∃ e, (callAll scrape send s xs).trace = s.trace ++ e ∧
      sentIn e = (xs.map (fun y => freshNotifications scrape (s.seen y) y)).flatten := by
  induction xs generalizing s with
  | nil => exact ⟨fun _ _ => rfl, fun _ h => absurd h (List.not_mem_nil _), [], by simp [callAll], rfl⟩
  | cons x xs ih =>
    obtain ⟨hx, hnd⟩ := List.nodup_cons.1 hxs
    obtain ⟨h1, h2, e, he, hs⟩ := ih hnd (s.call scrape send x)
    obtain ⟨e0, he0, hs0⟩ := call_sent scrape send s x
    have hother : ∀ y, y ∈ xs → (s.call scrape send x).seen y = s.seen y := by
      intro y hy
      exact call_seen_other scrape send s x y (fun h => hx (h ▸ hy))
    refine ⟨?_, ?_, e0 ++ e, ?_, ?_⟩
    · intro y hy
      rw [List.mem_cons, not_or] at hy
      show (callAll scrape send (s.call scrape send x) xs).seen y = _
      rw [h1 y hy.2, call_seen_other scrape send s x y (Ne.symm hy.1)]
    · intro y hy
      show (callAll scrape send (s.call scrape send x) xs).seen y = _
      rcases List.mem_cons.1 hy with rfl | hy
      · rw [h1 y hx, call_seen_self]
      · rw [h2 y hy]
        funext r
        rw [seen_process, seen_process, hother y hy]
    · show (callAll scrape send (s.call scrape send x) xs).trace = _
      rw [he, he0, List.append_assoc]
    · rw [sentIn_append, hs0, hs, List.map_cons, List.flatten_cons]
      congr 1
      congr 1
      apply List.map_congr_left
      intro y hy
      rw [hother y hy]

theorem filter_title_freshNotifications (scrape : Scrape) (M : RefMap) (y z : Source) :
    (freshNotifications scrape M z).filter (fun n => decide (n.title = y.title)) =
      if z = y then freshNotifications scrape M z else [] := by
  unfold freshNotifications
  by_cases h : z = y
  · subst h
    simp [notify]
  · have : z.title ≠ y.title := fun ht => h (title_injective z y ht)
    simp [h, notify, this]

theorem filter_title_flatten (scrape : Scrape) (xs : List Source) (hxs : xs.Nodup)
    (seen : Source → RefMap) (y : Source) :
    ((xs.map (fun z => freshNotifications scrape (seen z) z)).flatten).filter
        (fun n => decide (n.title = y.title)) =
      if y ∈ xs then freshNotifications scrape (seen y) y else [] := by
  induction xs with
  | nil => simp
  | cons x xs ih =>
    obtain ⟨hx, hnd⟩ := List.nodup_cons.1 hxs
    rw [List.map_cons, List.flatten_cons, List.filter_append, ih hnd,
      filter_title_freshNotifications]
    by_cases hxy : x = y
    · subst hxy
      simp [hx]
    · have : y ≠ x := fun h => hxy h.symm
      simp [hxy, this]

theorem all_nodup : Source.all.Nodup := by decide

theorem mem_all (y : Source) : y ∈ Source.all := by cases y <;> decide

/-- What the site `y` notifies during one pass: the notifications of its own
fresh announcements. -/
theorem cycle_sent_for (scrape : Scrape) (send : Notifier σ) (s : Scraper σ) (y : Source) :
    (sentSince s.trace (cycle scrape send s).trace).filter (fun n => decide (n.title = y.title)) =
      freshNotifications scrape (s.seen y) y := by
  obtain ⟨-, -, e, he, hs⟩ := callAll_sent scrape send Source.all all_nodup s
  rw [cycle_eq_callAll, he, sentSince_append, hs, filter_title_flatten scrape _ all_nodup]
  simp [mem_all]

theorem cycle_seen (scrape : Scrape) (send : Notifier σ) (s : Scraper σ) (y : Source)
    (r : String) :
    (cycle scrape send s).seen y r =
      match s.seen y r with
      | some b => some b
      | none => if r ∈ refsOf (scrape y.nameAgency y.url) then some true else none := by
  obtain ⟨-, h2, -⟩ := callAll_sent scrape send Source.all all_nodup s
  rw [cycle_eq_callAll, h2 y (mem_all y), seen_process]

theorem passes_seen_mono (send : Notifier σ) (passes : List Scrape) (s : Scraper σ)
    (y : Source) (r : String) (b : Bool) (h : s.seen y r = some b) :
    (passes.foldl (fun s scrape => cycle scrape send s) s).seen y r = some b := by
  induction passes generalizing s with
  | nil => exact h
  | cons scrape passes ih =>
    rw [List.foldl_cons]
    apply ih
    rw [cycle_seen, h]

theorem count_ref_freshNotifications (scrape : Scrape) (M : RefMap) (y : Source) (R : String) :
    (freshNotifications scrape M y).countP (fun n => decide (n.propertyReference = R)) =
      if R ∈ refsOf (scrape y.nameAgency y.url) ∧ M R = none then 1 else 0 := by
  have h := List.count_eq_of_nodup (a := R) (freshOf_nodup M (scrape y.nameAgency y.url))
  rw [List.count, refsOf, List.countP_map] at h
  unfold freshNotifications
  rw [List.countP_map]
  have hfun : ((fun n : Notification => decide (n.propertyReference = R)) ∘ notify y.title) =
      ((fun x => x == R) ∘ fun x : Announcement => x.propertyReference) := by
    funext a
    simp only [Function.comp, notify]
    rfl
  rw [hfun, h]
  have := mem_freshOf_ref M (scrape y.nameAgency y.url) R
  unfold refsOf at this
  by_cases h1 : M R = none <;> by_cases h2 : R ∈ refsOf (scrape y.nameAgency y.url)
    <;> simp_all [refsOf]

end Cycle

/-! ## Claims on the orchestrator -/

section OrchestratorClaims

variable {σ : Type}

/-- C1: one call of `processAgencyScraping` on the seen-set `M` and the
announcements `L` calls the notifier on the texts of the notifications of
`freshOf M L`, in that order, and on nothing else: the state of the notifier
after the call is that of these calls one after the other (a notifier that
records its arguments holds exactly these texts), and the trace shows these
notifications.  `freshOf M L` is a sublist of `L` in which each reference that
occurs in `L` and is not in `M` occurs exactly once and no other reference
occurs, each entry being the first announcement of `L` with its reference (so
carrying that occurrence's URL). -/
theorem processAgencyScraping_notifies_fresh_once (scrape : Scrape) (send : Notifier σ)
    (st : Run σ) (url title : String) (nameAgency : Agency) :
    (processAgencyScraping scrape send st url title nameAgency).notifier =
        ((freshOf st.processedReferences (scrape nameAgency url)).map
          (fun a => (notify title a).text)).foldl (fun s text => (send s text).1) st.notifier
      ∧ (∀ texts : List String,
          (processAgencyScraping scrape recordTexts
              ⟨st.processedReferences, texts, st.trace⟩ url title nameAgency).notifier =
            texts ++ (freshOf st.processedReferences (scrape nameAgency url)).map
              (fun a => (notify title a).text))
      ∧ sentSince st.trace (processAgencyScraping scrape send st url title nameAgency).trace =
        (freshOf st.processedReferences (scrape nameAgency url)).map (notify title)
      ∧ (freshOf st.processedReferences (scrape nameAgency url)).Sublist (scrape nameAgency url)
      ∧ (∀ r : String,
          ((sentSince st.trace
              (processAgencyScraping scrape send st url title nameAgency).trace).map
                (·.propertyReference)).count r =
            if r ∈ refsOf (scrape nameAgency url) ∧ st.processedReferences r = none then 1 else 0)
      ∧ (∀ r : String,
          ((freshOf st.processedReferences (scrape nameAgency url)).map
              (·.propertyReference)).count r =
            if r ∈ refsOf (scrape nameAgency url) ∧ st.processedReferences r = none then 1 else 0)
      ∧ (∀ a ∈ freshOf st.processedReferences (scrape nameAgency url),
          (scrape nameAgency url).find? (fun b => decide (b.propertyReference = a.propertyReference))
            = some a) := by
  have hcount : ∀ r : String,
      ((freshOf st.processedReferences (scrape nameAgency url)).map
          (·.propertyReference)).count r =
        if r ∈ refsOf (scrape nameAgency url) ∧ st.processedReferences r = none then 1 else 0 := by
    intro r
    show (refsOf (freshOf st.processedReferences (scrape nameAgency url))).count r = _
    rw [List.count_eq_of_nodup (freshOf_nodup ..)]
    simp only [mem_freshOf_ref]
    by_cases h1 : st.processedReferences r = none <;>
      by_cases h2 : r ∈ refsOf (scrape nameAgency url) <;> simp [h1, h2]
  refine ⟨?_, ?_, sentSince_process .., freshOf_sublist .., ?_, hcount,
    fun a ha => freshOf_first _ _ a ha⟩
  · unfold processAgencyScraping
    rw [notifier_foldl]
  · intro texts
    unfold processAgencyScraping
    rw [notifier_foldl, foldl_recordTexts]
  · intro r
    rw [sentSince_process, map_ref_notify]
    exact hcount r

/-- Witness for C1: from the seen-set holding "A0", the list A1, A0, A1 (second
URL), A2 makes the notifier receive the text for A1 with its first URL and then
the text for A2, and nothing else; the trace shows the same two notifications. -/
theorem processAgencyScraping_notifies_fresh_once_witness :
    (processAgencyScraping
          (fun _ _ => [⟨"A1", "u1"⟩, ⟨"A0", "u0"⟩, ⟨"A1", "u1bis"⟩, ⟨"A2", "u2"⟩]) recordTexts
          ⟨RefMap.empty.set "A0" true, [], []⟩ "search" "GIBOIRE" Giboire).notifier =
        ["GIBOIRE\nNouvelle annonce immobilière !\nRéférence : A1\nURL : u1",
          "GIBOIRE\nNouvelle annonce immobilière !\nRéférence : A2\nURL : u2"]
      ∧ sentSince []
        (processAgencyScraping
          (fun _ _ => [⟨"A1", "u1"⟩, ⟨"A0", "u0"⟩, ⟨"A1", "u1bis"⟩, ⟨"A2", "u2"⟩]) deliverAll
          ⟨RefMap.empty.set "A0" true, (), []⟩ "search" "GIBOIRE" Giboire).trace =
        [⟨"GIBOIRE", "A1", "u1"⟩, ⟨"GIBOIRE", "A2", "u2"⟩] :=
  ⟨((processAgencyScraping_notifies_fresh_once
      (fun _ _ => [⟨"A1", "u1"⟩, ⟨"A0", "u0"⟩, ⟨"A1", "u1bis"⟩, ⟨"A2", "u2"⟩]) recordTexts
      ⟨RefMap.empty.set "A0" true, [], []⟩ "search" "GIBOIRE" Giboire).2.1 []).trans
      (by decide),
   (processAgencyScraping_notifies_fresh_once
      (fun _ _ => [⟨"A1", "u1"⟩, ⟨"A0", "u0"⟩, ⟨"A1", "u1bis"⟩, ⟨"A2", "u2"⟩]) deliverAll
      ⟨RefMap.empty.set "A0" true, (), []⟩ "search" "GIBOIRE" Giboire).2.2.1.trans (by decide)⟩

/-- C2: after a call on `L1`, and any further calls on the same seen-set, a call
on `L2` sends no notification for a reference of `L1` or of the initial
seen-set; and from the empty seen-set, A1, A2 notifies both and then A1, A3
notifies A3 only. -/
theorem processAgencyScraping_never_renotifies (send : Notifier σ) (scrape1 scrape2 : Scrape)
    (between : List (Scrape × String × String × Agency)) (st : Run σ)
    (url title : String) (nameAgency : Agency) :
    (∀ n ∈ sentSince
          (between.foldl (fun s c => processAgencyScraping c.1 send s c.2.1 c.2.2.1 c.2.2.2)
            (processAgencyScraping scrape1 send st url title nameAgency)).trace
          (processAgencyScraping scrape2 send
            (between.foldl (fun s c => processAgencyScraping c.1 send s c.2.1 c.2.2.1 c.2.2.2)
              (processAgencyScraping scrape1 send st url title nameAgency))
            url title nameAgency).trace,
        n.propertyReference ∉ refsOf (scrape1 nameAgency url)
          ∧ st.processedReferences n.propertyReference = none)
    ∧ (∀ (s0 : σ) (u1 u2 u1b u3 : String),
        sentSince []
            (processAgencyScraping (fun _ _ => [⟨"A1", u1⟩, ⟨"A2", u2⟩]) send
              ⟨RefMap.empty, s0, []⟩ url title nameAgency).trace =
          [⟨title, "A1", u1⟩, ⟨title, "A2", u2⟩]
        ∧ sentSince
            (processAgencyScraping (fun _ _ => [⟨"A1", u1⟩, ⟨"A2", u2⟩]) send
              ⟨RefMap.empty, s0, []⟩ url title nameAgency).trace
            (processAgencyScraping (fun _ _ => [⟨"A1", u1b⟩, ⟨"A3", u3⟩]) send
              (processAgencyScraping (fun _ _ => [⟨"A1", u1⟩, ⟨"A2", u2⟩]) send
                ⟨RefMap.empty, s0, []⟩ url title nameAgency)
              url title nameAgency).trace =
          [⟨title, "A3", u3⟩]) := by
  constructor
  · intro n hn
    rw [sentSince_process] at hn
    obtain ⟨a, ha, rfl⟩ := List.mem_map.1 hn
    have hfresh := (mem_freshOf_ref _ _ a.propertyReference).1 (List.mem_map_of_mem _ ha)
    have key : ∀ r, (processAgencyScraping scrape1 send st url title nameAgency).processedReferences r
        ≠ none → r ≠ a.propertyReference := by
      intro r hr hra
      subst hra
      exact seen_calls_mono send between _ _ hr hfresh.1
    constructor
    · intro hmem
      exact key _ (seen_process_of_mem scrape1 send st url title nameAgency _ hmem) rfl
    · cases hM : st.processedReferences a.propertyReference with
      | none => exact hM
      | some b =>
        refine absurd rfl (key a.propertyReference ?_)
        rw [seen_process_mono _ _ _ _ _ _ _ _ hM]
        simp
  · intro s0 u1 u2 u1b u3
    constructor
    · rw [sentSince_process (fun _ _ => [⟨"A1", u1⟩, ⟨"A2", u2⟩]) send ⟨RefMap.empty, s0, []⟩]
      simp [freshOf, RefMap.empty, set_apply, notify]
    · rw [sentSince_process]
      have h1 : (processAgencyScraping (fun _ _ => [⟨"A1", u1⟩, ⟨"A2", u2⟩]) send
          ⟨RefMap.empty, s0, []⟩ url title nameAgency).processedReferences "A1" = some true := by
        rw [seen_process]; simp [RefMap.empty]
      have h3 : (processAgencyScraping (fun _ _ => [⟨"A1", u1⟩, ⟨"A2", u2⟩]) send
          ⟨RefMap.empty, s0, []⟩ url title nameAgency).processedReferences "A3" = none := by
        rw [seen_process]; simp [RefMap.empty]
      simp [freshOf, h1, h3, notify]

/-- Witness for C2: with one other call in between, the notification sent by
the later call (for "A3") is not for a reference of the first list. -/
theorem processAgencyScraping_never_renotifies_witness :
    (⟨"T", "A3", "u3"⟩ : Notification).propertyReference ∉
        refsOf ((fun _ _ => [⟨"A1", "u1"⟩, ⟨"A2", "u2"⟩] : Scrape) Afedim "search")
      ∧ RefMap.empty (⟨"T", "A3", "u3"⟩ : Notification).propertyReference = none :=
  (processAgencyScraping_never_renotifies deliverNone
    (fun _ _ => [⟨"A1", "u1"⟩, ⟨"A2", "u2"⟩]) (fun _ _ => [⟨"A1", "u1"⟩, ⟨"A3", "u3"⟩])
    [((fun _ _ => [⟨"A4", "u4"⟩]), "search", "T", Afedim)]
    ⟨RefMap.empty, (), []⟩ "search" "T" Afedim).1 ⟨"T", "A3", "u3"⟩ (by decide)

/-- C3: each call site of `RunScraper` has its own seen-set.  A call for `x`
leaves the seen-set of every other `y` unchanged; after a pass the seen-set of
`y` is its own seen-set grown by its own announcements; the notifications of a
pass under the title of `y` are those of the fresh announcements of `y` alone;
a reference unseen by `x` and by `y` and scraped for both is notified exactly
once under each title; and a pass in which the scraper answers otherwise for the
other sites (an empty list for `x`, say) notifies the same for `y`. -/
theorem RunScraper_agencies_independent (scrape : Scrape) (send : Notifier σ) (s : Scraper σ) :
    (∀ x y : Source, x ≠ y → (s.call scrape send x).seen y = s.seen y)
    ∧ (∀ (y : Source) (r : String), (cycle scrape send s).seen y r =
        match s.seen y r with
        | some b => some b
        | none => if r ∈ refsOf (scrape y.nameAgency y.url) then some true else none)
    ∧ (∀ y : Source,
        (sentSince s.trace (cycle scrape send s).trace).filter
            (fun n => decide (n.title = y.title)) =
          (freshOf (s.seen y) (scrape y.nameAgency y.url)).map (notify y.title))
    ∧ (∀ (x y : Source) (R : String), x ≠ y → s.seen x R = none → s.seen y R = none →
        R ∈ refsOf (scrape x.nameAgency x.url) → R ∈ refsOf (scrape y.nameAgency y.url) →
        (sentSince s.trace (cycle scrape send s).trace).countP
            (fun n => decide (n.propertyReference = R) && decide (n.title = x.title)) = 1
        ∧ (sentSince s.trace (cycle scrape send s).trace).countP
            (fun n => decide (n.propertyReference = R) && decide (n.title = y.title)) = 1)
    ∧ (∀ (scrape2 : Scrape) (y : Source),
        scrape2 y.nameAgency y.url = scrape y.nameAgency y.url →
        (sentSince s.trace (cycle scrape2 send s).trace).filter
            (fun n => decide (n.title = y.title)) =
          (sentSince s.trace (cycle scrape send s).trace).filter
            (fun n => decide (n.title = y.title))) := by
  have hcount : ∀ (z : Source) (R : String), s.seen z R = none →
      R ∈ refsOf (scrape z.nameAgency z.url) →
      (sentSince s.trace (cycle scrape send s).trace).countP
        (fun n => decide (n.propertyReference = R) && decide (n.title = z.title)) = 1 := by
    intro z R hz hm
    rw [← List.countP_filter, cycle_sent_for, count_ref_freshNotifications]
    simp [hz, hm]
  refine ⟨fun x y h => call_seen_other scrape send s x y h, ?_, ?_, ?_, ?_⟩
  · intro y r
    exact cycle_seen scrape send s y r
  · intro y
    exact cycle_sent_for scrape send s y
  · intro x y R _ hx hy hmx hmy
    exact ⟨hcount x R hx hmx, hcount y R hy hmy⟩
  · intro scrape2 y h
    rw [cycle_sent_for, cycle_sent_for]
    unfold freshNotifications
    rw [h]

/-- Witness for C3: from empty seen-sets, a pass in which Afedim yields nothing
and Giboire and Foncia both yield the reference "R1" notifies "R1" once under
each of the two titles. -/
theorem RunScraper_agencies_independent_witness :
    (sentSince (Scraper.init ()).trace
        (cycle (fun name _ => if name = "Giboire" then [⟨"R1", "g"⟩]
          else if name = "Foncia" then [⟨"R1", "f"⟩] else []) deliverAll
          (Scraper.init ())).trace).countP
          (fun n => decide (n.propertyReference = "R1") && decide (n.title = Source.giboire.title)) = 1
      ∧ (sentSince (Scraper.init ()).trace
        (cycle (fun name _ => if name = "Giboire" then [⟨"R1", "g"⟩]
          else if name = "Foncia" then [⟨"R1", "f"⟩] else []) deliverAll
          (Scraper.init ())).trace).countP
          (fun n => decide (n.propertyReference = "R1") && decide (n.title = Source.foncia.title)) = 1 :=
  (RunScraper_agencies_independent
    (fun name _ => if name = "Giboire" then [⟨"R1", "g"⟩]
      else if name = "Foncia" then [⟨"R1", "f"⟩] else []) deliverAll
    (Scraper.init ())).2.2.2.1 Source.giboire Source.foncia "R1" (by decide) rfl rfl
    (by decide) (by decide)

/-- C4: the seen-set after `processAgencyScraping` holds exactly the references
of the seen-set before and those of the announcements; a reference that was
seen keeps its entry, an unseen reference of the announcements gets the entry
true; and through any number of passes of `RunScraper` an entry of any of the
nine seen-sets stays as it is: nothing removes a reference. -/
theorem processAgencyScraping_seen_grows (scrape : Scrape) (send : Notifier σ) (st : Run σ)
    (url title : String) (nameAgency : Agency) :
    (∀ r : String,
        (processAgencyScraping scrape send st url title nameAgency).processedReferences.has r = true
          ↔ st.processedReferences.has r = true ∨ r ∈ refsOf (scrape nameAgency url))
    ∧ (∀ (r : String) (b : Bool), st.processedReferences r = some b →
        (processAgencyScraping scrape send st url title nameAgency).processedReferences r = some b)
    ∧ (∀ r : String, st.processedReferences r = none →
        r ∈ refsOf (scrape nameAgency url) →
        (processAgencyScraping scrape send st url title nameAgency).processedReferences r
          = some true)
    ∧ (∀ (passes : List Scrape) (s : Scraper σ) (y : Source) (r : String) (b : Bool),
        s.seen y r = some b →
        (passes.foldl (fun s scrape => cycle scrape send s) s).seen y r = some b) := by
  refine ⟨?_, fun r b h => seen_process_mono _ _ _ _ _ _ r b h, ?_,
    fun passes s y r b h => passes_seen_mono send passes s y r b h⟩
  · intro r
    unfold RefMap.has
    rw [seen_process]
    cases st.processedReferences r with
    | some b => simp
    | none => by_cases h : r ∈ refsOf (scrape nameAgency url) <;> simp [h]
  · intro r h hm
    rw [seen_process, h]
    simp [hm]

/-- Witness for C4: the entry of "A0" (stored as false) survives a call that
scrapes A0 and A1. -/
theorem processAgencyScraping_seen_grows_witness :
    (processAgencyScraping (fun _ _ => [⟨"A0", "u0"⟩, ⟨"A1", "u1"⟩]) deliverAll
        ⟨RefMap.empty.set "A0" false, (), []⟩ "search" "T" Foncia).processedReferences "A0"
      = some false :=
  (processAgencyScraping_seen_grows (fun _ _ => [⟨"A0", "u0"⟩, ⟨"A1", "u1"⟩]) deliverAll
    ⟨RefMap.empty.set "A0" false, (), []⟩ "search" "T" Foncia).2.1 "A0" false (by decide)

/-- C5: whatever the notifier does (two notifiers, on any states), the seen-set
after `processAgencyScraping` is the same; in the effects of the call each call
of the notifier comes right after the write that marks its reference; and a
later call on the resulting seen-set, whatever the notifier did, sends nothing
for a reference of the first list. -/
theorem processAgencyScraping_seen_independent_of_delivery {τ : Type}
    (scrape : Scrape) (send : Notifier σ) (send2 : Notifier τ)
    (M : RefMap) (s : σ) (s2 : τ) (t t2 : List Effect)
    (url title : String) (nameAgency : Agency) :
    (processAgencyScraping scrape send ⟨M, s, t⟩ url title nameAgency).processedReferences =
        (processAgencyScraping scrape send2 ⟨M, s2, t2⟩ url title nameAgency).processedReferences
    ∧ (∀ (pre post : List Effect) (n : Notification) (d : Bool),
        (processAgencyScraping scrape send ⟨M, s, t⟩ url title nameAgency).trace =
            t ++ pre ++ Effect.telegram n d :: post →
          ∃ pre', pre = pre' ++ [Effect.store n.propertyReference])
    ∧ (∀ (scrape2 : Scrape),
        ∀ n ∈ sentSince (processAgencyScraping scrape send ⟨M, s, t⟩ url title nameAgency).trace
            (processAgencyScraping scrape2 send
              (processAgencyScraping scrape send ⟨M, s, t⟩ url title nameAgency)
              url title nameAgency).trace,
          n.propertyReference ∉ refsOf (scrape nameAgency url)) := by
  refine ⟨?_, ?_, ?_⟩
  · funext r
    rw [seen_process, seen_process]
  · intro pre post n d h
    obtain ⟨e, he, -, hord⟩ := trace_foldl send title (scrape nameAgency url) ⟨M, s, t⟩
    unfold processAgencyScraping at h
    rw [he, List.append_assoc] at h
    exact hord pre post n d (List.append_cancel_left h)
  · intro scrape2 n hn hmem
    rw [sentSince_process] at hn
    obtain ⟨a, ha, rfl⟩ := List.mem_map.1 hn
    have hfresh := (mem_freshOf_ref _ _ a.propertyReference).1 (List.mem_map_of_mem _ ha)
    exact seen_process_of_mem scrape send ⟨M, s, t⟩ url title nameAgency _ hmem hfresh.1

/-- Witness for C5: with a notifier that never delivers, the write marking "A1"
comes right before the call of the notifier for "A1". -/
theorem processAgencyScraping_seen_independent_of_delivery_witness :
    ∃ pre', [Effect.println "Nouvelle annonce détectée référence : A1", Effect.store "A1"] =
      pre' ++ [Effect.store (⟨"T", "A1", "u1"⟩ : Notification).propertyReference] :=
  (processAgencyScraping_seen_independent_of_delivery (fun _ _ => [⟨"A1", "u1"⟩])
    deliverNone deliverAll RefMap.empty () () [] [] "search" "T" Nestenn).2.1
    [Effect.println "Nouvelle annonce détectée référence : A1", Effect.store "A1"] []
    ⟨"T", "A1", "u1"⟩ false (by decide)

end OrchestratorClaims

/-! ## Trimming -/

section Trimming

theorem trimRight_eq_rdropWhile (s : List Char) : trimRight s = s.rdropWhile isSpace := rfl

theorem trimRight_nil : trimRight [] = [] := rfl

theorem trimRight_append_spaces (a sp : List Char) (h : ∀ c ∈ sp, isSpace c = true) :
    trimRight (a ++ sp) = trimRight a := by
  unfold trimRight
  rw [List.reverse_append, List.dropWhile_append_of_pos]
  intro c hc
  exact h c (List.mem_reverse.1 hc)

theorem trimRight_concat (a : List Char) (d : Char) (hd : isSpace d = false) :
    trimRight (a ++ [d]) = a ++ [d] := by
  rw [trimRight_eq_rdropWhile]
  exact List.rdropWhile_concat_neg _ _ _ (by simp [hd])

theorem trimRight_append_of_ne_nil (a b : List Char) (h : trimRight b ≠ []) :
    trimRight (a ++ b) = a ++ trimRight b := by
  unfold trimRight at h ⊢
  rw [List.reverse_append, List.dropWhile_append]
  have : (List.dropWhile isSpace b.reverse).isEmpty = false := by
    cases hb : List.dropWhile isSpace b.reverse with
    | nil => rw [hb] at h; exact absurd rfl h
    | cons c l => rfl
  rw [this]
  simp

/-- The text cut by `trimRight` is made of spaces. -/
theorem trimRight_decomp (s : List Char) :
    ∃ sp, (∀ c ∈ sp, isSpace c = true) ∧ s = trimRight s ++ sp := by
  refine ⟨(s.reverse.takeWhile isSpace).reverse, ?_, ?_⟩
  · intro c hc
    exact List.mem_takeWhile_imp (List.mem_reverse.1 hc)
  · unfold trimRight
    rw [← List.reverse_append, List.takeWhile_append_dropWhile, List.reverse_reverse]

theorem trimRight_append_concat (a : List Char) (d : Char) (b : List Char)
    (hd : isSpace d = false) : trimRight (a ++ [d] ++ b) = a ++ [d] ++ trimRight b := by
  by_cases h : trimRight b = []
  · obtain ⟨sp, hsp, hb⟩ := trimRight_decomp b
    rw [h, List.nil_append] at hb
    rw [h, List.append_nil, hb, trimRight_append_spaces _ _ hsp, trimRight_concat _ _ hd]
  · exact trimRight_append_of_ne_nil _ _ h

theorem trimChars_spaces_append (sp s : List Char) (h : ∀ c ∈ sp, isSpace c = true) :
    trimChars (sp ++ s) = trimChars s := by
  unfold trimChars
  rw [List.dropWhile_append_of_pos h]

theorem trimChars_append_spaces (s sp : List Char) (h : ∀ c ∈ sp, isSpace c = true) :
    trimChars (s ++ sp) = trimChars s := by
  unfold trimChars
  rw [List.dropWhile_append]
  cases hs : List.dropWhile isSpace s with
  | nil =>
    have : List.dropWhile isSpace sp = [] := List.dropWhile_eq_nil_iff.2 h
    simp [this]
  | cons c l =>
    simp only [List.isEmpty_cons, Bool.false_eq_true, if_false]
    exact trimRight_append_spaces _ _ h

theorem trimChars_cons (c : Char) (s : List Char) (hc : isSpace c = false) :
    trimChars (c :: s) = trimRight (c :: s) := by
  unfold trimChars
  rw [List.dropWhile_cons]
  simp [hc]

theorem trimChars_trimRight (s : List Char) : trimChars (trimRight s) = trimChars s := by
  obtain ⟨sp, hsp, hs⟩ := trimRight_decomp s
  conv_rhs => rw [hs]
  rw [trimChars_append_spaces _ _ hsp]

/-- Trimming is unchanged by white space added on both sides. -/
theorem trimChars_surround (ws1 ws2 t : List Char) (h1 : ∀ c ∈ ws1, isSpace c = true)
    (h2 : ∀ c ∈ ws2, isSpace c = true) : trimChars (ws1 ++ t ++ ws2) = trimChars t := by
  rw [trimChars_append_spaces _ _ h2, trimChars_spaces_append _ _ h1]

theorem trimChars_of_spaces (ws : List Char) (h : ∀ c ∈ ws, isSpace c = true) :
    trimChars ws = [] := by
  have := trimChars_spaces_append ws [] h
  rw [List.append_nil] at this
  rw [this]
  rfl

/-- A text that begins and ends with runes that are not spaces is its own
trimming. -/
theorem trimChars_tight (c : Char) (mid : List Char) (d : Char) (hc : isSpace c = false)
    (hd : isSpace d = false) : trimChars (c :: (mid ++ [d])) = c :: (mid ++ [d]) := by
  rw [trimChars_cons _ _ hc]
  exact trimRight_concat (c :: mid) d hd

/-- A text without any space is its own trimming. -/
theorem trimChars_of_no_space (t : List Char) (h : ∀ c ∈ t, isSpace c = false) :
    trimChars t = t := by
  unfold trimChars trimRight
  have h1 : List.dropWhile isSpace t = t := by
    cases t with
    | nil => rfl
    | cons c l => rw [List.dropWhile_cons]; simp [h c (List.mem_cons_self _ _)]
  rw [h1]
  have h2 : List.dropWhile isSpace t.reverse = t.reverse := by
    cases ht : t.reverse with
    | nil => rfl
    | cons c l =>
      rw [List.dropWhile_cons]
      have : c ∈ t := List.mem_reverse.1 (ht ▸ List.mem_cons_self _ _)
      simp [h c this]
  rw [h2, List.reverse_reverse]

end Trimming

/-! ## Scanning -/

section Scanning

theorem isBlank_isSpace {c : Char} (h : isBlank c = true) : isSpace c = true := by
  unfold isBlank at h
  simp only [Bool.and_eq_true] at h
  exact h.1

theorem isBlank_of_not_space {c : Char} (h : isSpace c = false) : isBlank c = false := by
  simp [isBlank, h]

theorem isSpace_newline : isSpace '\n' = true := by decide

theorem skipBlanks_cons_blank (b : Char) (r : List Char) (h : isBlank b = true) :
    skipBlanks (b :: r) = skipBlanks r := by
  simp [skipBlanks, List.dropWhile_cons, h]

theorem skipBlanks_cons_of_not (c : Char) (r : List Char) (h : isBlank c = false) :
    skipBlanks (c :: r) = c :: r := by
  simp [skipBlanks, List.dropWhile_cons, h]

/-- What `skipBlanks` leaves does not begin with a blank. -/
theorem skipBlanks_head (r : List Char) (c : Char) (rest : List Char)
    (h : skipBlanks r = c :: rest) : isBlank c = false := by
  unfold skipBlanks at h
  have := List.head_dropWhile_not isBlank r
  rw [h] at this
  simpa using this (by simp)

theorem skipBlanks_append_of_cons (r post : List Char) (c : Char) (rest : List Char)
    (h : skipBlanks r = c :: rest) : skipBlanks (r ++ post) = c :: (rest ++ post) := by
  unfold skipBlanks at h ⊢
  rw [List.dropWhile_append, h]
  simp

/-- The single space of a format before a literal rune: the input has one blank
at least, and after its blanks comes the rune. -/
theorem closeRun_single (input : List Char) :
    closeRun (some ⟨0, true⟩) input =
      match input with
      | [] => .ok []
      | r :: rest =>
        if isSpace r = false then .error "expected space in input to match format"
        else if r = '\n' then .error "newline in input does not match format"
        else .ok (skipBlanks rest) := by
  cases input with
  | nil => rfl
  | cons r rest =>
    simp only [closeRun, matchSpaceRun, matchNewlines]
    by_cases hs : isSpace r = true
    · by_cases hn : r = '\n'
      · simp [hs, hn]
      · have hb : isBlank r = true := by simp [isBlank, hs, hn]
        simp [hs, hn, skipBlanks_cons_blank _ _ hb]
    · simp [hs]

theorem advance_literal (c : Char) (format input : List Char) (hs : isSpace c = false)
    (hp : c ≠ '%') :
    advance (c :: format) none input =
      match input with
      | [] => .error "unexpected EOF"
      | r :: rest => if c = r then advance format none rest
                     else .error "input does not match format" := by
  cases input <;> simp [advance, hs, hp, closeRun]

theorem advance_space_literal (c : Char) (format input : List Char) (hs : isSpace c = false)
    (hp : c ≠ '%') :
    advance (' ' :: c :: format) none input =
      match input with
      | [] => .error "unexpected EOF"
      | b :: r =>
        if isSpace b = false then .error "expected space in input to match format"
        else if b = '\n' then .error "newline in input does not match format"
        else
          match skipBlanks r with
          | [] => .error "unexpected EOF"
          | d :: rest => if c = d then advance format none rest
                         else .error "input does not match format" := by
  have h1 : isSpace ' ' = true := by decide
  have h2 : (' ' : Char) ≠ '\n' := by decide
  rw [advance]
  simp only [h1, h2, if_true, if_false]
  rw [advance]
  simp only [hs, Bool.false_eq_true, if_false, hp]
  rw [closeRun_single]
  cases input with
  | nil => rfl
  | cons b r =>
    simp only []
    by_cases hb : isSpace b = false
    · simp [hb]
    · by_cases hn : b = '\n'
      · simp [hn, isSpace_newline]
      · simp only [hb, hn, if_false]
        cases skipBlanks r <;> rfl

theorem advance_space_verb (format input : List Char) :
    advance (' ' :: '%' :: format) none input =
      match input with
      | [] => .ok ('%' :: format, [])
      | b :: r =>
        if isSpace b = false then .error "expected space in input to match format"
        else if b = '\n' then .error "newline in input does not match format"
        else .ok ('%' :: format, skipBlanks r) := by
  have h1 : isSpace ' ' = true := by decide
  have h2 : (' ' : Char) ≠ '\n' := by decide
  have h3 : isSpace '%' = false := by decide
  rw [advance]
  simp only [h1, h2, if_true, if_false]
  rw [advance]
  simp only [h3, Bool.false_eq_true, if_false]
  rw [closeRun_single]
  cases input with
  | nil => rfl
  | cons b r =>
    simp only []
    by_cases hb : isSpace b = false
    · simp [hb]
    · by_cases hn : b = '\n'
      · simp [hn, isSpace_newline]
      · simp [hb, hn]

theorem SkipSpace_cons_of_not (c : Char) (r : List Char) (h : isSpace c = false) :
    SkipSpace (c :: r) = .ok (c :: r) := by
  have h1 : c ≠ '\r' := by intro hc; subst hc; revert h; decide
  have h2 : c ≠ '\n' := by intro hc; subst hc; revert h; decide
  simp [SkipSpace, h, h1, h2]

theorem SkipSpace_nil : SkipSpace [] = .ok [] := rfl

/-- What `SkipSpace` leaves begins with a rune that is not a space. -/
theorem SkipSpace_head (input : List Char) (c : Char) (rest : List Char)
    (h : SkipSpace input = .ok (c :: rest)) : isSpace c = false := by
  induction input with
  | nil => simp [SkipSpace] at h
  | cons r input ih =>
    rw [SkipSpace] at h
    split at h
    · exact ih h
    · split at h
      · cases h
      · split at h
        · rename_i hs
          simp only [Except.ok.injEq, List.cons.injEq] at h
          rw [← h.1]
          simpa using hs
        · exact ih h

/-- On white space alone `SkipSpace` fails or reaches the end of the input. -/
theorem SkipSpace_spaces (ws : List Char) (h : ∀ c ∈ ws, isSpace c = true) :
    SkipSpace ws = .ok [] ∨ ∃ e, SkipSpace ws = .error e := by
  induction ws with
  | nil => exact Or.inl rfl
  | cons r ws ih =>
    have ih := ih (fun c hc => h c (List.mem_cons_of_mem _ hc))
    have hr := h r (List.mem_cons_self _ _)
    rw [SkipSpace]
    split
    · exact ih
    · split
      · exact Or.inr ⟨_, rfl⟩
      · simp only [hr, Bool.not_true, Bool.false_eq_true, if_false]
        exact ih

theorem convertString_spaces (ws : List Char) (h : ∀ c ∈ ws, isSpace c = true) :
    ∃ e, convertString ws = .error e := by
  unfold convertString
  rcases SkipSpace_spaces ws h with h1 | ⟨e, h1⟩
  · rw [h1]; exact ⟨_, rfl⟩
  · rw [h1]; exact ⟨_, rfl⟩

/-- The word scanned by `%s` is not empty. -/
theorem convertString_ne_nil (input w : List Char) (h : convertString input = .ok w) :
    w ≠ [] := by
  unfold convertString at h
  cases h1 : SkipSpace input with
  | error e => rw [h1] at h; cases h
  | ok i1 =>
    rw [h1] at h
    cases i1 with
    | nil => cases h
    | cons c rest =>
      have hc := SkipSpace_head _ _ _ h1
      simp only [SkipSpace_cons_of_not c rest hc, Except.ok.injEq] at h
      rw [← h, List.takeWhile_cons]
      simp [hc]

/-- A word without space, followed by nothing or by a space, is what `%s` scans. -/
theorem convertString_word (c : Char) (w rest : List Char)
    (hw : ∀ x ∈ c :: w, isSpace x = false)
    (hrest : ∀ x, rest.head? = some x → isSpace x = true) :
    convertString (c :: w ++ rest) = .ok (c :: w) := by
  have hc := hw c (List.mem_cons_self _ _)
  unfold convertString
  rw [List.cons_append, SkipSpace_cons_of_not _ _ hc]
  simp only [SkipSpace_cons_of_not _ _ hc]
  rw [← List.cons_append, List.takeWhile_append_of_pos (by simpa using hw)]
  cases rest with
  | nil => simp
  | cons x rest => simp [List.takeWhile_cons, hrest x rfl]

/-- A word of the format (no space, no `%`) is matched rune for rune. -/
theorem advance_word (w : List Char) (hw : ∀ c ∈ w, isSpace c = false ∧ c ≠ '%')
    (format input : List Char) (res : List Char × List Char) :
    advance (w ++ format) none input = .ok res ↔
      ∃ i1, input = w ++ i1 ∧ advance format none i1 = .ok res := by
  induction w generalizing input with
  | nil =>
    constructor
    · intro h; exact ⟨input, rfl, h⟩
    · rintro ⟨i1, rfl, h⟩; exact h
  | cons c w ih =>
    obtain ⟨hs, hp⟩ := hw c (List.mem_cons_self _ _)
    have ih := ih (fun x hx => hw x (List.mem_cons_of_mem _ hx))
    rw [List.cons_append, advance_literal c _ _ hs hp]
    cases input with
    | nil =>
      constructor
      · intro h; cases h
      · rintro ⟨i1, h, -⟩; cases h
    | cons r rest =>
      dsimp only
      by_cases hcr : c = r
      · subst hcr
        rw [if_pos rfl, ih]
        constructor
        · rintro ⟨i1, rfl, h⟩; exact ⟨i1, rfl, h⟩
        · rintro ⟨i1, h1, h⟩
          rw [List.cons_append, List.cons.injEq] at h1
          exact ⟨i1, h1.2, h⟩
      · rw [if_neg hcr]
        constructor
        · intro h; cases h
        · rintro ⟨i1, h1, -⟩
          rw [List.cons_append, List.cons.injEq] at h1
          exact absurd h1.1.symm hcr

theorem isBlank_iff (b : Char) : isBlank b = true ↔ isSpace b = true ∧ b ≠ '\n' := by
  simp [isBlank]

/-- A space of the format followed by a word: one blank at least in the input,
then, after the blanks, the word. -/
theorem advance_space_word (c : Char) (w : List Char)
    (hw : ∀ x ∈ c :: w, isSpace x = false ∧ x ≠ '%')
    (format input : List Char) (res : List Char × List Char) :
    advance (' ' :: (c :: w ++ format)) none input = .ok res ↔
      ∃ b r i2, input = b :: r ∧ isBlank b = true ∧ skipBlanks r = c :: w ++ i2 ∧
        advance format none i2 = .ok res := by
  obtain ⟨hs, hp⟩ := hw c (List.mem_cons_self _ _)
  have hword := advance_word w (fun x hx => hw x (List.mem_cons_of_mem _ hx)) format
  rw [List.cons_append, advance_space_literal c _ _ hs hp]
  cases input with
  | nil =>
    constructor
    · intro h; cases h
    · rintro ⟨b, r, i2, h, -⟩; cases h
  | cons b r =>
    dsimp only
    by_cases hb : isSpace b = false
    · rw [if_pos hb]
      constructor
      · intro h; cases h
      · rintro ⟨b', r', i2, h, hbl, -⟩
        rw [List.cons.injEq] at h
        rw [← h.1] at hbl
        rw [isBlank_of_not_space hb] at hbl
        cases hbl
    · rw [if_neg hb]
      by_cases hn : b = '\n'
      · rw [if_pos hn]
        constructor
        · intro h; cases h
        · rintro ⟨b', r', i2, h, hbl, -⟩
          rw [List.cons.injEq] at h
          rw [← h.1, hn] at hbl
          exact absurd hbl (by decide)
      · rw [if_neg hn]
        have hbl : isBlank b = true :=
          (isBlank_iff b).2 ⟨by simpa using hb, hn⟩
        cases hsk : skipBlanks r with
        | nil =>
          dsimp only
          constructor
          · intro h; cases h
          · rintro ⟨b', r', i2, h, -, h2, -⟩
            rw [List.cons.injEq] at h
            rw [← h.2, hsk] at h2
            cases h2
        | cons d rest =>
          dsimp only
          by_cases hcd : c = d
          · subst hcd
            rw [if_pos rfl, hword]
            constructor
            · rintro ⟨i1, rfl, h⟩
              exact ⟨b, r, i1, rfl, hbl, hsk, h⟩
            · rintro ⟨b', r', i2, h, -, h2, h3⟩
              rw [List.cons.injEq] at h
              rw [← h.2, hsk, List.cons_append, List.cons.injEq] at h2
              exact ⟨i2, h2.2, h3⟩
          · rw [if_neg hcd]
            constructor
            · intro h; cases h
            · rintro ⟨b', r', i2, h, -, h2, -⟩
              rw [List.cons.injEq] at h
              rw [← h.2, hsk, List.cons_append, List.cons.injEq] at h2
              exact absurd h2.1.symm hcd

/-- The final space and verb of a format: the input ends, or has one blank at
least. -/
theorem advance_space_verb_ok (format input : List Char) (res : List Char × List Char) :
    advance (' ' :: '%' :: format) none input = .ok res ↔
      (input = [] ∧ res = ('%' :: format, [])) ∨
      ∃ b r, input = b :: r ∧ isBlank b = true ∧ res = ('%' :: format, skipBlanks r) := by
  rw [advance_space_verb]
  cases input with
  | nil =>
    dsimp only
    constructor
    · intro h
      rw [Except.ok.injEq] at h
      exact Or.inl ⟨rfl, h.symm⟩
    · rintro (⟨-, h⟩ | ⟨b, r, h, -⟩)
      · rw [h]
      · cases h
  | cons b r =>
    dsimp only
    by_cases hb : isSpace b = false
    · rw [if_pos hb]
      constructor
      · intro h; cases h
      · rintro (⟨h, -⟩ | ⟨b', r', h, hbl, -⟩)
        · cases h
        · rw [List.cons.injEq] at h
          rw [← h.1, isBlank_of_not_space hb] at hbl
          cases hbl
    · rw [if_neg hb]
      by_cases hn : b = '\n'
      · rw [if_pos hn]
        constructor
        · intro h; cases h
        · rintro (⟨h, -⟩ | ⟨b', r', h, hbl, -⟩)
          · cases h
          · rw [List.cons.injEq] at h
            rw [← h.1, hn] at hbl
            exact absurd hbl (by decide)
      · rw [if_neg hn]
        have hbl : isBlank b = true :=
          (isBlank_iff b).2 ⟨by simpa using hb, hn⟩
        constructor
        · intro h
          rw [Except.ok.injEq] at h
          exact Or.inr ⟨b, r, rfl, hbl, h.symm⟩
        · rintro (⟨h, -⟩ | ⟨b', r', h, -, h2⟩)
          · cases h
          · rw [List.cons.injEq] at h
            rw [h2, ← h.2]

/-- The scan succeeds when the format is matched up to its final `%s` and a
word follows. -/
theorem doScanf_ok (format input w : List Char) :
    doScanf format input = .ok w ↔
      ∃ rest i, advance format none input = .ok (['%', 's'], rest) ∧
        SkipSpace rest = .ok i ∧ convertString i = .ok w := by
  unfold doScanf
  constructor
  · intro h
    split at h
    · cases h
    · cases h
    · rename_i rest hadv
      split at h
      · cases h
      · rename_i i hi
        exact ⟨rest, i, hadv, hi, h⟩
    · cases h
  · rintro ⟨rest, i, h1, h2, h3⟩
    rw [h1]
    show (match SkipSpace rest with
      | .error e => .error e
      | .ok input => convertString input) = Except.ok w
    rw [h2]
    exact h3

/-- After the blanks of the input, the word scanned is the run of runes up to
the next space, provided there is one. -/
theorem scan_after_blanks (r w : List Char) :
    (∃ i, SkipSpace (skipBlanks r) = .ok i ∧ convertString i = .ok w) ↔
      ∃ c r3, skipBlanks r = c :: r3 ∧ isSpace c = false ∧
        w = (c :: r3).takeWhile (fun x => !isSpace x) := by
  cases hsk : skipBlanks r with
  | nil =>
    constructor
    · rintro ⟨i, h1, h2⟩
      rw [SkipSpace_nil, Except.ok.injEq] at h1
      rw [← h1] at h2
      cases h2
    · rintro ⟨c, r3, h, -⟩; cases h
  | cons c r3 =>
    have hbl := skipBlanks_head r c r3 hsk
    by_cases hc : isSpace c = false
    · have hconv : convertString (c :: r3) = .ok ((c :: r3).takeWhile (fun x => !isSpace x)) := by
        unfold convertString
        simp only [SkipSpace_cons_of_not c r3 hc]
      constructor
      · rintro ⟨i, h1, h2⟩
        rw [SkipSpace_cons_of_not c r3 hc, Except.ok.injEq] at h1
        rw [← h1, hconv, Except.ok.injEq] at h2
        exact ⟨c, r3, rfl, hc, h2.symm⟩
      · rintro ⟨c', r3', h, -, hw⟩
        rw [List.cons.injEq] at h
        rw [← h.1, ← h.2] at hw
        exact ⟨c :: r3, SkipSpace_cons_of_not c r3 hc, by rw [hconv, hw]⟩
    · have hn : c = '\n' := by
        by_contra hne
        have := (isBlank_iff c).2 ⟨by simpa using hc, hne⟩
        rw [hbl] at this
        cases this
      subst hn
      have hskip : SkipSpace ('\n' :: r3) = .error "unexpected newline" := by
        rw [SkipSpace]
        simp
      constructor
      · rintro ⟨i, h1, -⟩
        rw [hskip] at h1
        cases h1
      · rintro ⟨c', r3', h, hc', -⟩
        rw [List.cons.injEq] at h
        rw [← h.1] at hc'
        exact absurd hc' hc

theorem scan_tail (i0 w : List Char) :
    (∃ rest i, advance [' ', '%', 's'] none i0 = .ok (['%', 's'], rest) ∧
        SkipSpace rest = .ok i ∧ convertString i = .ok w) ↔ TailWord i0 w := by
  unfold TailWord
  constructor
  · rintro ⟨rest, i, h1, h2, h3⟩
    rcases (advance_space_verb_ok _ _ _).1 h1 with ⟨-, hres⟩ | ⟨b, r, rfl, hb, hres⟩
    · rw [Prod.mk.injEq] at hres
      rw [hres.2, SkipSpace_nil, Except.ok.injEq] at h2
      rw [← h2] at h3
      cases h3
    · rw [Prod.mk.injEq] at hres
      rw [hres.2] at h2
      obtain ⟨c, r3, hsk, hc, hw⟩ := (scan_after_blanks r w).1 ⟨i, h2, h3⟩
      exact ⟨b, r, c, r3, rfl, hb, hsk, hc, hw⟩
  · rintro ⟨b, r, c, r3, rfl, hb, hsk, hc, hw⟩
    obtain ⟨i, h2, h3⟩ := (scan_after_blanks r w).2 ⟨c, r3, hsk, hc, hw⟩
    exact ⟨skipBlanks r, i, (advance_space_verb_ok _ _ _).2 (Or.inr ⟨b, r, rfl, hb, rfl⟩), h2, h3⟩

theorem advance_words (ws : List (List Char)) (hws : ∀ wd ∈ ws, LitWord wd) (i0 w : List Char) :
    (∃ rest i, advance (formatTail ws) none i0 = .ok (['%', 's'], rest) ∧
        SkipSpace rest = .ok i ∧ convertString i = .ok w) ↔ Loose ws i0 w := by
  induction ws generalizing i0 with
  | nil => exact scan_tail i0 w
  | cons wd ws ih =>
    have ih := ih (fun x hx => hws x (List.mem_cons_of_mem _ hx))
    obtain ⟨hne, hlit⟩ := hws wd (List.mem_cons_self _ _)
    obtain ⟨c, wd', rfl⟩ := List.exists_cons_of_ne_nil hne
    unfold formatTail Loose
    constructor
    · rintro ⟨rest, i, h1, h2, h3⟩
      obtain ⟨b, r, i2, rfl, hb, hsk, hadv⟩ := (advance_space_word c wd' hlit _ _ _).1 h1
      exact ⟨b, r, i2, rfl, hb, hsk, (ih i2).1 ⟨rest, i, hadv, h2, h3⟩⟩
    · rintro ⟨b, r, i2, rfl, hb, hsk, hl⟩
      obtain ⟨rest, i, hadv, h2, h3⟩ := (ih i2).2 hl
      exact ⟨rest, i, (advance_space_word c wd' hlit _ _ _).2 ⟨b, r, i2, rfl, hb, hsk, hadv⟩,
        h2, h3⟩

/-- The scan with the format `w1 ws... %s` succeeds with the word `w` exactly
when the input begins with `w1` and goes on with the further words and `w`,
each after one blank at least. -/
theorem doScanf_words (w1 : List Char) (ws : List (List Char)) (h1 : LitWord w1)
    (hws : ∀ wd ∈ ws, LitWord wd) (input w : List Char) :
    doScanf (w1 ++ formatTail ws) input = .ok w ↔
      ∃ i1, input = w1 ++ i1 ∧ Loose ws i1 w := by
  rw [doScanf_ok]
  constructor
  · rintro ⟨rest, i, hadv, h2, h3⟩
    obtain ⟨i1, rfl, hadv1⟩ := (advance_word w1 h1.2 _ _ _).1 hadv
    exact ⟨i1, rfl, (advance_words ws hws i1 w).1 ⟨rest, i, hadv1, h2, h3⟩⟩
  · rintro ⟨i1, rfl, hl⟩
    obtain ⟨rest, i, hadv, h2, h3⟩ := (advance_words ws hws i1 w).2 hl
    exact ⟨rest, i, (advance_word w1 h1.2 _ _ _).2 ⟨i1, rfl, hadv⟩, h2, h3⟩

theorem TailWord_ne_nil (i w : List Char) (h : TailWord i w) : w ≠ [] := by
  obtain ⟨b, r, c, r3, -, -, -, hc, hw⟩ := h
  rw [hw, List.takeWhile_cons]
  simp [hc]

theorem Loose_ne_nil (ws : List (List Char)) (i w : List Char) (h : Loose ws i w) : w ≠ [] := by
  induction ws generalizing i with
  | nil => exact TailWord_ne_nil i w h
  | cons wd ws ih =>
    obtain ⟨b, r, i2, -, -, -, hl⟩ := h
    exact ih i2 hl

/-- After the label, blanks and a word followed by nothing or a space: the word
is scanned. -/
theorem TailWord_intro (b : Char) (bs : List Char) (c : Char) (w rest : List Char)
    (hb : isBlank b = true) (hbs : ∀ x ∈ bs, isBlank x = true)
    (hw : ∀ x ∈ c :: w, isSpace x = false)
    (hrest : ∀ x, rest.head? = some x → isSpace x = true) :
    TailWord (b :: (bs ++ (c :: w ++ rest))) (c :: w) := by
  refine ⟨b, bs ++ (c :: w ++ rest), c, w ++ rest, rfl, hb, ?_, hw c (List.mem_cons_self _ _), ?_⟩
  · unfold skipBlanks
    rw [List.dropWhile_append_of_pos hbs, List.cons_append, List.dropWhile_cons]
    simp [isBlank_of_not_space (hw c (List.mem_cons_self _ _))]
  · rw [← List.cons_append, List.takeWhile_append_of_pos (by simpa using hw)]
    cases rest with
    | nil => simp
    | cons x rest => simp [List.takeWhile_cons, hrest x rfl]

theorem Loose_intro (ws : List (List Char)) (hws : ∀ wd ∈ ws, LitWord wd) (tail w : List Char)
    (h : TailWord tail w) : Loose ws (spaced ws ++ tail) w := by
  induction ws with
  | nil => exact h
  | cons wd ws ih =>
    have ih := ih (fun x hx => hws x (List.mem_cons_of_mem _ hx))
    obtain ⟨hne, hlit⟩ := hws wd (List.mem_cons_self _ _)
    obtain ⟨c, wd', rfl⟩ := List.exists_cons_of_ne_nil hne
    refine ⟨' ', c :: wd' ++ spaced ws ++ tail, spaced ws ++ tail, ?_, by decide, ?_, ih⟩
    · simp [spaced]
    · rw [List.cons_append, List.cons_append,
        skipBlanks_cons_of_not _ _ (isBlank_of_not_space (hlit c (List.mem_cons_self _ _)).1)]
      simp

/-- After the label, white space alone: nothing is scanned. -/
theorem TailWord_spaces (sp w : List Char) (hsp : ∀ x ∈ sp, isSpace x = true) :
    ¬ TailWord sp w := by
  rintro ⟨b, r, c, r3, rfl, -, hsk, hc, -⟩
  have hmem : c ∈ skipBlanks r := by rw [hsk]; exact List.mem_cons_self _ _
  have : c ∈ r := (List.dropWhile_suffix _).subset hmem
  rw [hsp c (List.mem_cons_of_mem _ this)] at hc
  cases hc

theorem Loose_spaces (ws : List (List Char)) (hws : ∀ wd ∈ ws, LitWord wd) (sp w : List Char)
    (hsp : ∀ x ∈ sp, isSpace x = true) : ¬ Loose ws (spaced ws ++ sp) w := by
  induction ws with
  | nil => exact TailWord_spaces sp w hsp
  | cons wd ws ih =>
    have ih := ih (fun x hx => hws x (List.mem_cons_of_mem _ hx))
    obtain ⟨hne, hlit⟩ := hws wd (List.mem_cons_self _ _)
    obtain ⟨c, wd', rfl⟩ := List.exists_cons_of_ne_nil hne
    rintro ⟨b, r, i2, h, -, hsk, hl⟩
    simp only [spaced, List.cons_append, List.cons.injEq] at h
    rw [← h.2, skipBlanks_cons_of_not _ _
      (isBlank_of_not_space (hlit c (List.mem_cons_self _ _)).1)] at hsk
    simp only [List.cons_append, List.append_assoc, List.cons.injEq, true_and] at hsk
    have := List.append_cancel_left hsk
    rw [← this] at hl
    exact ih hl

end Scanning

/-! ## Occurrences of a label -/

section Occurrences

theorem squeezeAux_true (s : List Char) : squeezeAux true s = squeeze (skipBlanks s) := by
  induction s with
  | nil => rfl
  | cons c s ih =>
    by_cases hc : isBlank c = true
    · rw [skipBlanks_cons_blank c s hc, ← ih]
      simp [squeezeAux, hc]
    · have hc' : isBlank c = false := by simpa using hc
      rw [skipBlanks_cons_of_not c s hc']
      simp [squeeze, squeezeAux, hc']

theorem squeeze_cons_blank (b : Char) (r : List Char) (hb : isBlank b = true) :
    squeeze (b :: r) = ' ' :: squeeze (skipBlanks r) := by
  rw [← squeezeAux_true]
  simp [squeeze, squeezeAux, hb]

theorem squeezeAux_cons_of_not (f : Bool) (c : Char) (r : List Char) (hc : isBlank c = false) :
    squeezeAux f (c :: r) = c :: squeeze r := by
  simp [squeeze, squeezeAux, hc]

theorem squeeze_word_append (wd i : List Char) (hwd : ∀ c ∈ wd, isSpace c = false) :
    squeeze (wd ++ i) = wd ++ squeeze i := by
  induction wd with
  | nil => rfl
  | cons c wd ih =>
    have hc := isBlank_of_not_space (hwd c (List.mem_cons_self _ _))
    rw [List.cons_append, squeeze, squeezeAux_cons_of_not _ _ _ hc,
      ih (fun x hx => hwd x (List.mem_cons_of_mem _ hx))]
    rfl

theorem squeezeAux_append_cons (f : Bool) (a : List Char) (c : Char) (r : List Char)
    (hc : isBlank c = false) :
    squeezeAux f (a ++ c :: r) = squeezeAux f a ++ c :: squeeze r := by
  induction a generalizing f with
  | nil => exact squeezeAux_cons_of_not f c r hc
  | cons x a ih =>
    rw [List.cons_append]
    unfold squeezeAux
    by_cases hx : isBlank x = true
    · cases f <;> simp [hx, ih]
    · simp [hx, ih]

/-- The further words of a label occur, one space before each, at the head of
the squeezed input that matches them loosely. -/
theorem Loose_squeeze (ws : List (List Char)) (hws : ∀ wd ∈ ws, LitWord wd) (i w : List Char)
    (h : Loose ws i w) : spaced ws <+: squeeze i := by
  induction ws generalizing i with
  | nil => exact List.nil_prefix
  | cons wd ws ih =>
    obtain ⟨b, r, i2, rfl, hb, hsk, hl⟩ := h
    have hlit := (hws wd (List.mem_cons_self _ _)).2
    rw [squeeze_cons_blank b r hb, hsk, squeeze_word_append wd i2 (fun c hc => (hlit c hc).1)]
    unfold spaced
    obtain ⟨t, ht⟩ := ih (fun x hx => hws x (List.mem_cons_of_mem _ hx)) i2 hl
    exact ⟨t, by rw [← ht]; simp⟩

theorem squeeze_dropWhile_tail (s : List Char) :
    squeeze (s.dropWhile isSpace) <:+ squeeze s := by
  cases hd : s.dropWhile isSpace with
  | nil => exact List.nil_suffix
  | cons c rest =>
    have hc : isSpace c = false := by
      have := List.head_dropWhile_not isSpace s (by rw [hd]; simp)
      simpa [hd] using this
    have hs : s = s.takeWhile isSpace ++ c :: rest := by
      rw [← hd, List.takeWhile_append_dropWhile]
    conv_rhs => rw [hs, squeeze, squeezeAux_append_cons _ _ _ _ (isBlank_of_not_space hc)]
    rw [squeeze, squeezeAux_cons_of_not _ _ _ (isBlank_of_not_space hc)]
    exact List.suffix_append _ _

theorem squeeze_trimRight_head (s : List Char) : squeeze (trimRight s) <+: squeeze s := by
  obtain ⟨sp, -, hs⟩ := trimRight_decomp s
  by_cases hne : trimRight s = []
  · rw [hne]; exact List.nil_prefix
  · have hlast := List.rdropWhile_last_not isSpace s hne
    have hd : isSpace ((trimRight s).getLast hne) = false := by simpa using hlast
    have hsplit := List.dropLast_append_getLast hne
    conv_rhs => rw [hs, ← hsplit, List.append_assoc, List.singleton_append, squeeze,
      squeezeAux_append_cons _ _ _ _ (isBlank_of_not_space hd)]
    conv_lhs => rw [← hsplit, squeeze,
      squeezeAux_append_cons _ _ _ _ (isBlank_of_not_space hd)]
    refine ⟨squeeze sp, ?_⟩
    simp [squeeze, squeezeAux]

/-- Squeezing the trimmed text gives a part of the squeezed text. -/
theorem squeeze_trimChars_part (s : List Char) : squeeze (trimChars s) <:+: squeeze s :=
  (squeeze_trimRight_head _).isInfix.trans (squeeze_dropWhile_tail s).isInfix

theorem trimChars_part (s : List Char) : trimChars s <:+: s :=
  (List.rdropWhile_prefix isSpace _).isInfix.trans (List.dropWhile_suffix isSpace).isInfix

theorem indexChars_isSome (sep s : List Char) : (indexChars sep s).isSome = true ↔ sep <:+: s := by
  induction s with
  | nil =>
    unfold indexChars
    cases sep with
    | nil => simp
    | cons c sep => simp
  | cons c s ih =>
    unfold indexChars
    by_cases hp : sep.isPrefixOf (c :: s) = true
    · rw [if_pos hp]
      simp only [Option.isSome_some, true_iff]
      exact (List.isPrefixOf_iff_prefix.1 hp).isInfix
    · rw [if_neg hp, Option.isSome_map', ih, List.infix_cons_iff]
      have : ¬ sep <+: c :: s := fun h => hp (List.isPrefixOf_iff_prefix.2 h)
      simp [this]

theorem indexChars_eq_none (sep s : List Char) : indexChars sep s = none ↔ ¬ sep <:+: s := by
  rw [← indexChars_isSome]
  cases indexChars sep s <;> simp

theorem indexChars_prefix (sep s : List Char) (h : sep <+: s) : indexChars sep s = some 0 := by
  have hp := List.isPrefixOf_iff_prefix.2 h
  cases s with
  | nil =>
    have : sep = [] := List.prefix_nil.1 h
    subst this
    rfl
  | cons c s =>
    unfold indexChars
    rw [if_pos hp]

end Occurrences

/-! ## The callbacks in terms of the scan -/

section Callbacks

theorem doScanf_ne_nil (format input w : List Char) (h : doScanf format input = .ok w) :
    w ≠ [] := by
  obtain ⟨rest, i, -, -, h3⟩ := (doScanf_ok format input w).1 h
  exact convertString_ne_nil i w h3

theorem mk_ne_empty (w : List Char) (h : w ≠ []) : (String.mk w) ≠ "" := by
  intro hs
  exact h (congrArg String.data hs)

theorem Sscanf_of_ok (str format : String) (w : List Char)
    (h : doScanf format.data str.data = .ok w) :
    Sscanf str format = { reference := ⟨w⟩, err := none } := by
  unfold Sscanf
  rw [h]

theorem Sscanf_of_error (str format : String) (e : String)
    (h : doScanf format.data str.data = .error e) :
    Sscanf str format = { reference := "", err := some e } := by
  unfold Sscanf
  rw [h]

theorem afedim_listings (text url : String) :
    Source.afedim.listings text url = scanListings "Référence du bien : %s" text url := by
  show (processDetailPagesAfedim text url Extraction.empty).announcements = _
  unfold processDetailPagesAfedim scanListings
  cases h : doScanf ("Référence du bien : %s" : String).data text.data with
  | ok w =>
    simp [Sscanf_of_ok _ _ w h, mk_ne_empty w (doScanf_ne_nil _ _ w h), Extraction.append,
      Extraction.empty]
  | error e => simp [Sscanf_of_error _ _ e h, Extraction.empty]

theorem giboire_listings (text url : String) :
    Source.giboire.listings text url = scanListings "Réf : %s" text url := by
  show (processDetailPagesGiboire text url Extraction.empty).announcements = _
  unfold processDetailPagesGiboire scanListings
  cases h : doScanf ("Réf : %s" : String).data text.data with
  | ok w =>
    simp [Sscanf_of_ok _ _ w h, mk_ne_empty w (doScanf_ne_nil _ _ w h), Extraction.append,
      Extraction.empty]
  | error e => simp [Sscanf_of_error _ _ e h, Extraction.empty, Extraction.printf]

theorem foncia_listings (text url : String) :
    Source.foncia.listings text url = scanListings "Réf. %s" (TrimSpace text) url := by
  show (processDetailPagesFoncia text url Extraction.empty).announcements = _
  unfold processDetailPagesFoncia scanListings
  cases h : doScanf ("Réf. %s" : String).data (TrimSpace text).data with
  | ok w =>
    simp [Sscanf_of_ok _ _ w h, mk_ne_empty w (doScanf_ne_nil _ _ w h), Extraction.append,
      Extraction.empty]
  | error e => simp [Sscanf_of_error _ _ e h, Extraction.empty, Extraction.printf]

theorem agenceDuColombier_listings (text url : String) :
    Source.agenceDuColombier.listings text url =
      if Contains text "REF:" then scanListings "REF: %s" (TrimSpace text) url else [] := by
  show (forEachParagraphAgenceDuColombier text url Extraction.empty).announcements = _
  unfold forEachParagraphAgenceDuColombier scanListings
  by_cases hc : Contains text "REF:" = true
  · rw [if_pos hc, if_pos hc]
    cases h : doScanf ("REF: %s" : String).data (TrimSpace text).data with
    | ok w =>
      simp [Sscanf_of_ok _ _ w h, mk_ne_empty w (doScanf_ne_nil _ _ w h), Extraction.append,
        Extraction.empty]
    | error e => simp [Sscanf_of_error _ _ e h, Extraction.empty, Extraction.printf]
  · rw [if_neg hc, if_neg hc]
    rfl

theorem laFrancaiseImmobiliere_listings (text url : String) :
    Source.laFrancaiseImmobiliere.listings text url =
      scanListings "Réf : %s" (TrimSpace text) url := by
  show (processDetailPagesLaFrancaiseImmobiliere text url Extraction.empty).announcements = _
  unfold processDetailPagesLaFrancaiseImmobiliere scanListings
  cases h : doScanf ("Réf : %s" : String).data (TrimSpace text).data with
  | ok w =>
    simp [Sscanf_of_ok _ _ w h, mk_ne_empty w (doScanf_ne_nil _ _ w h), Extraction.append,
      Extraction.empty]
  | error e => simp [Sscanf_of_error _ _ e h, Extraction.empty, Extraction.printf]

theorem TrimSpace_data (s : String) : (TrimSpace s).data = trimChars s.data := rfl

theorem scanListings_of_ok (format fullValue url : String) (w : List Char)
    (h : doScanf format.data fullValue.data = .ok w) :
    scanListings format fullValue url = [{ propertyReference := ⟨w⟩, url := url }] := by
  unfold scanListings
  rw [h]

theorem scanListings_eq_nil (format fullValue url : String)
    (h : ∀ w, doScanf format.data fullValue.data ≠ .ok w) :
    scanListings format fullValue url = [] := by
  unfold scanListings
  cases hd : doScanf format.data fullValue.data with
  | ok w => exact absurd hd (h w)
  | error e => rfl

theorem scanListings_cases (format fullValue url : String) :
    scanListings format fullValue url = [] ∨
      ∃ w, doScanf format.data fullValue.data = .ok w ∧
        scanListings format fullValue url = [{ propertyReference := ⟨w⟩, url := url }] := by
  cases hd : doScanf format.data fullValue.data with
  | ok w => exact Or.inr ⟨w, rfl, scanListings_of_ok _ _ _ w hd⟩
  | error e => exact Or.inl (scanListings_eq_nil _ _ _ (fun w h => by rw [hd] at h; cases h))

/-- The label, blanks, a word, and nothing or a space after it: the scan gives
the word. -/
theorem scanListings_word (w1 : List Char) (ws : List (List Char)) (h1 : LitWord w1)
    (hws : ∀ wd ∈ ws, LitWord wd) (format label : String)
    (hf : format.data = w1 ++ formatTail ws) (hl : label.data = w1 ++ spaced ws)
    (blanks word rest url : String) (hb : Blanks blanks) (hw : Word word) (hr : SpaceLed rest) :
    scanListings format (label ++ blanks ++ word ++ rest) url =
      [{ propertyReference := word, url := url }] := by
  obtain ⟨b, bs, hbd⟩ := List.exists_cons_of_ne_nil hb.1
  obtain ⟨c, w, hwd⟩ := List.exists_cons_of_ne_nil hw.1
  have htail : TailWord (b :: (bs ++ (c :: w ++ rest.data))) (c :: w) := by
    apply TailWord_intro
    · exact hb.2 b (by rw [hbd]; exact List.mem_cons_self _ _)
    · intro x hx; exact hb.2 x (by rw [hbd]; exact List.mem_cons_of_mem _ hx)
    · intro x hx; exact hw.2 x (by rw [hwd]; exact hx)
    · exact hr
  have hdata : (label ++ blanks ++ word ++ rest).data =
      w1 ++ (spaced ws ++ (b :: (bs ++ (c :: w ++ rest.data)))) := by
    simp only [String.data_append, hl, hbd, hwd]
    simp
  have := (doScanf_words w1 ws h1 hws _ (c :: w)).2
    ⟨_, hdata, Loose_intro ws hws _ _ htail⟩
  rw [← hf] at this
  rw [scanListings_of_ok _ _ _ _ this]
  congr 1
  have : word = ⟨c :: w⟩ := String.ext_iff.2 hwd
  rw [this]

/-- The label and white space alone: the scan gives nothing. -/
theorem scanListings_spaces (w1 : List Char) (ws : List (List Char)) (h1 : LitWord w1)
    (hws : ∀ wd ∈ ws, LitWord wd) (format label : String)
    (hf : format.data = w1 ++ formatTail ws) (hl : label.data = w1 ++ spaced ws)
    (sp : List Char) (fullValue url : String) (hsp : ∀ c ∈ sp, isSpace c = true)
    (hv : fullValue.data = label.data ++ sp) :
    scanListings format fullValue url = [] := by
  apply scanListings_eq_nil
  intro w hok
  rw [hf] at hok
  obtain ⟨i1, hi, hl'⟩ := (doScanf_words w1 ws h1 hws _ w).1 hok
  rw [hv, hl, List.append_assoc] at hi
  rw [← List.append_cancel_left hi] at hl'
  exact Loose_spaces ws hws sp w hsp hl'

/-- When the scan gives a listing, the label occurs at the head of the squeezed
text. -/
theorem scanListings_loose (w1 : List Char) (ws : List (List Char)) (h1 : LitWord w1)
    (hws : ∀ wd ∈ ws, LitWord wd) (format label : String)
    (hf : format.data = w1 ++ formatTail ws) (hl : label.data = w1 ++ spaced ws)
    (fullValue url : String) (h : scanListings format fullValue url ≠ []) :
    label.data <+: squeeze fullValue.data := by
  rcases scanListings_cases format fullValue url with h0 | ⟨w, hok, -⟩
  · exact absurd h0 h
  · rw [hf] at hok
    obtain ⟨i1, hi, hl'⟩ := (doScanf_words w1 ws h1 hws _ w).1 hok
    obtain ⟨t, ht⟩ := Loose_squeeze ws hws i1 w hl'
    rw [hi, hl, squeeze_word_append w1 i1 (fun c hc => (h1.2 c hc).1), ← ht]
    exact ⟨t, by simp⟩

/-- When the scan with a one-word label gives a listing, the text begins with
the label. -/
theorem scanListings_literal (format label : String) (h1 : LitWord label.data)
    (hf : format.data = label.data ++ formatTail [])
    (fullValue url : String) (h : scanListings format fullValue url ≠ []) :
    label.data <+: fullValue.data := by
  rcases scanListings_cases format fullValue url with h0 | ⟨w, hok, -⟩
  · exact absurd h0 h
  · rw [hf] at hok
    obtain ⟨i1, hi, -⟩ := (doScanf_words label.data [] h1 (by simp) _ w).1 hok
    exact ⟨i1, hi.symm⟩

/-! The four formats of the source, word by word. -/

theorem format_afedim :
    ("Référence du bien : %s" : String).data =
      ("Référence" : String).data ++ formatTail [("du" : String).data, ("bien" : String).data,
        (":" : String).data] := by decide

theorem label_afedim :
    Source.afedim.label.data =
      ("Référence" : String).data ++ spaced [("du" : String).data, ("bien" : String).data,
        (":" : String).data] := by decide

theorem format_ref :
    ("Réf : %s" : String).data = ("Réf" : String).data ++ formatTail [(":" : String).data] := by
  decide

theorem label_ref :
    ("Réf :" : String).data = ("Réf" : String).data ++ spaced [(":" : String).data] := by decide

theorem format_foncia :
    ("Réf. %s" : String).data = ("Réf." : String).data ++ formatTail [] := by decide

theorem format_colombier :
    ("REF: %s" : String).data = ("REF:" : String).data ++ formatTail [] := by decide

theorem lit_afedim : LitWord ("Référence" : String).data ∧
    ∀ wd ∈ [("du" : String).data, ("bien" : String).data, (":" : String).data], LitWord wd := by
  unfold LitWord
  decide

theorem lit_ref : LitWord ("Réf" : String).data ∧
    ∀ wd ∈ [(":" : String).data], LitWord wd := by
  unfold LitWord
  decide

theorem lit_foncia : LitWord ("Réf." : String).data := by
  unfold LitWord
  decide

theorem lit_colombier : LitWord ("REF:" : String).data := by
  unfold LitWord
  decide

/-- A callback adds its listings and its diagnostics to what was collected
before. -/
theorem processDetailPages_frame (x : Source) (text url : String) (st : Extraction) :
    (x.processDetailPages text url st).announcements = st.announcements ++ x.listings text url
    ∧ (x.processDetailPages text url st).log = st.log ++ x.diagnostics text url := by
  cases x <;>
    simp only [Source.listings, Source.diagnostics, Source.processDetailPages,
      processDetailPagesAfedim, processDetailPagesGiboire, processDetailPagesFoncia,
      forEachParagraphAgenceDuColombier, processDetailPagesLaFrancaiseImmobiliere,
      processDetailPagesGuenno, processDetailPagesLaMotte, processDetailPagesKermarrec,
      processDetailPagesNestenn] <;>
    (repeat' split) <;>
    simp [Extraction.append, Extraction.printf, Extraction.empty]

/-- Every listing has a reference that is not empty and the URL of the page. -/
theorem listings_wellformed (x : Source) (text url : String) (a : Announcement)
    (h : a ∈ x.listings text url) : a.propertyReference ≠ "" ∧ a.url = url := by
  revert h
  cases x <;>
    simp only [Source.listings, Source.processDetailPages,
      processDetailPagesAfedim, processDetailPagesGiboire, processDetailPagesFoncia,
      forEachParagraphAgenceDuColombier, processDetailPagesLaFrancaiseImmobiliere,
      processDetailPagesGuenno, processDetailPagesLaMotte, processDetailPagesKermarrec,
      processDetailPagesNestenn] <;>
    (repeat' split) <;>
    simp_all [Extraction.append, Extraction.printf, Extraction.empty]

theorem guenno_listings (text url : String) :
    Source.guenno.listings text url = prefixListings "Ref :" (TrimSpace text) url := by
  show (processDetailPagesGuenno text url Extraction.empty).announcements = _
  unfold processDetailPagesGuenno prefixListings
  (repeat' split) <;> simp_all [Extraction.append, Extraction.printf, Extraction.empty]

theorem laMotte_listings (text url : String) :
    Source.laMotte.listings text url = prefixListings "Lot" (TrimSpace text) url := by
  show (processDetailPagesLaMotte text url Extraction.empty).announcements = _
  unfold processDetailPagesLaMotte prefixListings
  (repeat' split) <;> simp_all [Extraction.append, Extraction.printf, Extraction.empty]

theorem kermarrec_listings (text url : String) :
    Source.kermarrec.listings text url =
      if HasPrefix (TrimSpace text) "(ref :" then
        if TrimSpace (TrimSuffix (TrimPrefix (TrimSpace text) "(ref :") ")") ≠ "" then
          [{ propertyReference :=
              TrimSpace (TrimSuffix (TrimPrefix (TrimSpace text) "(ref :") ")"),
             url := url }]
        else []
      else [] := by
  show (processDetailPagesKermarrec text url Extraction.empty).announcements = _
  unfold processDetailPagesKermarrec
  (repeat' split) <;> simp_all [Extraction.append, Extraction.printf, Extraction.empty]

theorem nestenn_listings (text url : String) :
    Source.nestenn.listings text url =
      if Contains (TrimSpace text) "Réf :" then
        match Split (TrimSpace text) "Réf :" with
        | _ :: part1 :: _ =>
          if TrimSpace part1 ≠ "" then [{ propertyReference := TrimSpace part1, url := url }]
          else []
        | _ => []
      else [] := by
  show (processDetailPagesNestenn text url Extraction.empty).announcements = _
  unfold processDetailPagesNestenn
  (repeat' split) <;> simp_all [Extraction.append, Extraction.printf, Extraction.empty]

theorem trimChars_label_append (label rem : List Char) (h : TightLabel label) :
    trimChars (label ++ rem) = label ++ trimRight rem := by
  obtain ⟨c, mid, d, rfl, hc, hd⟩ := h
  rw [List.cons_append, trimChars_cons _ _ hc]
  have : c :: (mid ++ [d] ++ rem) = (c :: mid) ++ [d] ++ rem := by simp
  rw [this, trimRight_append_concat _ _ _ hd]
  simp

theorem HasPrefix_iff (s pre : String) : HasPrefix s pre = true ↔ pre.data <+: s.data := by
  unfold HasPrefix
  exact List.isPrefixOf_iff_prefix

theorem Contains_iff (s sub : String) : Contains s sub = true ↔ Occurs sub s := by
  unfold Contains Occurs
  exact indexChars_isSome _ _

/-- On a text that begins with the label, the label is found after trimming
and what `strings.TrimPrefix` leaves is the rest without its final spaces. -/
theorem strip_label (label rem : String) (h : TightLabel label.data) :
    HasPrefix (TrimSpace (label ++ rem)) label = true
    ∧ TrimPrefix (TrimSpace (label ++ rem)) label = ⟨trimRight rem.data⟩ := by
  have hd : (TrimSpace (label ++ rem)).data = label.data ++ trimRight rem.data := by
    rw [TrimSpace_data, String.data_append, trimChars_label_append _ _ h]
  have hp : HasPrefix (TrimSpace (label ++ rem)) label = true :=
    (HasPrefix_iff _ _).2 ⟨_, hd.symm⟩
  refine ⟨hp, ?_⟩
  unfold TrimPrefix
  rw [if_pos hp, hd, List.drop_left]

theorem TrimSpace_mk_trimRight (rem : String) :
    TrimSpace ⟨trimRight rem.data⟩ = TrimSpace rem := by
  unfold TrimSpace
  rw [trimChars_trimRight]

/-- The label followed by a rest: the listing is the trimmed rest, when it is
not empty. -/
theorem prefixListings_label (label rem url : String) (h : TightLabel label.data) :
    prefixListings label (TrimSpace (label ++ rem)) url =
      if TrimSpace rem ≠ "" then [{ propertyReference := TrimSpace rem, url := url }] else [] := by
  obtain ⟨hp, ht⟩ := strip_label label rem h
  unfold prefixListings
  rw [if_pos hp, ht, TrimSpace_mk_trimRight]

theorem prefixListings_absent (label fullValue url : String)
    (h : ¬ label.data <+: fullValue.data) : prefixListings label fullValue url = [] := by
  unfold prefixListings
  rw [if_neg]
  rw [HasPrefix_iff]
  exact h

theorem TrimSpace_of_allSpace (ws : String) (h : AllSpace ws) : TrimSpace ws = "" := by
  unfold TrimSpace
  rw [trimChars_of_spaces _ h]

theorem tight_guenno : TightLabel Source.guenno.label.data :=
  ⟨'R', ['e', 'f', ' '], ':', by decide, by decide, by decide⟩

theorem tight_laMotte : TightLabel Source.laMotte.label.data :=
  ⟨'L', ['o'], 't', by decide, by decide, by decide⟩

theorem tight_kermarrec : TightLabel Source.kermarrec.label.data :=
  ⟨'(', ['r', 'e', 'f', ' '], ':', by decide, by decide, by decide⟩

theorem tight_nestenn : TightLabel Source.nestenn.label.data :=
  ⟨'R', ['é', 'f', ' '], ':', by decide, by decide, by decide⟩

theorem tight_foncia : TightLabel Source.foncia.label.data :=
  ⟨'R', ['é', 'f'], '.', by decide, by decide, by decide⟩

theorem tight_colombier : TightLabel Source.agenceDuColombier.label.data :=
  ⟨'R', ['E', 'F'], ':', by decide, by decide, by decide⟩

theorem HasSuffix_iff (s suf : String) : HasSuffix s suf = true ↔ suf.data <:+ s.data := by
  unfold HasSuffix
  exact List.isSuffixOf_iff_suffix

theorem SpaceLed_trimRight (rest : String) (h : SpaceLed rest) :
    SpaceLed ⟨trimRight rest.data⟩ := by
  intro c hc
  apply h
  obtain ⟨t, ht⟩ := List.rdropWhile_prefix isSpace rest.data
  change (trimRight rest.data).head? = some c at hc
  rw [← ht]
  cases hx : trimRight rest.data with
  | nil => rw [hx] at hc; cases hc
  | cons y ys =>
    rw [hx] at hc
    change (List.rdropWhile isSpace rest.data) = y :: ys at hx
    rw [hx]
    exact hc

/-- Trimming a text made of a label, blanks, a word and a rest only touches the
rest. -/
theorem TrimSpace_scan_text (label blanks word rest : String) (hl : TightLabel label.data)
    (hw : Word word) :
    TrimSpace (label ++ blanks ++ word ++ rest) =
      label ++ blanks ++ word ++ ⟨trimRight rest.data⟩ := by
  obtain ⟨c, mid, d, hld, hc, -⟩ := hl
  have hne := hw.1
  have hlast : isSpace (word.data.getLast hne) = false :=
    hw.2 _ (List.getLast_mem hne)
  have hsplit := List.dropLast_append_getLast hne
  apply String.ext_iff.2
  rw [TrimSpace_data]
  simp only [String.data_append]
  rw [hld, List.cons_append, List.cons_append, List.cons_append, trimChars_cons _ _ hc]
  have : c :: (mid ++ [d] ++ blanks.data ++ word.data ++ rest.data) =
      (c :: (mid ++ [d] ++ blanks.data ++ word.data.dropLast)) ++ [word.data.getLast hne]
        ++ rest.data := by
    conv_lhs => rw [← hsplit]
    simp
  rw [this, trimRight_append_concat _ _ _ hlast]
  conv_rhs => rw [← hsplit]
  simp

theorem scan_trimmed (w1 : List Char) (ws : List (List Char)) (h1 : LitWord w1)
    (hws : ∀ wd ∈ ws, LitWord wd) (format label : String)
    (hf : format.data = w1 ++ formatTail ws) (hl : label.data = w1 ++ spaced ws)
    (ht : TightLabel label.data)
    (blanks word rest url : String) (hb : Blanks blanks) (hw : Word word) (hr : SpaceLed rest) :
    scanListings format (TrimSpace (label ++ blanks ++ word ++ rest)) url =
      [{ propertyReference := word, url := url }] := by
  rw [TrimSpace_scan_text label blanks word rest ht hw]
  exact scanListings_word w1 ws h1 hws format label hf hl blanks word _ url hb hw
    (SpaceLed_trimRight rest hr)

theorem tight_ref : TightLabel ("Réf :" : String).data :=
  ⟨'R', ['é', 'f', ' '], ':', by decide, by decide, by decide⟩

theorem label_foncia : Source.foncia.label.data = ("Réf." : String).data ++ spaced [] := by
  decide

theorem label_colombier :
    Source.agenceDuColombier.label.data = ("REF:" : String).data ++ spaced [] := by decide

/-- The callbacks built on `Sscanf`: label, blanks, word, and nothing or a space
after it give the word as reference. -/
theorem scan_strategies_word (blanks word rest url : String) (hb : Blanks blanks)
    (hw : Word word) (hr : SpaceLed rest) :
    Source.afedim.listings (Source.afedim.label ++ blanks ++ word ++ rest) url =
        [{ propertyReference := word, url := url }]
    ∧ Source.giboire.listings (Source.giboire.label ++ blanks ++ word ++ rest) url =
        [{ propertyReference := word, url := url }]
    ∧ Source.foncia.listings (Source.foncia.label ++ blanks ++ word ++ rest) url =
        [{ propertyReference := word, url := url }]
    ∧ Source.agenceDuColombier.listings
        (Source.agenceDuColombier.label ++ blanks ++ word ++ rest) url =
        [{ propertyReference := word, url := url }]
    ∧ Source.laFrancaiseImmobiliere.listings
        (Source.laFrancaiseImmobiliere.label ++ blanks ++ word ++ rest) url =
        [{ propertyReference := word, url := url }] := by
  refine ⟨?_, ?_, ?_, ?_, ?_⟩
  · rw [afedim_listings]
    exact scanListings_word _ _ lit_afedim.1 lit_afedim.2 _ _ format_afedim label_afedim
      blanks word rest url hb hw hr
  · rw [giboire_listings]
    exact scanListings_word _ _ lit_ref.1 lit_ref.2 _ _ format_ref label_ref
      blanks word rest url hb hw hr
  · rw [foncia_listings]
    exact scan_trimmed _ _ lit_foncia (by simp) _ _ format_foncia label_foncia tight_foncia
      blanks word rest url hb hw hr
  · rw [agenceDuColombier_listings, if_pos]
    · exact scan_trimmed _ _ lit_colombier (by simp) _ _ format_colombier label_colombier
        tight_colombier blanks word rest url hb hw hr
    · rw [Contains_iff]
      unfold Occurs
      simp only [String.data_append, List.append_assoc]
      exact (List.prefix_append _ _).isInfix
  · rw [laFrancaiseImmobiliere_listings]
    exact scan_trimmed _ _ lit_ref.1 lit_ref.2 _ _ format_ref label_ref tight_ref
      blanks word rest url hb hw hr

theorem genSplit_none (sep s : List Char) (n : Nat) (h : indexChars sep s = none) :
    genSplit sep n s = [s] := by
  cases n with
  | zero => rfl
  | succ n => rw [genSplit, h]

/-- Splitting a text that begins with the separator and has no other
occurrence of it. -/
theorem Split_label (label rest : List Char) (hne : label ≠ [])
    (h : ¬ label <:+: rest) :
    Split ⟨label ++ rest⟩ ⟨label⟩ = ["", ⟨rest⟩] := by
  unfold Split
  have hlen : (label ++ rest).length = (label.length - 1 + rest.length) + 1 := by
    have : 0 < label.length := List.length_pos.2 hne
    rw [List.length_append]
    omega
  show List.map String.mk (genSplit label (label ++ rest).length (label ++ rest)) = _
  rw [hlen, genSplit, indexChars_prefix _ _ (List.prefix_append _ _)]
  simp only [List.take_zero, Nat.zero_add, List.drop_left,
    genSplit_none _ _ _ ((indexChars_eq_none _ _).2 h)]
  rfl

/-- Nestenn: the label followed by a rest without further label gives the
trimmed rest. -/
theorem nestenn_label (rem url : String) (h : ¬ Occurs Source.nestenn.label rem) :
    Source.nestenn.listings (Source.nestenn.label ++ rem) url =
      if TrimSpace rem ≠ "" then [{ propertyReference := TrimSpace rem, url := url }] else [] := by
  have hd : (TrimSpace (Source.nestenn.label ++ rem)).data =
      Source.nestenn.label.data ++ trimRight rem.data := by
    rw [TrimSpace_data, String.data_append, trimChars_label_append _ _ tight_nestenn]
  have hfv : TrimSpace (Source.nestenn.label ++ rem) =
      ⟨Source.nestenn.label.data ++ trimRight rem.data⟩ := String.ext_iff.2 hd
  have hno : ¬ Source.nestenn.label.data <:+: trimRight rem.data := fun hin =>
    h (hin.trans (List.rdropWhile_prefix isSpace rem.data).isInfix)
  have hsplit := Split_label Source.nestenn.label.data (trimRight rem.data) (by decide) hno
  rw [nestenn_listings, if_pos]
  · rw [hfv]
    change (match Split ⟨Source.nestenn.label.data ++ trimRight rem.data⟩
        ⟨Source.nestenn.label.data⟩ with
      | _ :: part1 :: _ =>
        if TrimSpace part1 ≠ "" then [Announcement.mk (TrimSpace part1) url]
        else []
      | _ => []) = _
    rw [hsplit]
    simp only [TrimSpace_mk_trimRight]
  · rw [Contains_iff]
    unfold Occurs
    rw [hd]
    exact (List.prefix_append _ _).isInfix

theorem no_label_in_word (t : List Char) (ht : ∀ c ∈ t, isSpace c = false) :
    ¬ ("Réf :" : String).data <:+: ' ' :: t := by
  intro h
  rcases List.infix_cons_iff.1 h with hp | hi
  · have : ("Réf :" : String).data = 'R' :: ("éf :" : String).data := by decide
    rw [this, List.cons_prefix_cons] at hp
    exact absurd hp.1 (by decide)
  · have hmem : ' ' ∈ ("Réf :" : String).data := by decide
    have := ht ' ' (hi.subset hmem)
    exact absurd this (by decide)

theorem trimChars_concat (Y : List Char) (d : Char) (hd : isSpace d = false) :
    ∃ D, trimChars (Y ++ [d]) = D ++ [d] := by
  unfold trimChars
  rw [List.dropWhile_append]
  by_cases he : (List.dropWhile isSpace Y).isEmpty = true
  · rw [if_pos he, List.dropWhile_cons]
    simp only [hd, Bool.false_eq_true, if_false]
    exact ⟨[], trimRight_concat [] d hd⟩
  · rw [if_neg he]
    exact ⟨_, trimRight_concat _ d hd⟩

/-- Kermarrec: between the label and a closing parenthesis at the end, the
trimmed text is the reference. -/
theorem kermarrec_paren (body url : String) :
    Source.kermarrec.listings (Source.kermarrec.label ++ body ++ ")") url =
      if TrimSpace body ≠ "" then [{ propertyReference := TrimSpace body, url := url }]
      else [] := by
  obtain ⟨hp, ht⟩ := strip_label Source.kermarrec.label (body ++ ")") tight_kermarrec
  rw [← String.append_assoc] at hp ht
  have hr : trimRight (body ++ ")").data = body.data ++ [')'] := by
    rw [String.data_append]
    exact trimRight_concat body.data ')' (by decide)
  rw [hr] at ht
  have hs : TrimSuffix ⟨body.data ++ [')']⟩ ")" = body := by
    unfold TrimSuffix
    rw [if_pos ((HasSuffix_iff _ _).2 (List.suffix_append _ _))]
    apply String.ext_iff.2
    show List.take ((body.data ++ [')']).length - [')'].length) (body.data ++ [')']) = body.data
    rw [List.length_append]
    simp
  rw [kermarrec_listings]
  change (if HasPrefix (TrimSpace (Source.kermarrec.label ++ body ++ ")")) Source.kermarrec.label
      = true then
      if TrimSpace (TrimSuffix (TrimPrefix (TrimSpace (Source.kermarrec.label ++ body ++ ")"))
          Source.kermarrec.label) ")") ≠ "" then
        [Announcement.mk (TrimSpace (TrimSuffix (TrimPrefix
          (TrimSpace (Source.kermarrec.label ++ body ++ ")")) Source.kermarrec.label) ")")) url]
      else []
    else []) = _
  rw [if_pos hp, ht, hs]

/-- Kermarrec: after the label, a text that does not end with a closing
parenthesis is the reference, once trimmed. -/
theorem kermarrec_plain (rem url : String) (h : HasSuffix (TrimSpace rem) ")" = false) :
    Source.kermarrec.listings (Source.kermarrec.label ++ rem) url =
      if TrimSpace rem ≠ "" then [{ propertyReference := TrimSpace rem, url := url }]
      else [] := by
  obtain ⟨hp, ht⟩ := strip_label Source.kermarrec.label rem tight_kermarrec
  have hno : HasSuffix ⟨trimRight rem.data⟩ ")" = false := by
    cases hx : HasSuffix ⟨trimRight rem.data⟩ ")" with
    | false => rfl
    | true =>
      obtain ⟨Y, hY⟩ := (HasSuffix_iff _ _).1 hx
      change Y ++ [')'] = trimRight rem.data at hY
      obtain ⟨D, hD⟩ := trimChars_concat Y ')' (by decide)
      have : HasSuffix (TrimSpace rem) ")" = true := by
        rw [HasSuffix_iff, TrimSpace_data, ← trimChars_trimRight, ← hY, hD]
        exact List.suffix_append _ _
      rw [h] at this
      cases this
  have hs : TrimSuffix ⟨trimRight rem.data⟩ ")" = ⟨trimRight rem.data⟩ := by
    unfold TrimSuffix
    rw [if_neg (by rw [hno]; simp)]
  rw [kermarrec_listings]
  change (if HasPrefix (TrimSpace (Source.kermarrec.label ++ rem)) Source.kermarrec.label
      = true then
      if TrimSpace (TrimSuffix (TrimPrefix (TrimSpace (Source.kermarrec.label ++ rem))
          Source.kermarrec.label) ")") ≠ "" then
        [Announcement.mk (TrimSpace (TrimSuffix (TrimPrefix
          (TrimSpace (Source.kermarrec.label ++ rem)) Source.kermarrec.label) ")")) url]
      else []
    else []) = _
  rw [if_pos hp, ht, hs, TrimSpace_mk_trimRight]

theorem guenno_label (rem url : String) :
    Source.guenno.listings (Source.guenno.label ++ rem) url =
      if TrimSpace rem ≠ "" then [{ propertyReference := TrimSpace rem, url := url }]
      else [] := by
  rw [guenno_listings]
  exact prefixListings_label Source.guenno.label rem url tight_guenno

theorem laMotte_label (rem url : String) :
    Source.laMotte.listings (Source.laMotte.label ++ rem) url =
      if TrimSpace rem ≠ "" then [{ propertyReference := TrimSpace rem, url := url }]
      else [] := by
  rw [laMotte_listings]
  exact prefixListings_label Source.laMotte.label rem url tight_laMotte

theorem TrimSpace_label_spaces (label ws : String) (h : TightLabel label.data)
    (hws : AllSpace ws) : (TrimSpace (label ++ ws)).data = label.data ++ [] := by
  rw [TrimSpace_data, String.data_append, trimChars_label_append _ _ h]
  obtain ⟨sp, hsp, hd⟩ := trimRight_decomp ws.data
  have : trimRight ws.data = [] := by
    have := trimRight_append_spaces [] ws.data hws
    rw [List.nil_append] at this
    rw [this]
    rfl
  rw [this]

theorem not_occurs_of_spaces (label ws : String) (h : TightLabel label.data)
    (hws : AllSpace ws) : ¬ Occurs label ws := by
  obtain ⟨c, mid, d, hl, hc, -⟩ := h
  intro ho
  have hmem : c ∈ label.data := by rw [hl]; exact List.mem_cons_self _ _
  have := hws c (ho.subset hmem)
  rw [hc] at this
  cases this

/-- The label followed by white space alone gives no listing, whatever the
strategy. -/
theorem listings_label_spaces (x : Source) (ws url : String) (hws : AllSpace ws) :
    x.listings (x.label ++ ws) url = [] := by
  have htrim := TrimSpace_of_allSpace ws hws
  cases x
  · rw [afedim_listings]
    exact scanListings_spaces _ _ lit_afedim.1 lit_afedim.2 _ _ format_afedim label_afedim
      ws.data _ url hws (String.data_append _ _)
  · rw [giboire_listings]
    exact scanListings_spaces _ _ lit_ref.1 lit_ref.2 _ _ format_ref label_ref
      ws.data _ url hws (String.data_append _ _)
  · rw [foncia_listings]
    exact scanListings_spaces _ _ lit_foncia (by simp) _ _ format_foncia label_foncia
      [] _ url (by simp) (TrimSpace_label_spaces _ ws tight_foncia hws)
  · rw [agenceDuColombier_listings]
    split
    · exact scanListings_spaces _ _ lit_colombier (by simp) _ _ format_colombier
        label_colombier [] _ url (by simp) (TrimSpace_label_spaces _ ws tight_colombier hws)
    · rfl
  · rw [laFrancaiseImmobiliere_listings]
    exact scanListings_spaces _ _ lit_ref.1 lit_ref.2 _ _ format_ref label_ref
      [] _ url (by simp) (TrimSpace_label_spaces _ ws tight_ref hws)
  · rw [guenno_label, htrim]
    rfl
  · rw [laMotte_label, htrim]
    rfl
  · rw [kermarrec_plain ws url (by rw [htrim]; decide), htrim]
    rfl
  · rw [nestenn_label ws url (not_occurs_of_spaces _ ws tight_nestenn hws), htrim]
    rfl

/-- The strategies that look for their label rune for rune give no listing for
a text in which the label does not occur. -/
theorem listings_label_absent (x : Source)
    (hx : x ∈ [Source.foncia, Source.agenceDuColombier, Source.guenno, Source.laMotte,
      Source.kermarrec, Source.nestenn])
    (text url : String) (h : ¬ Occurs x.label text) : x.listings text url = [] := by
  have hpre : ∀ label : String, label.data <+: (TrimSpace text).data → Occurs label text :=
    fun label hp => hp.isInfix.trans (trimChars_part text.data)
  simp only [List.mem_cons, List.mem_singleton, List.not_mem_nil, or_false] at hx
  rcases hx with rfl | rfl | rfl | rfl | rfl | rfl
  · rw [foncia_listings]
    by_contra hne
    exact h (hpre _ (scanListings_literal "Réf. %s" Source.foncia.label lit_foncia
      format_foncia _ url hne))
  · rw [agenceDuColombier_listings, if_neg]
    rw [Contains_iff]
    exact h
  · rw [guenno_listings]
    exact prefixListings_absent _ _ _ (fun hp => h (hpre _ hp))
  · rw [laMotte_listings]
    exact prefixListings_absent _ _ _ (fun hp => h (hpre _ hp))
  · rw [kermarrec_listings, if_neg]
    rw [HasPrefix_iff]
    exact fun hp => h (hpre _ hp)
  · rw [nestenn_listings, if_neg]
    rw [Contains_iff]
    exact fun ho => h (ho.trans (trimChars_part text.data))

/-- The strategies whose scan format holds spaces give no listing for a text in
which the label does not occur even with every run of blanks read as one
space. -/
theorem listings_label_absent_loosely (x : Source)
    (hx : x ∈ [Source.afedim, Source.giboire, Source.laFrancaiseImmobiliere])
    (text url : String) (h : ¬ OccursLoosely x.label text) : x.listings text url = [] := by
  simp only [List.mem_cons, List.mem_singleton, List.not_mem_nil, or_false] at hx
  rcases hx with rfl | rfl | rfl
  · rw [afedim_listings]
    by_contra hne
    exact h (scanListings_loose _ _ lit_afedim.1 lit_afedim.2 _ _ format_afedim label_afedim
      text url hne).isInfix
  · rw [giboire_listings]
    by_contra hne
    exact h (scanListings_loose _ _ lit_ref.1 lit_ref.2 _ _ format_ref label_ref
      text url hne).isInfix
  · rw [laFrancaiseImmobiliere_listings]
    by_contra hne
    exact h ((scanListings_loose _ _ lit_ref.1 lit_ref.2 _ _ format_ref label_ref
      (TrimSpace text) url hne).isInfix.trans (squeeze_trimChars_part text.data))

theorem Sscanf_reference_ne (str format : String) (h : (Sscanf str format).err = none) :
    (Sscanf str format).reference ≠ "" := by
  unfold Sscanf at h ⊢
  cases hd : doScanf format.data str.data with
  | ok w =>
    exact mk_ne_empty w (doScanf_ne_nil _ _ w hd)
  | error e =>
    rw [hd] at h
    cases h

/-- Apart from Afedim, and from the paragraphs of Agence du Colombier without
"REF:", a callback that produces no listing logs a line. -/
theorem diagnostics_of_no_listing (x : Source) (text url : String) (hx : x ≠ Source.afedim)
    (hcol : x = Source.agenceDuColombier → Occurs "REF:" text)
    (hl : x.listings text url = []) : x.diagnostics text url ≠ [] := by
  have hg := Sscanf_reference_ne text "Réf : %s"
  have hc := Sscanf_reference_ne (TrimSpace text) "REF: %s"
  cases x
  · exact absurd rfl hx
  all_goals
    revert hl
    simp only [Source.listings, Source.diagnostics, Source.processDetailPages,
      processDetailPagesGiboire, processDetailPagesFoncia,
      forEachParagraphAgenceDuColombier, processDetailPagesLaFrancaiseImmobiliere,
      processDetailPagesGuenno, processDetailPagesLaMotte, processDetailPagesKermarrec,
      processDetailPagesNestenn]
    (repeat' split) <;>
      simp_all [Extraction.append, Extraction.printf, Extraction.empty, Contains_iff]

theorem TrimSpace_surround (ws1 t ws2 : String) (h1 : AllSpace ws1) (h2 : AllSpace ws2) :
    TrimSpace (ws1 ++ t ++ ws2) = TrimSpace t := by
  apply String.ext_iff.2
  rw [TrimSpace_data, TrimSpace_data, String.data_append, String.data_append]
  exact trimChars_surround _ _ _ h1 h2

theorem infix_spaces_append (sep sp s : List Char) (hsep : ∀ c ∈ sep, isSpace c = false)
    (hne : sep ≠ []) (hsp : ∀ c ∈ sp, isSpace c = true) :
    sep <:+: sp ++ s ↔ sep <:+: s := by
  induction sp with
  | nil => rfl
  | cons c sp ih =>
    have ih := ih (fun x hx => hsp x (List.mem_cons_of_mem _ hx))
    rw [List.cons_append, List.infix_cons_iff, ih]
    constructor
    · rintro (hp | hi)
      · obtain ⟨c', sep', rfl⟩ := List.exists_cons_of_ne_nil hne
        rw [List.cons_prefix_cons] at hp
        have h1 := hsep c' (List.mem_cons_self _ _)
        rw [hp.1, hsp c (List.mem_cons_self _ _)] at h1
        cases h1
      · exact hi
    · exact Or.inr

theorem infix_append_spaces (sep s sp : List Char) (hsep : ∀ c ∈ sep, isSpace c = false)
    (hne : sep ≠ []) (hsp : ∀ c ∈ sp, isSpace c = true) :
    sep <:+: s ++ sp ↔ sep <:+: s := by
  rw [← List.reverse_infix, List.reverse_append,
    infix_spaces_append sep.reverse sp.reverse s.reverse
      (fun c hc => hsep c (List.mem_reverse.1 hc)) (by simpa using hne)
      (fun c hc => hsp c (List.mem_reverse.1 hc)),
    List.reverse_infix]

theorem Contains_surround (ws1 t ws2 : String) (h1 : AllSpace ws1) (h2 : AllSpace ws2) :
    Contains (ws1 ++ t ++ ws2) "REF:" = Contains t "REF:" := by
  have hsep : ∀ c ∈ ("REF:" : String).data, isSpace c = false := by decide
  have hne : ("REF:" : String).data ≠ [] := by decide
  have : Occurs "REF:" (ws1 ++ t ++ ws2) ↔ Occurs "REF:" t := by
    unfold Occurs
    rw [String.data_append, String.data_append, infix_append_spaces _ _ _ hsep hne h2,
      infix_spaces_append _ _ _ hsep hne h1]
  cases hc : Contains t "REF:" with
  | true => exact (Contains_iff _ _).2 (this.2 ((Contains_iff _ _).1 hc))
  | false =>
    cases hc' : Contains (ws1 ++ t ++ ws2) "REF:" with
    | false => rfl
    | true =>
      rw [(Contains_iff _ _).2 (this.1 ((Contains_iff _ _).1 hc'))] at hc
      cases hc

/-- The seven callbacks that trim the node text do the same with white space
added on both sides of it. -/
theorem processDetailPages_surround (x : Source)
    (hx : x ∈ [Source.foncia, Source.agenceDuColombier, Source.laFrancaiseImmobiliere,
      Source.guenno, Source.laMotte, Source.kermarrec, Source.nestenn])
    (ws1 t ws2 url : String) (st : Extraction) (h1 : AllSpace ws1) (h2 : AllSpace ws2) :
    x.processDetailPages (ws1 ++ t ++ ws2) url st = x.processDetailPages t url st := by
  have ht := TrimSpace_surround ws1 t ws2 h1 h2
  have hc := Contains_surround ws1 t ws2 h1 h2
  simp only [List.mem_cons, List.mem_singleton, List.not_mem_nil, or_false] at hx
  rcases hx with rfl | rfl | rfl | rfl | rfl | rfl | rfl
  · show processDetailPagesFoncia _ url st = processDetailPagesFoncia t url st
    unfold processDetailPagesFoncia
    rw [ht]
  · show forEachParagraphAgenceDuColombier _ url st = forEachParagraphAgenceDuColombier t url st
    unfold forEachParagraphAgenceDuColombier
    rw [ht, hc]
  · show processDetailPagesLaFrancaiseImmobiliere _ url st =
      processDetailPagesLaFrancaiseImmobiliere t url st
    unfold processDetailPagesLaFrancaiseImmobiliere
    rw [ht]
  · show processDetailPagesGuenno _ url st = processDetailPagesGuenno t url st
    unfold processDetailPagesGuenno
    rw [ht]
  · show processDetailPagesLaMotte _ url st = processDetailPagesLaMotte t url st
    unfold processDetailPagesLaMotte
    rw [ht]
  · show processDetailPagesKermarrec _ url st = processDetailPagesKermarrec t url st
    unfold processDetailPagesKermarrec
    rw [ht]
  · show processDetailPagesNestenn _ url st = processDetailPagesNestenn t url st
    unfold processDetailPagesNestenn
    rw [ht]

/-- The further words of the label given as they are: the scanned word is read
in what follows them. -/
theorem Loose_spaced (ws : List (List Char)) (hws : ∀ wd ∈ ws, LitWord wd) (tail w : List Char)
    (h : Loose ws (spaced ws ++ tail) w) : TailWord tail w := by
  induction ws with
  | nil => exact h
  | cons wd ws ih =>
    have ih := ih (fun x hx => hws x (List.mem_cons_of_mem _ hx))
    obtain ⟨hne, hlit⟩ := hws wd (List.mem_cons_self _ _)
    obtain ⟨c, wd', rfl⟩ := List.exists_cons_of_ne_nil hne
    obtain ⟨b, r, i2, h, -, hsk, hl⟩ := h
    simp only [spaced, List.cons_append, List.cons.injEq] at h
    rw [← h.2, skipBlanks_cons_of_not _ _
      (isBlank_of_not_space (hlit c (List.mem_cons_self _ _)).1)] at hsk
    simp only [List.cons_append, List.append_assoc, List.cons.injEq, true_and] at hsk
    have := List.append_cancel_left hsk
    rw [← this] at hl
    exact ih hl

/-- A scanned word stands after a run of blanks and before nothing or a
space. -/
theorem TailWord_decomp (i w : List Char) (h : TailWord i w) :
    ∃ bl rest, i = bl ++ w ++ rest ∧ bl ≠ [] ∧ (∀ c ∈ bl, isBlank c = true) ∧ w ≠ [] ∧
      (∀ c ∈ w, isSpace c = false) ∧ (∀ c, rest.head? = some c → isSpace c = true) := by
  have hne := TailWord_ne_nil i w h
  obtain ⟨b, r, c, r3, rfl, hb, hsk, hc, hw⟩ := h
  refine ⟨b :: r.takeWhile isBlank, (c :: r3).dropWhile (fun x => !isSpace x), ?_, by simp, ?_,
    hne, ?_, ?_⟩
  · rw [hw, List.append_assoc, List.takeWhile_append_dropWhile, ← hsk]
    unfold skipBlanks
    rw [List.cons_append, List.takeWhile_append_dropWhile]
  · intro x hx
    rcases List.mem_cons.1 hx with rfl | hx
    · exact hb
    · exact List.mem_takeWhile_imp hx
  · intro x hx
    rw [hw] at hx
    simpa using List.mem_takeWhile_imp hx
  · intro x hx
    cases hd : List.dropWhile (fun x => !isSpace x) (c :: r3) with
    | nil => rw [hd] at hx; cases hx
    | cons y ys =>
      rw [hd] at hx
      have hy := List.head_dropWhile_not (fun x => !isSpace x) (c :: r3) (by rw [hd]; simp)
      simp only [hd, List.head_cons] at hy
      cases hx
      simpa using hy

/-- The label followed by a text in which no word can be scanned: no listing. -/
theorem scanListings_label_nil (w1 : List Char) (ws : List (List Char)) (h1 : LitWord w1)
    (hws : ∀ wd ∈ ws, LitWord wd) (format label : String)
    (hf : format.data = w1 ++ formatTail ws) (hl : label.data = w1 ++ spaced ws)
    (tail : List Char) (fullValue url : String)
    (hv : fullValue.data = label.data ++ tail) (h : ∀ w, ¬ TailWord tail w) :
    scanListings format fullValue url = [] := by
  apply scanListings_eq_nil
  intro w hok
  rw [hf] at hok
  obtain ⟨i1, hi, hl'⟩ := (doScanf_words w1 ws h1 hws _ w).1 hok
  rw [hv, hl, List.append_assoc] at hi
  rw [← List.append_cancel_left hi] at hl'
  exact h w (Loose_spaced ws hws tail w hl')

theorem not_TailWord_of (rem : String)
    (H : ∀ blanks word rest : String, Blanks blanks → Word word → SpaceLed rest →
      rem ≠ blanks ++ word ++ rest) (w : List Char) : ¬ TailWord rem.data w := by
  intro h
  obtain ⟨bl, rest, hi, hbl, hbl2, hw, hw2, hr⟩ := TailWord_decomp _ _ h
  refine H ⟨bl⟩ ⟨w⟩ ⟨rest⟩ ⟨hbl, hbl2⟩ ⟨hw, hw2⟩ hr (String.ext_iff.2 ?_)
  rw [hi]
  simp [String.data_append]

theorem not_TailWord_trimRight (rem : String)
    (H : ∀ blanks word rest : String, Blanks blanks → Word word → SpaceLed rest →
      rem ≠ blanks ++ word ++ rest) (w : List Char) : ¬ TailWord (trimRight rem.data) w := by
  intro h
  obtain ⟨bl, rest, hi, hbl, hbl2, hw, hw2, hr⟩ := TailWord_decomp _ _ h
  obtain ⟨sp, hsp, hd⟩ := trimRight_decomp rem.data
  refine H ⟨bl⟩ ⟨w⟩ ⟨rest ++ sp⟩ ⟨hbl, hbl2⟩ ⟨hw, hw2⟩ ?_ (String.ext_iff.2 ?_)
  · intro c hc
    change (rest ++ sp).head? = some c at hc
    cases rest with
    | nil =>
      rw [List.nil_append] at hc
      exact hsp c (List.mem_of_mem_head? hc)
    | cons y ys => exact hr c hc
  · rw [hd, hi]
    simp [String.data_append]

/-- The callbacks built on `Sscanf`: when what follows the label is not a run
of blanks, a word, and nothing or a space, there is no listing. -/
theorem scan_strategies_nil (rem url : String)
    (H : ∀ blanks word rest : String, Blanks blanks → Word word → SpaceLed rest →
      rem ≠ blanks ++ word ++ rest) :
    ∀ x ∈ [Source.afedim, Source.giboire, Source.foncia, Source.agenceDuColombier,
        Source.laFrancaiseImmobiliere], x.listings (x.label ++ rem) url = [] := by
  intro x hx
  simp only [List.mem_cons, List.mem_singleton, List.not_mem_nil, or_false] at hx
  rcases hx with rfl | rfl | rfl | rfl | rfl
  · rw [afedim_listings]
    exact scanListings_label_nil _ _ lit_afedim.1 lit_afedim.2 _ _ format_afedim label_afedim
      rem.data _ url (String.data_append _ _) (not_TailWord_of rem H)
  · rw [giboire_listings]
    exact scanListings_label_nil _ _ lit_ref.1 lit_ref.2 _ _ format_ref label_ref
      rem.data _ url (String.data_append _ _) (not_TailWord_of rem H)
  · rw [foncia_listings]
    exact scanListings_label_nil _ _ lit_foncia (by simp) _ _ format_foncia label_foncia
      (trimRight rem.data) _ url
      (by rw [TrimSpace_data, String.data_append, trimChars_label_append _ _ tight_foncia])
      (not_TailWord_trimRight rem H)
  · rw [agenceDuColombier_listings]
    split
    · exact scanListings_label_nil _ _ lit_colombier (by simp) _ _ format_colombier
        label_colombier (trimRight rem.data) _ url
        (by rw [TrimSpace_data, String.data_append, trimChars_label_append _ _ tight_colombier])
        (not_TailWord_trimRight rem H)
    · rfl
  · rw [laFrancaiseImmobiliere_listings]
    exact scanListings_label_nil _ _ lit_ref.1 lit_ref.2 _ _ format_ref label_ref
      (trimRight rem.data) _ url
      (by rw [TrimSpace_data, String.data_append]; exact trimChars_label_append _ _ tight_ref)
      (not_TailWord_trimRight rem H)

/-- A text that does not begin with a blank is not a run of blanks, a word and a
rest. -/
theorem no_reading_of_no_blank (rem : String)
    (h : ∀ c, rem.data.head? = some c → isBlank c = false) :
    ∀ blanks word rest : String, Blanks blanks → Word word → SpaceLed rest →
      rem ≠ blanks ++ word ++ rest := by
  intro blanks word rest hb _ _ heq
  obtain ⟨b, bs, hbd⟩ := List.exists_cons_of_ne_nil hb.1
  have hb1 : isBlank b = true := hb.2 b (by rw [hbd]; exact List.mem_cons_self _ _)
  have hd : rem.data = b :: (bs ++ word.data ++ rest.data) := by
    rw [heq]
    simp [String.data_append, hbd]
  have := h b (by rw [hd]; rfl)
  rw [hb1] at this
  cases this

/-- Blanks followed by nothing or by a newline are not a run of blanks, a word
and a rest. -/
theorem no_reading_of_newline (blanks0 rest0 : String) (hb0 : Blanks blanks0)
    (h : ∀ c, rest0.data.head? = some c → c = '\n') :
    ∀ blanks word rest : String, Blanks blanks → Word word → SpaceLed rest →
      blanks0 ++ rest0 ≠ blanks ++ word ++ rest := by
  intro blanks word rest hb hw _ heq
  obtain ⟨c, w, hwd⟩ := List.exists_cons_of_ne_nil hw.1
  have hc : isSpace c = false := hw.2 c (by rw [hwd]; exact List.mem_cons_self _ _)
  have hd : blanks0.data ++ rest0.data = blanks.data ++ (c :: (w ++ rest.data)) := by
    have := congrArg String.data heq
    simpa [String.data_append, hwd] using this
  have hs := congrArg skipBlanks hd
  unfold skipBlanks at hs
  rw [List.dropWhile_append_of_pos hb0.2, List.dropWhile_append_of_pos hb.2,
    List.dropWhile_cons] at hs
  simp only [isBlank_of_not_space hc, Bool.false_eq_true, if_false] at hs
  cases hr : rest0.data with
  | nil =>
    rw [hr] at hs
    cases hs
  | cons y ys =>
    have hy : y = '\n' := h y (by rw [hr]; rfl)
    rw [hr, hy, List.dropWhile_cons] at hs
    have hnl : isBlank '\n' = false := by decide
    simp only [hnl, Bool.false_eq_true, if_false, List.cons.injEq] at hs
    rw [← hs.1] at hc
    exact absurd hc (by decide)

theorem trimChars_idem (s : List Char) : trimChars (trimChars s) = trimChars s := by
  have h1 : trimChars (s.dropWhile isSpace) = trimChars s := by
    conv_rhs => rw [← List.takeWhile_append_dropWhile isSpace s]
    rw [trimChars_spaces_append _ _ (fun c hc => List.mem_takeWhile_imp hc)]
  show trimChars (trimRight (s.dropWhile isSpace)) = trimChars s
  rw [trimChars_trimRight, h1]

/-- Trimming on the right leaves the white space at the head and the trimmed
text, when there is any. -/
theorem trimRight_eq_spaces_trimChars (s : List Char) (h : trimChars s ≠ []) :
    trimRight s = s.takeWhile isSpace ++ trimChars s := by
  conv_lhs => rw [← List.takeWhile_append_dropWhile isSpace s]
  exact trimRight_append_of_ne_nil _ _ h

theorem TrimSuffix_paren (Y : List Char) : TrimSuffix ⟨Y ++ [')']⟩ ")" = ⟨Y⟩ := by
  unfold TrimSuffix
  rw [if_pos ((HasSuffix_iff _ _).2 (List.suffix_append _ _))]
  apply String.ext_iff.2
  show List.take ((Y ++ [')']).length - [')'].length) (Y ++ [')']) = Y
  rw [List.length_append]
  simp

/-- Kermarrec: after the label, the reference is the remaining text, trimmed,
without one closing parenthesis at its end, and trimmed again. -/
theorem kermarrec_label (rem url : String) :
    Source.kermarrec.listings (Source.kermarrec.label ++ rem) url =
      if TrimSpace (TrimSuffix (TrimSpace rem) ")") ≠ "" then
        [{ propertyReference := TrimSpace (TrimSuffix (TrimSpace rem) ")"), url := url }]
      else [] := by
  obtain ⟨hp, ht⟩ := strip_label Source.kermarrec.label rem tight_kermarrec
  have key : TrimSpace (TrimSuffix ⟨trimRight rem.data⟩ ")") =
      TrimSpace (TrimSuffix (TrimSpace rem) ")") := by
    cases hx : HasSuffix (TrimSpace rem) ")" with
    | true =>
      obtain ⟨Y, hY⟩ := (HasSuffix_iff _ _).1 hx
      change Y ++ [')'] = trimChars rem.data at hY
      have hne : trimChars rem.data ≠ [] := by rw [← hY]; simp
      have h1 : (⟨trimRight rem.data⟩ : String) =
          ⟨(rem.data.takeWhile isSpace ++ Y) ++ [')']⟩ := by
        rw [trimRight_eq_spaces_trimChars _ hne, ← hY, List.append_assoc]
      have h2 : TrimSpace rem = ⟨Y ++ [')']⟩ := String.ext_iff.2 hY.symm
      rw [h1, h2, TrimSuffix_paren, TrimSuffix_paren]
      apply String.ext_iff.2
      rw [TrimSpace_data, TrimSpace_data]
      exact trimChars_spaces_append _ _ (fun c hc => List.mem_takeWhile_imp hc)
    | false =>
      have hno : HasSuffix ⟨trimRight rem.data⟩ ")" = false := by
        cases hx2 : HasSuffix ⟨trimRight rem.data⟩ ")" with
        | false => rfl
        | true =>
          obtain ⟨Y, hY⟩ := (HasSuffix_iff _ _).1 hx2
          change Y ++ [')'] = trimRight rem.data at hY
          obtain ⟨D, hD⟩ := trimChars_concat Y ')' (by decide)
          have : HasSuffix (TrimSpace rem) ")" = true := by
            rw [HasSuffix_iff, TrimSpace_data, ← trimChars_trimRight, ← hY, hD]
            exact List.suffix_append _ _
          rw [hx] at this
          cases this
      have hs1 : TrimSuffix ⟨trimRight rem.data⟩ ")" = ⟨trimRight rem.data⟩ := by
        unfold TrimSuffix
        rw [if_neg (by rw [hno]; simp)]
      have hs2 : TrimSuffix (TrimSpace rem) ")" = TrimSpace rem := by
        unfold TrimSuffix
        rw [if_neg (by rw [hx]; simp)]
      rw [hs1, hs2, TrimSpace_mk_trimRight]
      apply String.ext_iff.2
      rw [TrimSpace_data, TrimSpace_data]
      exact (trimChars_idem _).symm
  rw [kermarrec_listings]
  change (if HasPrefix (TrimSpace (Source.kermarrec.label ++ rem)) Source.kermarrec.label
      = true then
      if TrimSpace (TrimSuffix (TrimPrefix (TrimSpace (Source.kermarrec.label ++ rem))
          Source.kermarrec.label) ")") ≠ "" then
        [Announcement.mk (TrimSpace (TrimSuffix (TrimPrefix
          (TrimSpace (Source.kermarrec.label ++ rem)) Source.kermarrec.label) ")")) url]
      else []
    else []) = _
  rw [if_pos hp, ht, key]

/-- Kermarrec: white space after the closing parenthesis changes nothing. -/
theorem kermarrec_paren_spaces (body ws url : String) (hws : AllSpace ws) :
    Source.kermarrec.listings (Source.kermarrec.label ++ body ++ ")" ++ ws) url =
      if TrimSpace body ≠ "" then [{ propertyReference := TrimSpace body, url := url }]
      else [] := by
  have h := processDetailPages_surround Source.kermarrec (by decide) ""
    (Source.kermarrec.label ++ body ++ ")") ws url Extraction.empty
    (by intro c hc; cases hc) hws
  have he : ("" : String) ++ (Source.kermarrec.label ++ body ++ ")") =
      Source.kermarrec.label ++ body ++ ")" := String.ext_iff.2 (by simp [String.data_append])
  rw [he] at h
  unfold Source.listings
  rw [h]
  exact kermarrec_paren body url

end Callbacks

/-! ## Claims on the extraction -/

section ExtractionClaims

/-- C6, as amended: after the label, the strategies that cut it with the
`strings` functions take the whole remaining text, trimmed, inner spaces
included, and give no listing when it is empty: Guenno and La Motte always,
Kermarrec once one closing parenthesis at the end of the trimmed remaining text
is removed (white space after the parenthesis does not matter), Nestenn when
the label does not occur again.  The five strategies that scan with `Sscanf`
(Afedim, Giboire, Foncia, Agence du Colombier, La Française Immobilière) give a
listing exactly when the label is followed by a run of at least one blank
(white space other than newline) and then directly by a word, which stops at
the next white space or at the end: the reference is that word, not the whole
remaining text.  In every other case they give no listing: in particular when
the label is followed by no blank (a rune that is no space, a newline, or
nothing), and when the blanks are followed by a newline or by nothing. -/
theorem extraction_reference_after_label :
    (∀ (rem url : String),
        Source.guenno.listings (Source.guenno.label ++ rem) url =
          (if TrimSpace rem ≠ "" then [{ propertyReference := TrimSpace rem, url := url }]
            else [])
        ∧ Source.laMotte.listings (Source.laMotte.label ++ rem) url =
          (if TrimSpace rem ≠ "" then [{ propertyReference := TrimSpace rem, url := url }]
            else []))
    ∧ (∀ (rem url : String),
        Source.kermarrec.listings (Source.kermarrec.label ++ rem) url =
          if TrimSpace (TrimSuffix (TrimSpace rem) ")") ≠ "" then
            [{ propertyReference := TrimSpace (TrimSuffix (TrimSpace rem) ")"), url := url }]
          else [])
    ∧ (∀ (body ws url : String), AllSpace ws →
        Source.kermarrec.listings (Source.kermarrec.label ++ body ++ ")" ++ ws) url =
          if TrimSpace body ≠ "" then [{ propertyReference := TrimSpace body, url := url }]
          else [])
    ∧ (∀ (rem url : String), HasSuffix (TrimSpace rem) ")" = false →
        Source.kermarrec.listings (Source.kermarrec.label ++ rem) url =
          if TrimSpace rem ≠ "" then [{ propertyReference := TrimSpace rem, url := url }]
          else [])
    ∧ (∀ (rem url : String), ¬ Occurs Source.nestenn.label rem →
        Source.nestenn.listings (Source.nestenn.label ++ rem) url =
          if TrimSpace rem ≠ "" then [{ propertyReference := TrimSpace rem, url := url }]
          else [])
    ∧ (∀ (blanks word rest url : String), Blanks blanks → Word word → SpaceLed rest →
        ∀ x ∈ [Source.afedim, Source.giboire, Source.foncia, Source.agenceDuColombier,
            Source.laFrancaiseImmobiliere],
          x.listings (x.label ++ blanks ++ word ++ rest) url =
            [{ propertyReference := word, url := url }])
    ∧ (∀ (rem url : String),
        (∀ blanks word rest : String, Blanks blanks → Word word → SpaceLed rest →
          rem ≠ blanks ++ word ++ rest) →
        ∀ x ∈ [Source.afedim, Source.giboire, Source.foncia, Source.agenceDuColombier,
            Source.laFrancaiseImmobiliere],
          x.listings (x.label ++ rem) url = [])
    ∧ (∀ (rem url : String), (∀ c, rem.data.head? = some c → isBlank c = false) →
        ∀ x ∈ [Source.afedim, Source.giboire, Source.foncia, Source.agenceDuColombier,
            Source.laFrancaiseImmobiliere],
          x.listings (x.label ++ rem) url = [])
    ∧ (∀ (blanks rest url : String), Blanks blanks →
        (∀ c, rest.data.head? = some c → c = '\n') →
        ∀ x ∈ [Source.afedim, Source.giboire, Source.foncia, Source.agenceDuColombier,
            Source.laFrancaiseImmobiliere],
          x.listings (x.label ++ (blanks ++ rest)) url = []) := by
  refine ⟨?_, kermarrec_label, kermarrec_paren_spaces, kermarrec_plain, nestenn_label,
    ?_, scan_strategies_nil, ?_, ?_⟩
  · intro rem url
    exact ⟨guenno_label rem url, laMotte_label rem url⟩
  · intro blanks word rest url hb hw hr x hx
    obtain ⟨h1, h2, h3, h4, h5⟩ := scan_strategies_word blanks word rest url hb hw hr
    simp only [List.mem_cons, List.mem_singleton, List.not_mem_nil, or_false] at hx
    rcases hx with rfl | rfl | rfl | rfl | rfl
    · exact h1
    · exact h2
    · exact h3
    · exact h4
    · exact h5
  · intro rem url h
    exact scan_strategies_nil rem url (no_reading_of_no_blank rem h)
  · intro blanks rest url hb h
    exact scan_strategies_nil (blanks ++ rest) url (no_reading_of_newline blanks rest hb h)

/-- Witness for C6: La Motte keeps the whole "12 bis" after its label,
Kermarrec the text up to its closing parenthesis, also with white space after
it (and the whole text when there is none), Nestenn the whole "Lot 12"; Giboire
takes the first word of " Lot 12", and gives nothing for "AB1" right after the
label and for a newline after the blank. -/
theorem extraction_reference_after_label_witness :
    Source.laMotte.listings (Source.laMotte.label ++ " 12 bis") "u" =
        [{ propertyReference := "12 bis", url := "u" }]
      ∧ Source.kermarrec.listings (Source.kermarrec.label ++ " AB 12 " ++ ")" ++ " ") "u" =
        [{ propertyReference := "AB 12", url := "u" }]
      ∧ Source.kermarrec.listings (Source.kermarrec.label ++ " AB 12") "u" =
        [{ propertyReference := "AB 12", url := "u" }]
      ∧ Source.nestenn.listings (Source.nestenn.label ++ " Lot 12") "u" =
        [{ propertyReference := "Lot 12", url := "u" }]
      ∧ Source.giboire.listings (Source.giboire.label ++ " " ++ "Lot" ++ " 12") "u" =
        [{ propertyReference := "Lot", url := "u" }]
      ∧ Source.giboire.listings (Source.giboire.label ++ "AB1") "u" = []
      ∧ Source.giboire.listings (Source.giboire.label ++ (" " ++ "\nAB1")) "u" = [] :=
  ⟨(extraction_reference_after_label.1 " 12 bis" "u").2.trans (by decide),
   (extraction_reference_after_label.2.2.1 " AB 12 " " " "u"
     (by unfold AllSpace; decide)).trans (by decide),
   (extraction_reference_after_label.2.2.2.1 " AB 12" "u" (by decide)).trans (by decide),
   (extraction_reference_after_label.2.2.2.2.1 " Lot 12" "u"
     (by unfold Occurs; decide)).trans (by decide),
   extraction_reference_after_label.2.2.2.2.2.1 " " "Lot" " 12" "u"
     ⟨by decide, by decide⟩ ⟨by decide, by decide⟩ (by intro c hc; cases hc; decide)
     Source.giboire (by decide),
   extraction_reference_after_label.2.2.2.2.2.2.2.1 "AB1" "u"
     (by intro c hc; cases hc; decide) Source.giboire (by decide),
   extraction_reference_after_label.2.2.2.2.2.2.2.2 " " "\nAB1" "u"
     ⟨by decide, by decide⟩ (by intro c hc; cases hc; rfl) Source.giboire (by decide)⟩

/-- Counterexample to C6 as stated: on "Réf : Lot 12" Giboire returns the
reference "Lot", not the whole remaining text "Lot 12". -/
theorem extraction_reference_not_whole_remainder :
    Source.giboire.listings (Source.giboire.label ++ " Lot 12") "u" =
        [{ propertyReference := "Lot", url := "u" }]
      ∧ Source.giboire.listings (Source.giboire.label ++ " Lot 12") "u" ≠
        [{ propertyReference := TrimSpace " Lot 12", url := "u" }] := by
  decide

/-- C7: on the node text "Réf : " followed by a token `t` (not empty, no white
space), Giboire, La Française Immobilière and Nestenn each return exactly one
listing, with reference `t` and the page URL. -/
theorem ref_label_token_extracted (t u : String) (ht : Word t) :
    Source.giboire.listings ("Réf : " ++ t) u = [{ propertyReference := t, url := u }]
    ∧ Source.laFrancaiseImmobiliere.listings ("Réf : " ++ t) u =
        [{ propertyReference := t, url := u }]
    ∧ Source.nestenn.listings ("Réf : " ++ t) u = [{ propertyReference := t, url := u }] := by
  have htext : ("Réf : " ++ t : String) = "Réf :" ++ " " ++ t ++ "" := by
    apply String.ext_iff.2
    simp only [String.data_append]
    simp
  have hb : Blanks " " := ⟨by decide, by decide⟩
  have hr : SpaceLed "" := by intro c hc; cases hc
  obtain ⟨-, h2, -, -, h5⟩ := scan_strategies_word " " t "" u hb ht hr
  refine ⟨?_, ?_, ?_⟩
  · rw [htext]; exact h2
  · rw [htext]; exact h5
  · have htext2 : ("Réf : " ++ t : String) = Source.nestenn.label ++ (" " ++ t) := by
      apply String.ext_iff.2
      simp only [String.data_append]
      simp [Source.label]
    have hno : ¬ Occurs Source.nestenn.label (" " ++ t) := by
      unfold Occurs
      rw [String.data_append]
      exact no_label_in_word t.data ht.2
    have htrim : TrimSpace (" " ++ t) = t := by
      apply String.ext_iff.2
      rw [TrimSpace_data, String.data_append]
      have : (" " : String).data = [' '] := rfl
      rw [this, trimChars_spaces_append [' '] t.data (by decide),
        trimChars_of_no_space t.data ht.2]
    rw [htext2, nestenn_label _ u hno, htrim, if_pos]
    intro h
    exact ht.1 (congrArg String.data h)

/-- Witness for C7: the token "AB1234". -/
theorem ref_label_token_extracted_witness :
    Source.giboire.listings ("Réf : " ++ "AB1234") "https://www.giboire.com/p/1" =
        [{ propertyReference := "AB1234", url := "https://www.giboire.com/p/1" }]
    ∧ Source.laFrancaiseImmobiliere.listings ("Réf : " ++ "AB1234")
        "https://www.giboire.com/p/1" =
        [{ propertyReference := "AB1234", url := "https://www.giboire.com/p/1" }]
    ∧ Source.nestenn.listings ("Réf : " ++ "AB1234") "https://www.giboire.com/p/1" =
        [{ propertyReference := "AB1234", url := "https://www.giboire.com/p/1" }] :=
  ref_label_token_extracted "AB1234" "https://www.giboire.com/p/1" ⟨by decide, by decide⟩

/-- C8, as amended: every listing produced has a reference that is not empty and
the page URL as its url; no listing is produced when the label does not occur
in the text (for Afedim, Giboire and La Française Immobilière, whose scan reads
a space of the label as any run of blanks: when it does not occur even with
every run of blanks of the text read as one space), nor when the text is the
label followed by white space alone; and the callback always returns, keeping
the listings collected before. -/
theorem extraction_listings_wellformed :
    (∀ (x : Source) (text url : String) (a : Announcement), a ∈ x.listings text url →
        a.propertyReference ≠ "" ∧ a.url = url)
    ∧ (∀ x ∈ [Source.foncia, Source.agenceDuColombier, Source.guenno, Source.laMotte,
          Source.kermarrec, Source.nestenn],
        ∀ (text url : String), ¬ Occurs x.label text → x.listings text url = [])
    ∧ (∀ x ∈ [Source.afedim, Source.giboire, Source.laFrancaiseImmobiliere],
        ∀ (text url : String), ¬ OccursLoosely x.label text → x.listings text url = [])
    ∧ (∀ (x : Source) (ws url : String), AllSpace ws → x.listings (x.label ++ ws) url = [])
    ∧ (∀ (x : Source) (text url : String) (st : Extraction),
        (x.processDetailPages text url st).announcements =
          st.announcements ++ x.listings text url) :=
  ⟨listings_wellformed,
   fun x hx text url h => listings_label_absent x hx text url h,
   fun x hx text url h => listings_label_absent_loosely x hx text url h,
   listings_label_spaces,
   fun x text url st => (processDetailPages_frame x text url st).1⟩

/-- Witness for C8: Guenno gives no listing for a text without its label,
Giboire none for a text without "Réf :" even read loosely, Foncia none for its
label followed by spaces, and the listing that Kermarrec extracts from
"(ref : AB12)" has a reference that is not empty and the page URL. -/
theorem extraction_listings_wellformed_witness :
    Source.guenno.listings "Prix : 500" "u" = []
      ∧ Source.giboire.listings "Ref. AB1" "u" = []
      ∧ Source.foncia.listings (Source.foncia.label ++ "  \n") "u" = []
      ∧ ((⟨"AB12", "u"⟩ : Announcement).propertyReference ≠ ""
          ∧ (⟨"AB12", "u"⟩ : Announcement).url = "u") :=
  ⟨extraction_listings_wellformed.2.1 Source.guenno (by decide) "Prix : 500" "u"
      (by unfold Occurs; decide),
   extraction_listings_wellformed.2.2.1 Source.giboire (by decide) "Ref. AB1" "u"
      (by unfold OccursLoosely; decide),
   extraction_listings_wellformed.2.2.2.1 Source.foncia "  \n" "u"
      (by unfold AllSpace; decide),
   extraction_listings_wellformed.1 Source.kermarrec "(ref : AB12)" "u" ⟨"AB12", "u"⟩
      (by decide)⟩

/-- Counterexample to C8 as stated: the label "Réf :" does not occur in the text
"Réf", tab, ":", tab, "AB1", nor in "Réf", no-break space, ": AB1", and Giboire
produces a listing from each. -/
theorem listing_without_literal_label :
    (¬ Occurs Source.giboire.label "Réf\t:\tAB1"
      ∧ Source.giboire.listings "Réf\t:\tAB1" "u" =
        [{ propertyReference := "AB1", url := "u" }])
    ∧ (¬ Occurs Source.giboire.label "Réf\u00a0: AB1"
      ∧ Source.giboire.listings "Réf\u00a0: AB1" "u" =
        [{ propertyReference := "AB1", url := "u" }]) := by
  unfold Occurs
  decide

/-- C9, as amended: for every strategy but Afedim, a node text from which no
listing is produced gets at least one diagnostic line (for Agence du
Colombier: a paragraph text that contains "REF:"; the other paragraphs are
skipped without a line); in particular "REF: " with nothing after the label
gives no listing and one diagnostic. -/
theorem extraction_failure_logged :
    (∀ (x : Source) (text url : String), x ≠ Source.afedim →
        (x = Source.agenceDuColombier → Occurs "REF:" text) →
        x.listings text url = [] → x.diagnostics text url ≠ [])
    ∧ (∀ url : String, Source.agenceDuColombier.listings "REF: " url = []
        ∧ Source.agenceDuColombier.diagnostics "REF: " url =
          ["Impossible d'extraire la référence depuis : REF:"]) := by
  refine ⟨diagnostics_of_no_listing, ?_⟩
  intro url
  constructor
  · have h : ("REF: " : String) = Source.agenceDuColombier.label ++ " " := by decide
    rw [h]
    exact listings_label_spaces Source.agenceDuColombier " " url (by unfold AllSpace; decide)
  · rfl

/-- Witness for C9: Giboire logs a line for a text it cannot scan. -/
theorem extraction_failure_logged_witness :
    Source.giboire.diagnostics "Prix : 500" "u" ≠ [] :=
  extraction_failure_logged.1 Source.giboire "Prix : 500" "u" (by decide)
    (fun h => absurd h (by decide)) (by decide)

/-- Counterexample to C9 as stated: from the non-empty paragraph text
"Prix : 500" Agence du Colombier produces no listing and logs nothing, and so
does its callback on a details block whose paragraphs are "Prix : 500" and
"Surface : 30 m2". -/
theorem colombier_paragraph_skipped_silently :
    ("Prix : 500" : String) ≠ ""
      ∧ Source.agenceDuColombier.listings "Prix : 500" "u" = []
      ∧ Source.agenceDuColombier.diagnostics "Prix : 500" "u" = []
      ∧ processDetailPagesAgenceDuColombier ["Prix : 500", "Surface : 30 m2"] "u"
          Extraction.empty = Extraction.empty := by
  decide

/-- C10: white space before the node text changes what Giboire and Afedim
extract: "Réf : AB1234" gives the listing AB1234 with Giboire, the same text
after one space gives none (and a diagnostic); "Référence du bien : 1234" gives
the listing 1234 with Afedim, the same text after a newline gives none (and no
diagnostic).  The seven other callbacks trim the text first and do the same
with white space added on both sides. -/
theorem giboire_afedim_scan_untrimmed_text :
    (Source.giboire.listings "Réf : AB1234" "u" = [{ propertyReference := "AB1234", url := "u" }]
      ∧ Source.giboire.listings " Réf : AB1234" "u" = []
      ∧ Source.giboire.diagnostics " Réf : AB1234" "u" =
          ["Impossible d'extraire la référence depuis :  Réf : AB1234"])
    ∧ (Source.afedim.listings "Référence du bien : 1234" "u" =
          [{ propertyReference := "1234", url := "u" }]
      ∧ Source.afedim.listings "\nRéférence du bien : 1234" "u" = []
      ∧ Source.afedim.diagnostics "\nRéférence du bien : 1234" "u" = [])
    ∧ (∀ x ∈ [Source.foncia, Source.agenceDuColombier, Source.laFrancaiseImmobiliere,
          Source.guenno, Source.laMotte, Source.kermarrec, Source.nestenn],
        ∀ (ws1 t ws2 url : String) (st : Extraction), AllSpace ws1 → AllSpace ws2 →
          x.processDetailPages (ws1 ++ t ++ ws2) url st = x.processDetailPages t url st) := by
  refine ⟨by decide, by decide, ?_⟩
  intro x hx ws1 t ws2 url st h1 h2
  exact processDetailPages_surround x hx ws1 t ws2 url st h1 h2

/-- Witness for C10: Foncia extracts the same from "Réf. AB1234" with a space
before and a newline after. -/
theorem giboire_afedim_scan_untrimmed_text_witness :
    Source.foncia.processDetailPages (" " ++ "Réf. AB1234" ++ "\n") "u" Extraction.empty =
      Source.foncia.processDetailPages "Réf. AB1234" "u" Extraction.empty :=
  giboire_afedim_scan_untrimmed_text.2.2 Source.foncia (by decide) " " "Réf. AB1234" "\n" "u"
    Extraction.empty (by unfold AllSpace; decide) (by unfold AllSpace; decide)

end ExtractionClaims

/-! ## The search-page callbacks as lists -/

section Discovery

theorem candidates_nil (o : String) : candidates o [] = [] := rfl

theorem candidates_append (o : String) (p q : List String) :
    candidates o (p ++ q) = candidates o p ++ candidates o q := by
  simp [candidates]

theorem candidates_singleton (o h : String) :
    candidates o [h] = if h ≠ "" then [o ++ h] else [] := by
  by_cases hh : h = "" <;> simp [candidates, hh]

theorem candidates_verbatim (hrefs : List String) :
    candidates "" hrefs = hrefs.filter (fun h => decide (h ≠ "")) := by
  unfold candidates
  simp [String.empty_append]

/-- A loop that appends `o ++ h` for each non-empty `h`, and leaves the slice
alone otherwise, appends the candidates. -/
theorem foldl_detailPageURLs (o : String) (step : Discovery → String → Discovery)
    (hstep : ∀ st h, (step st h).detailPageURLs =
      st.detailPageURLs ++ (if h ≠ "" then [o ++ h] else []))
    (hrefs : List String) (st : Discovery) :
    (hrefs.foldl step st).detailPageURLs = st.detailPageURLs ++ candidates o hrefs := by
  induction hrefs generalizing st with
  | nil => simp [candidates]
  | cons h hrefs ih =>
    rw [List.foldl_cons, ih, hstep]
    have : h :: hrefs = [h] ++ hrefs := rfl
    rw [this, candidates_append, candidates_singleton, List.append_assoc]

theorem afedim_detailPageURLs (items : List (List String)) (st : Discovery) :
    (setupMainPageAfedim items st).detailPageURLs =
      st.detailPageURLs ++ candidates "https://www.afedim.fr" items.flatten := by
  unfold setupMainPageAfedim
  rw [← List.foldl_flatten]
  apply foldl_detailPageURLs
  intro st h
  by_cases hh : h = "" <;> simp [hh, Discovery.append]

theorem giboire_detailPageURLs (divs : List GiboireDiv) (st : Discovery) :
    (setupMainPageGiboire divs st).detailPageURLs =
      st.detailPageURLs ++ candidates "" (divs.map GiboireDiv.link) := by
  unfold setupMainPageGiboire
  induction divs generalizing st with
  | nil => simp [candidates]
  | cons div divs ih =>
    rw [List.foldl_cons, ih, List.map_cons]
    have hc : div.link :: divs.map GiboireDiv.link = [div.link] ++ divs.map GiboireDiv.link := rfl
    rw [hc, candidates_append, candidates_singleton, ← List.append_assoc]
    congr 1
    unfold GiboireDiv.link
    by_cases ha : div.articles > 0
    · by_cases hs : div.secondDivs > 0
      · cases hh : div.href with
        | none => simp [ha, hs]
        | some href =>
          by_cases he : href = "" <;>
            simp [ha, hs, he, Discovery.append, String.empty_append]
      · simp [ha, hs]
    · simp [ha]

theorem flat_detailPageURLs (line : String) (hrefs : List String) (st : Discovery) :
    (hrefs.foldl (fun st href => if href ≠ "" then st.append href else st.println line)
        st).detailPageURLs =
      st.detailPageURLs ++ candidates "" hrefs := by
  apply foldl_detailPageURLs
  intro st h
  by_cases hh : h = "" <;> simp [hh, Discovery.append, Discovery.println, String.empty_append]

theorem colombier_detailPageURLs (hrefs : List String) (st : Discovery) :
    (setupMainPageAgenceDuColombier hrefs st).detailPageURLs =
      st.detailPageURLs ++ candidates "" hrefs := by
  unfold setupMainPageAgenceDuColombier
  apply foldl_detailPageURLs
  intro st h
  by_cases hh : h = "" <;> simp [hh, Discovery.append, String.empty_append]

theorem laFrancaise_detailPageURLs (hrefs : List String) (st : Discovery) :
    (hrefs.foldl (fun st detailLink => setupMainPageLaFrancaiseImmobiliere detailLink st)
        st).detailPageURLs =
      st.detailPageURLs ++ candidates "" hrefs := by
  apply foldl_detailPageURLs
  intro st h
  unfold setupMainPageLaFrancaiseImmobiliere
  by_cases hh : h = "" <;> simp [hh, Discovery.append, Discovery.println, String.empty_append]

theorem urlset_apply (m : URLSet) (k x : String) :
    m.set k x = if x = k then some () else m x := rfl

/-- The loop of Foncia on a flat list of `href`s. -/
theorem foncia_flat (hrefs : List String) (st : URLSet × Discovery) :
    ((hrefs.foldl (fun (st : URLSet × Discovery) href =>
        if href ≠ "" then
          match st.1 ("https://fr.foncia.com" ++ href) with
          | some _ => st
          | none => (st.1.set ("https://fr.foncia.com" ++ href),
              st.2.append ("https://fr.foncia.com" ++ href))
        else st) st).2.detailPageURLs =
      st.2.detailPageURLs ++ freshURLs st.1 (candidates "https://fr.foncia.com" hrefs)) := by
  induction hrefs generalizing st with
  | nil => simp [candidates, freshURLs]
  | cons h hrefs ih =>
    rw [List.foldl_cons, ih]
    have hc : h :: hrefs = [h] ++ hrefs := rfl
    rw [hc, candidates_append, candidates_singleton]
    by_cases hh : h = ""
    · simp [hh]
    · simp only [hh, ne_eq, not_false_eq_true, if_true, List.singleton_append]
      cases hs : st.1 ("https://fr.foncia.com" ++ h) with
      | some u => simp [freshURLs, hs]
      | none => simp [freshURLs, hs, Discovery.append]

theorem foncia_detailPageURLs (annonces : List (List String)) (st : URLSet × Discovery) :
    (setupMainPageFoncia annonces st).2.detailPageURLs =
      st.2.detailPageURLs ++
        freshURLs st.1 (candidates "https://fr.foncia.com" annonces.flatten) := by
  unfold setupMainPageFoncia
  rw [← List.foldl_flatten]
  exact foncia_flat annonces.flatten st

theorem freshURLs_sublist (seen : URLSet) (l : List String) : (freshURLs seen l).Sublist l := by
  induction l generalizing seen with
  | nil => exact List.Sublist.slnil
  | cons u l ih =>
    unfold freshURLs
    cases seen u with
    | some x => exact (ih seen).cons u
    | none => exact (ih _).cons₂ u

theorem mem_freshURLs (seen : URLSet) (l : List String) (u : String) :
    u ∈ freshURLs seen l ↔ seen u = none ∧ u ∈ l := by
  induction l generalizing seen with
  | nil => simp [freshURLs]
  | cons v l ih =>
    unfold freshURLs
    cases hv : seen v with
    | some x =>
      simp only [ih, List.mem_cons]
      constructor
      · rintro ⟨h1, h2⟩; exact ⟨h1, Or.inr h2⟩
      · rintro ⟨h1, h2 | h2⟩
        · rw [h2, hv] at h1; cases h1
        · exact ⟨h1, h2⟩
    | none =>
      simp only [List.mem_cons, ih, urlset_apply]
      by_cases huv : u = v
      · subst huv; simp [hv]
      · simp [huv]

theorem freshURLs_nodup (seen : URLSet) (l : List String) : (freshURLs seen l).Nodup := by
  induction l generalizing seen with
  | nil => simp [freshURLs]
  | cons v l ih =>
    unfold freshURLs
    cases hv : seen v with
    | some x => exact ih seen
    | none =>
      simp only [List.nodup_cons]
      refine ⟨?_, ih _⟩
      rw [mem_freshURLs]
      simp [urlset_apply]

/-- One more URL at the end is kept exactly when it is new. -/
theorem freshURLs_concat (seen : URLSet) (l : List String) (u : String) :
    freshURLs seen (l ++ [u]) =
      freshURLs seen l ++ (if seen u = none ∧ u ∉ l then [u] else []) := by
  induction l generalizing seen with
  | nil =>
    cases hu : seen u <;> simp [freshURLs, hu]
  | cons v l ih =>
    rw [List.cons_append]
    unfold freshURLs
    cases hv : seen v with
    | some x =>
      simp only [ih, List.mem_cons, not_or]
      by_cases huv : u = v
      · subst huv; simp [hv]
      · simp [huv]
    | none =>
      simp only [ih, List.cons_append, urlset_apply, List.mem_cons, not_or]
      by_cases huv : u = v
      · subst huv; simp
      · simp [huv]

/-- Without repeated URL and from the empty set nothing is removed. -/
theorem freshURLs_of_nodup (l : List String) (h : l.Nodup) : freshURLs URLSet.empty l = l := by
  have key : ∀ (seen : URLSet) (l : List String), l.Nodup → (∀ u ∈ l, seen u = none) →
      freshURLs seen l = l := by
    intro seen l
    induction l generalizing seen with
    | nil => intro _ _; rfl
    | cons v l ih =>
      intro hnd hs
      obtain ⟨hv, hnd'⟩ := List.nodup_cons.1 hnd
      unfold freshURLs
      rw [hs v (List.mem_cons_self _ _)]
      simp only [List.cons.injEq, true_and]
      apply ih _ hnd'
      intro u hu
      have hne : u ≠ v := by
        intro huv
        rw [huv] at hu
        exact hv hu
      rw [urlset_apply, if_neg hne]
      exact hs u (List.mem_cons_of_mem _ hu)
  exact key _ l h (fun _ _ => rfl)

/-- The discovery of every agency but Foncia: the candidates. -/
theorem discover_eq_candidates (x : Source) (hx : x ≠ Source.foncia) (hrefs : List String) :
    x.discover hrefs = candidates x.origin hrefs := by
  cases x
  · show (setupMainPageAfedim [hrefs] Discovery.empty).detailPageURLs = _
    rw [afedim_detailPageURLs]
    simp [Discovery.empty, Source.origin]
  · show (setupMainPageGiboire _ Discovery.empty).detailPageURLs = _
    rw [giboire_detailPageURLs, List.map_map]
    have : (GiboireDiv.link ∘ fun h => (⟨1, 1, some h⟩ : GiboireDiv)) = id := by
      funext h
      simp [GiboireDiv.link]
    rw [this, List.map_id]
    simp [Discovery.empty, Source.origin]
  · exact absurd rfl hx
  · show (setupMainPageAgenceDuColombier hrefs Discovery.empty).detailPageURLs = _
    rw [colombier_detailPageURLs]
    simp [Discovery.empty, Source.origin]
  · show (hrefs.foldl (fun st detailLink => setupMainPageLaFrancaiseImmobiliere detailLink st)
      Discovery.empty).detailPageURLs = _
    rw [laFrancaise_detailPageURLs]
    simp [Discovery.empty, Source.origin]
  · show (setupMainPageGuenno hrefs Discovery.empty).detailPageURLs = _
    unfold setupMainPageGuenno
    rw [flat_detailPageURLs]
    simp [Discovery.empty, Source.origin]
  · show (setupMainPageLaMotte hrefs Discovery.empty).detailPageURLs = _
    unfold setupMainPageLaMotte
    rw [flat_detailPageURLs]
    simp [Discovery.empty, Source.origin]
  · show (setupMainPageKermarrec hrefs Discovery.empty).detailPageURLs = _
    unfold setupMainPageKermarrec
    rw [flat_detailPageURLs]
    simp [Discovery.empty, Source.origin]
  · show (setupMainPageNestenn hrefs Discovery.empty).detailPageURLs = _
    unfold setupMainPageNestenn
    rw [flat_detailPageURLs]
    simp [Discovery.empty, Source.origin]

/-- The discovery of Foncia: the candidates, each at its first occurrence. -/
theorem discover_foncia (hrefs : List String) :
    Source.foncia.discover hrefs =
      freshURLs URLSet.empty (candidates Source.foncia.origin hrefs) := by
  show (setupMainPageFoncia [hrefs] (URLSet.empty, Discovery.empty)).2.detailPageURLs = _
  rw [foncia_detailPageURLs]
  simp [Discovery.empty, Source.origin]

end Discovery

/-! ## Claims on the discovery -/

section DiscoveryClaims

/-- C11, as amended: every discovery but that of Foncia returns, for the
matched elements in document order, the `href`s that are not empty in that
order, one per element, behind the origin for Afedim and as they are for the
other seven.  Foncia returns them behind its origin in that order too, but each
distinct URL only once, for the first element that has it: going through the
elements, an element adds its URL exactly when its `href` is not empty and no
earlier element had that URL; so no URL is repeated, and every element adds its
URL when no `href` repeats.  The same holds for the callbacks on their nested
elements and on any slice built before.  Without matched element the result is
empty; the functions are total. -/
theorem discovery_returns_hrefs_in_order :
    (∀ x : Source, x ≠ Source.foncia → ∀ hrefs : List String,
        x.discover hrefs =
          (hrefs.filter (fun h => decide (h ≠ ""))).map (fun h => x.origin ++ h))
    ∧ (∀ x : Source, x ≠ Source.foncia → x ≠ Source.afedim → ∀ hrefs : List String,
        x.discover hrefs = hrefs.filter (fun h => decide (h ≠ "")))
    ∧ (Source.afedim.origin = "https://www.afedim.fr"
        ∧ Source.foncia.origin = "https://fr.foncia.com")
    ∧ (∀ (p : List String) (h : String),
        Source.foncia.discover (p ++ [h]) =
          Source.foncia.discover p ++
            (if h ≠ "" ∧
                "https://fr.foncia.com" ++ h ∉
                  (p.filter (fun k => decide (k ≠ ""))).map (fun k => "https://fr.foncia.com" ++ k)
              then ["https://fr.foncia.com" ++ h] else []))
    ∧ (∀ hrefs : List String,
        (Source.foncia.discover hrefs).Nodup
        ∧ (Source.foncia.discover hrefs).Sublist (candidates Source.foncia.origin hrefs)
        ∧ (∀ u, u ∈ Source.foncia.discover hrefs ↔ u ∈ candidates Source.foncia.origin hrefs)
        ∧ ((candidates Source.foncia.origin hrefs).Nodup →
            Source.foncia.discover hrefs = candidates Source.foncia.origin hrefs))
    ∧ (∀ hrefs : List String,
        candidates Source.foncia.origin hrefs =
          (hrefs.filter (fun k => decide (k ≠ ""))).map (fun k => "https://fr.foncia.com" ++ k))
    ∧ (∀ (items : List (List String)) (st : Discovery),
        (setupMainPageAfedim items st).detailPageURLs =
          st.detailPageURLs ++ candidates "https://www.afedim.fr" items.flatten)
    ∧ (∀ (divs : List GiboireDiv) (st : Discovery),
        (setupMainPageGiboire divs st).detailPageURLs =
          st.detailPageURLs ++ (divs.map GiboireDiv.link).filter (fun h => decide (h ≠ "")))
    ∧ (∀ (annonces : List (List String)),
        (setupMainPageFoncia annonces (URLSet.empty, Discovery.empty)).2.detailPageURLs =
          Source.foncia.discover annonces.flatten)
    ∧ (∀ x : Source, x.discover [] = []) := by
  refine ⟨?_, ?_, ⟨rfl, rfl⟩, ?_, ?_, fun _ => rfl, afedim_detailPageURLs, ?_, ?_, ?_⟩
  · intro x hx hrefs
    exact discover_eq_candidates x hx hrefs
  · intro x hx ha hrefs
    rw [discover_eq_candidates x hx hrefs, ← candidates_verbatim]
    cases x <;> first | rfl | exact absurd rfl hx | exact absurd rfl ha
  · intro p h
    show Source.foncia.discover (p ++ [h]) = Source.foncia.discover p ++
      (if h ≠ "" ∧ Source.foncia.origin ++ h ∉ candidates Source.foncia.origin p
        then [Source.foncia.origin ++ h] else [])
    rw [discover_foncia, discover_foncia, candidates_append, candidates_singleton]
    by_cases hh : h = ""
    · simp [hh]
    · simp only [ne_eq, hh, not_false_eq_true, if_true, true_and]
      rw [freshURLs_concat]
      simp [URLSet.empty]
  · intro hrefs
    rw [discover_foncia]
    refine ⟨freshURLs_nodup _ _, freshURLs_sublist _ _, ?_, freshURLs_of_nodup _⟩
    intro u
    rw [mem_freshURLs]
    simp [URLSet.empty]
  · intro divs st
    rw [giboire_detailPageURLs, candidates_verbatim]
  · intro annonces
    rw [foncia_detailPageURLs, discover_foncia]
    simp [Discovery.empty, Source.origin]
  · intro x
    cases x <;> rfl

/-- Witness for C11: Afedim puts its origin before the two `href`s that are not
empty, repeats kept, and Guenno returns them as they are; Foncia adds nothing
for a third element whose `href` "/a" was that of the first. -/
theorem discovery_returns_hrefs_in_order_witness :
    Source.afedim.discover ["/a", "", "/b", "/a"] =
        (["/a", "", "/b", "/a"].filter (fun h => decide (h ≠ ""))).map
          (fun h => Source.afedim.origin ++ h)
      ∧ Source.guenno.discover ["/a", "", "/b", "/a"] =
        ["/a", "", "/b", "/a"].filter (fun h => decide (h ≠ ""))
      ∧ Source.foncia.discover (["/a", "/b"] ++ ["/a"]) =
        ["https://fr.foncia.com/a", "https://fr.foncia.com/b"] :=
  ⟨discovery_returns_hrefs_in_order.1 Source.afedim (by decide) ["/a", "", "/b", "/a"],
   discovery_returns_hrefs_in_order.2.1 Source.guenno (by decide) (by decide)
     ["/a", "", "/b", "/a"],
   (discovery_returns_hrefs_in_order.2.2.2.1 ["/a", "/b"] "/a").trans (by decide)⟩

/-- Counterexample to C11 as stated: for two matched elements with the same
`href` "/a", Foncia returns one URL, not the URLs of the two elements. -/
theorem foncia_discovery_drops_repeated_element :
    Source.foncia.discover ["/a", "/a"] = ["https://fr.foncia.com/a"]
      ∧ Source.foncia.discover ["/a", "/a"] ≠
        (["/a", "/a"].filter (fun h => decide (h ≠ ""))).map
          (fun h => "https://fr.foncia.com" ++ h) := by
  decide

/-- C12: Foncia returns each distinct URL once (no repeat, the same URLs as the
candidates, in their order), a URL being added exactly when its element is the
first with that `href`, also when the elements are spread over several
`div`s; each of the eight other discoveries returns one URL per matched element
with a non-empty `href`, repeats included. -/
theorem foncia_alone_removes_duplicates :
    (∀ hrefs : List String,
        (Source.foncia.discover hrefs).Nodup
        ∧ (∀ u, u ∈ Source.foncia.discover hrefs ↔ u ∈ candidates Source.foncia.origin hrefs)
        ∧ (Source.foncia.discover hrefs).Sublist (candidates Source.foncia.origin hrefs))
    ∧ (∀ (p : List String) (h : String),
        Source.foncia.discover (p ++ [h]) =
          Source.foncia.discover p ++
            (if h ≠ "" ∧ Source.foncia.origin ++ h ∉ candidates Source.foncia.origin p
              then [Source.foncia.origin ++ h] else []))
    ∧ (∀ x : Source, x ≠ Source.foncia → ∀ hrefs : List String,
        x.discover hrefs = candidates x.origin hrefs
        ∧ (x.discover hrefs).length = (hrefs.filter (fun h => decide (h ≠ ""))).length)
    ∧ (∀ x : Source, x ≠ Source.foncia → ∀ h : String, h ≠ "" →
        x.discover [h, h] = [x.origin ++ h, x.origin ++ h])
    ∧ (∀ h : String, h ≠ "" →
        Source.foncia.discover [h, h] = [Source.foncia.origin ++ h])
    ∧ (∀ annonces : List (List String),
        (setupMainPageFoncia annonces (URLSet.empty, Discovery.empty)).2.detailPageURLs =
          Source.foncia.discover annonces.flatten) := by
  refine ⟨?_, ?_, ?_, ?_, ?_, ?_⟩
  · intro hrefs
    rw [discover_foncia]
    refine ⟨freshURLs_nodup _ _, ?_, freshURLs_sublist _ _⟩
    intro u
    rw [mem_freshURLs]
    simp [URLSet.empty]
  · intro p h
    rw [discover_foncia, discover_foncia, candidates_append, candidates_singleton]
    by_cases hh : h = ""
    · simp [hh]
    · simp only [ne_eq, hh, not_false_eq_true, if_true, true_and]
      rw [freshURLs_concat]
      simp [URLSet.empty]
  · intro x hx hrefs
    rw [discover_eq_candidates x hx hrefs]
    exact ⟨rfl, by simp [candidates]⟩
  · intro x hx h hh
    rw [discover_eq_candidates x hx]
    simp [candidates, hh]
  · intro h hh
    rw [discover_foncia]
    simp [candidates, hh, freshURLs, URLSet.empty, urlset_apply]
  · intro annonces
    rw [foncia_detailPageURLs, discover_foncia]
    simp [Discovery.empty, Source.origin]

/-- Witness for C12: on the repeated `href` "/a" Kermarrec returns two URLs and
Foncia one. -/
theorem foncia_alone_removes_duplicates_witness :
    Source.kermarrec.discover ["/a", "/a"] =
        [Source.kermarrec.origin ++ "/a", Source.kermarrec.origin ++ "/a"]
      ∧ Source.foncia.discover ["/a", "/a"] = [Source.foncia.origin ++ "/a"] :=
  ⟨foncia_alone_removes_duplicates.2.2.2.1 Source.kermarrec (by decide) "/a" (by decide),
   foncia_alone_removes_duplicates.2.2.2.2.1 "/a" (by decide)⟩

end DiscoveryClaims

/-! ## The text of a notification and the configured sources -/

section MessageClaims

variable {σ : Type}

/-- C13: the texts that `processAgencyScraping` passes to the notifier are, in
order, those of the newly observed announcements, each exactly the title, a
newline, "Nouvelle annonce immobilière !", a newline, "Référence : " and the
reference, a newline, "URL : " and the URL; the title, the reference and the
URL each occur in it as they are. -/
theorem notification_text_exact (scrape : Scrape) (send : Notifier σ) (st : Run σ)
    (url title : String) (nameAgency : Agency) :
    (processAgencyScraping scrape send st url title nameAgency).notifier =
        ((freshOf st.processedReferences (scrape nameAgency url)).map
          (fun a => title ++ "\n" ++ "Nouvelle annonce immobilière !" ++ "\n" ++ "Référence : "
            ++ a.propertyReference ++ "\n" ++ "URL : " ++ a.url)).foldl
          (fun s text => (send s text).1) st.notifier
    ∧ (∀ (texts : List String),
        (processAgencyScraping scrape recordTexts
            ⟨st.processedReferences, texts, st.trace⟩ url title nameAgency).notifier =
          texts ++ (freshOf st.processedReferences (scrape nameAgency url)).map
            (fun a => title ++ "\n" ++ "Nouvelle annonce immobilière !" ++ "\n"
              ++ "Référence : " ++ a.propertyReference ++ "\n" ++ "URL : " ++ a.url))
    ∧ (∀ (reference pageURL : String),
        Occurs title (title ++ "\n" ++ "Nouvelle annonce immobilière !" ++ "\n"
          ++ "Référence : " ++ reference ++ "\n" ++ "URL : " ++ pageURL)
        ∧ Occurs reference (title ++ "\n" ++ "Nouvelle annonce immobilière !" ++ "\n"
          ++ "Référence : " ++ reference ++ "\n" ++ "URL : " ++ pageURL)
        ∧ Occurs pageURL (title ++ "\n" ++ "Nouvelle annonce immobilière !" ++ "\n"
          ++ "Référence : " ++ reference ++ "\n" ++ "URL : " ++ pageURL)) := by
  have hmap : (fun a : Announcement => (notify title a).text) =
      (fun a => title ++ "\n" ++ "Nouvelle annonce immobilière !" ++ "\n" ++ "Référence : "
        ++ a.propertyReference ++ "\n" ++ "URL : " ++ a.url) := by
    funext a
    exact text_eq title a
  refine ⟨?_, ?_, ?_⟩
  · unfold processAgencyScraping
    rw [notifier_foldl, hmap]
  · intro texts
    unfold processAgencyScraping
    rw [notifier_foldl, hmap, foldl_recordTexts]
  · intro reference pageURL
    unfold Occurs
    simp only [String.data_append, List.append_assoc]
    refine ⟨(List.prefix_append _ _).isInfix, ?_, ?_⟩
    · exact ⟨title.data ++ (("\n" : String).data ++ (("Nouvelle annonce immobilière !" :
        String).data ++ (("\n" : String).data ++ ("Référence : " : String).data))),
        ("\n" : String).data ++ (("URL : " : String).data ++ pageURL.data), by simp⟩
    · exact ⟨title.data ++ (("\n" : String).data ++ (("Nouvelle annonce immobilière !" :
        String).data ++ (("\n" : String).data ++ (("Référence : " : String).data ++
        (reference.data ++ (("\n" : String).data ++ ("URL : " : String).data)))))),
        [], by simp⟩

/-- Witness for C13: from the empty seen-set, the announcement AB1234 of the
page "https://x/1" under the title "GIBOIRE" is passed to the notifier as the
four lines of the message. -/
theorem notification_text_exact_witness :
    (processAgencyScraping (fun _ _ => [⟨"AB1234", "https://x/1"⟩]) recordTexts
        ⟨RefMap.empty, [], []⟩ "search" "GIBOIRE" Giboire).notifier =
      ["GIBOIRE\nNouvelle annonce immobilière !\nRéférence : AB1234\nURL : https://x/1"] :=
  ((notification_text_exact (fun _ _ => [⟨"AB1234", "https://x/1"⟩]) recordTexts
    ⟨RefMap.empty, [], []⟩ "search" "GIBOIRE" Giboire).2.1 []).trans (by decide)

/-- C14: in the list of sources that one pass of `RunScraper` goes through, the
nine names are pairwise distinct (and are the constants of agency.go), but the
search URLs are not: La Motte is called with the URL of Kermarrec; all other
pairs of sources have distinct URLs. -/
theorem laMotte_polled_at_kermarrec_url :
    (∀ x y : Source, x.nameAgency = y.nameAgency → x = y)
    ∧ (Source.all.map Source.nameAgency).Nodup
    ∧ Source.all.map Source.nameAgency =
        [Afedim, Giboire, Foncia, AgenceDuColombier, LaFrancaiseImmobiliere, Guenno, LaMotte,
          Kermarrec, Nestenn]
    ∧ Source.laMotte.url = Source.kermarrec.url
    ∧ ¬ (Source.all.map Source.url).Nodup
    ∧ (∀ x y : Source, x.url = y.url →
        x = y ∨ (x = Source.laMotte ∧ y = Source.kermarrec)
          ∨ (x = Source.kermarrec ∧ y = Source.laMotte)) := by
  refine ⟨?_, by decide, by decide, rfl, ?_, ?_⟩
  · intro x y
    cases x <;> cases y <;> first | (intro _; rfl) | (intro h; revert h; decide)
  · intro h
    have hsub : ([Source.laMotte, Source.kermarrec].map Source.url).Sublist
        (Source.all.map Source.url) := List.Sublist.map _ (by decide)
    have hpair : ([Source.laMotte, Source.kermarrec].map Source.url).Nodup := h.sublist hsub
    rw [List.map_cons, List.map_cons, List.map_nil, List.nodup_cons] at hpair
    exact hpair.1 (List.mem_singleton.2 rfl)
  · intro x y
    cases x <;> cases y <;>
      first
        | (intro _; exact Or.inl rfl)
        | (intro _; exact Or.inr (Or.inl ⟨rfl, rfl⟩))
        | (intro _; exact Or.inr (Or.inr ⟨rfl, rfl⟩))
        | (intro h; revert h; decide)

/-- Witness for C14: the URL of La Motte is the URL of Kermarrec, while no
name occurs twice in the list of sources. -/
theorem laMotte_polled_at_kermarrec_url_witness :
    Source.laMotte.url = Source.kermarrec.url
      ∧ (Source.all.map Source.nameAgency).Nodup :=
  ⟨laMotte_polled_at_kermarrec_url.2.2.2.1, laMotte_polled_at_kermarrec_url.2.1⟩

end MessageClaims

end AgencyScraper
